import Mathlib

/-!
# A* search engine (`astar.h`): embedding and verification

The header `astar.h` defines `astar::PlanNode`, `astar::State` and the step function
`astar::aStar`.  They are embedded here as pure Lean definitions.

* `StateType` and `ActionType` are the type parameters `S` and `A`.  `S` carries a
  decidable equality, which stands both for `operator==` (used by `std::find_if` over the
  open list) and for the key equivalence of `std::map` (used by the closed list).
  A non-null action is a value `a : A`; calling it is `Domain.apply a`.  The null action
  of the start node is `none`.
* A `float` cost is embedded as the rational number it denotes (`Cost = ℚ`).  Every
  `float` addition of the source (`res += scan->G` in `getTotalG`, `getTotalG() + H` in
  `getF`) is `fadd`: the exact sum rounded to the nearest `float` (`roundF`: 24-bit
  significand, ties to even, gradual underflow).  Overflow to infinity and NaN are outside
  the embedding.  Comparisons of `float` values are comparisons of the rationals.
* The conversion `float → int` of `int nF = N->getF()` is truncation toward zero (`toInt`);
  it is exact within the range of `int` (outside it the conversion is undefined in the
  source, and `toInt` keeps the mathematical value).  The comparison `newnF < nF` converts
  the `int` back to a `float`, which is exact for a truncated `float`.
* A `PlanNode*` is embedded as the node value it points to (all fields of a node are
  `const`); `prevNode == 0` is the constructor `PlanNode.root`, a non-null `prevNode` is
  the last argument of `PlanNode.node`.
* `std::vector` is `List`; `std::map<StateType, PlanNode*>` is an association list with
  at most one pair per key, read by `closedFind` and written by `closedAssign`.
* `aStar` returns the search state after the call together with the returned `bool`.
  `calls D k state` is the search state after `k` successive calls, as made by the drive
  loops `while (false == astar::aStar(...))` of the two demonstration programs.

* The two demonstration programs are embedded in the namespaces `Goap`
  (`main_goal_oriented_action_planning.cpp`) and `Grid` (`main_path_finding_from_grid.cpp`).
  Their actions are functions on states, as in the source; their drive loops are `drive`,
  limited by a number of calls (`fuel`).  The Euclidean heuristic of the grid program
  (`sqrtf`) is a parameter of `Grid.domain`.

The first part of the file holds the definitions (the embedding, then the notions the
properties are stated with, the small instances and the two demonstration programs); the
second part holds the lemmas and the theorems `C1 … C20`.
-/

namespace astar

/-- The cost type: a `float` of the source is the rational number it denotes. -/
abbrev Cost := ℚ

/-- Conversion of a cost to `int`, as in `int nF = N->getF()`: truncation toward zero. -/
def toInt (x : Cost) : Int := x.num.tdiv x.den

/-- The power `2 ^ e` as a rational number. -/
def pow2 (e : Int) : ℚ :=
  if 0 ≤ e then ((2 ^ e.toNat : ℕ) : ℚ) else 1 / ((2 ^ (-e).toNat : ℕ) : ℚ)

/-- The number `⌊log₂ n⌋` for `0 < n ≤ fuel`, by repeated halving. -/
def log2Fuel : Nat → Nat → Nat
  | 0, _ => 0
  | fuel + 1, n => if n < 2 then 0 else log2Fuel fuel (n / 2) + 1

/-- The binary exponent `⌊log₂ a⌋` of a positive rational number `a`. -/
def floorLog2 (a : ℚ) : Int :=
  let e0 : Int := (log2Fuel a.num.toNat a.num.toNat : Int) - (log2Fuel a.den a.den : Int)
  if pow2 e0 ≤ a then e0 else e0 - 1

/-- Rounding of a non-negative rational number to the nearest natural number, ties to the
even one. -/
def roundHalfEven (x : ℚ) : ℕ :=
  let f := x.num.toNat / x.den
  let r2 := 2 * (x.num.toNat % x.den)
  if r2 < x.den then f else if x.den < r2 then f + 1 else if f % 2 = 0 then f else f + 1

/-- Rounding to `float` (IEEE 754 binary32, round to nearest, ties to even): the value is
rounded to a multiple of `2 ^ (e - 23)`, where `e` is its binary exponent, at least -126. -/
def roundF (x : ℚ) : Cost :=
  if x = 0 then 0
  else
    let quantum := pow2 (max (floorLog2 |x|) (-126) - 23)
    (if x < 0 then -1 else 1) * (roundHalfEven (|x| / quantum) : ℚ) * quantum

/-- The `float` addition `x + y`. -/
def fadd (x y : Cost) : Cost := roundF (x + y)

/-- The `float` subtraction `x - y`. -/
def fsub (x y : Cost) : Cost := roundF (x - y)

/-- The class `PlanNode`: constructor arguments in the order `state, action, g, h, prev`;
`root` is a node whose `prevNode` is null. -/
inductive PlanNode (S A : Type) where
  | root (state : S) (action : Option A) (g h : Cost) : PlanNode S A
  | node (state : S) (action : Option A) (g h : Cost) (prev : PlanNode S A) : PlanNode S A
  deriving DecidableEq

namespace PlanNode

variable {S A : Type}

/-- Field `state`. -/
def state : PlanNode S A → S
  | root s _ _ _ => s
  | node s _ _ _ _ => s

/-- Field `action` (`none` is the null action). -/
def action : PlanNode S A → Option A
  | root _ a _ _ => a
  | node _ a _ _ _ => a

/-- Field `G`. -/
def G : PlanNode S A → Cost
  | root _ _ g _ => g
  | node _ _ g _ _ => g

/-- Field `H`. -/
def H : PlanNode S A → Cost
  | root _ _ _ h => h
  | node _ _ _ h _ => h

/-- Field `prevNode` (`none` is the null pointer). -/
def prevNode : PlanNode S A → Option (PlanNode S A)
  | root _ _ _ _ => none
  | node _ _ _ _ p => some p

/-- The loop of `getTotalG`: `while (scan->prevNode) { res += scan->G; scan = scan->prevNode; }`. -/
def getTotalGLoop (res : Cost) : PlanNode S A → Cost
  | root _ _ _ _ => res
  | node _ _ g _ p => getTotalGLoop (fadd res g) p

/-- Method `getTotalG`. -/
def getTotalG (n : PlanNode S A) : Cost := getTotalGLoop 0 n

/-- Method `getF`: `getTotalG() + H`, a `float` addition. -/
def getF (n : PlanNode S A) : Cost := fadd n.getTotalG n.H

end PlanNode

/-- The struct `astar::State`. -/
structure State (S A : Type) where
  start : S
  openList : List (PlanNode S A)
  closedList : List (S × PlanNode S A)
  path : List A

/-- The constructor `State(startState)`: the open list holds the start node
`PlanNode(start, 0, 0, 0, 0)`, the closed list and the path are empty. -/
def State.new {S A : Type} (startState : S) : State S A :=
  { start := startState
    openList := [PlanNode.root startState none 0 0]
    closedList := []
    path := [] }

/-- The arguments of `aStar` other than the search state; `apply a pos` is the call
`action(pos)`. -/
structure Domain (S A : Type) where
  isEndState : S → Bool
  actions : List A
  apply : A → S → S
  getHCost : S → Cost
  getGCost : S → A → Cost
  isLegalAction : S → A → Bool

section Step

variable {S A : Type}

/-- The lambda `getNextStates`: the pairs `(action(pos), action)` of the legal actions,
in the order of `actions`. -/
def getNextStates (D : Domain S A) (pos : S) : List (S × A) :=
  D.actions.filterMap fun action =>
    if D.isLegalAction pos action then some (D.apply action pos, action) else none

/-- The variables `N`, `nF` and `index` of the selection scan. -/
structure Scan (S A : Type) where
  N : PlanNode S A
  nF : Int
  index : Nat
  deriving DecidableEq

/-- Body of the selection loop at position `i`, where `n` is `openList[i]`. -/
def scanStep (sc : Scan S A) (i : Nat) (n : PlanNode S A) : Scan S A :=
  let newnF := n.getF
  if newnF < (sc.nF : Cost) then { N := n, nF := toInt newnF, index := i } else sc

/-- The selection loop over the nodes from position `i` on. -/
def scanLoop (sc : Scan S A) (i : Nat) : List (PlanNode S A) → Scan S A
  | [] => sc
  | n :: rest => scanLoop (scanStep sc i n) (i + 1) rest

/-- Selection of the node `N`: `none` when the open list is empty. -/
def selectN : List (PlanNode S A) → Option (Scan S A)
  | [] => none
  | n0 :: rest => some (scanLoop { N := n0, nF := toInt n0.getF, index := 0 } 0 (n0 :: rest))

/-- The final loop of `aStar`, which inserts the non-null actions of the chain of
`result` at the front of `path`. -/
def buildPath : PlanNode S A → List A → List A
  | PlanNode.root _ a _ _, path =>
    match a with
    | some x => x :: path
    | none => path
  | PlanNode.node _ a _ _ p, path =>
    buildPath p (match a with
      | some x => x :: path
      | none => path)

/-- The node settled by a call of `aStar` on `state`, if the open list is not empty. -/
def settled (state : State S A) : Option (PlanNode S A) :=
  (selectN state.openList).map Scan.N

/-- The call of `aStar` on `state` settles a node whose state satisfies `isEndState`. -/
def found (D : Domain S A) (state : State S A) : Bool :=
  match settled state with
  | some N => D.isEndState N.state
  | none => false

variable [DecidableEq S]

/-- Lookup `closedList.find(k)`: `none` is `closedList.end()`. -/
def closedFind : List (S × PlanNode S A) → S → Option (PlanNode S A)
  | [], _ => none
  | (k', v) :: rest, k => if k' = k then some v else closedFind rest k

/-- Assignment `closedList[k] = v`: overwrites the entry of `k` or adds one. -/
def closedAssign : List (S × PlanNode S A) → S → PlanNode S A → List (S × PlanNode S A)
  | [], k, v => [(k, v)]
  | (k', v') :: rest, k, v =>
    if k' = k then (k', v) :: rest else (k', v') :: closedAssign rest k v

/-- The call `std::find_if(openList.begin(), openList.end(), n->state == newState)`:
the position and the node of the first match, `none` for `openList.end()`. -/
def findIf (newState : S) : List (PlanNode S A) → Option (Nat × PlanNode S A)
  | [] => none
  | n :: rest =>
    if n.state = newState then some (0, n)
    else (findIf newState rest).map fun r => (r.1 + 1, r.2)

/-- Body of the expansion loop for one pair `nextAction` of `getNextStates(N->state)`:
the open list afterwards. -/
def expandOne (D : Domain S A) (N : PlanNode S A) (closedList : List (S × PlanNode S A))
    (openList : List (PlanNode S A)) (nextAction : S × A) : List (PlanNode S A) :=
  let newState := nextAction.1
  let action := nextAction.2
  if (closedFind closedList newState).isSome then openList
  else
    let it := findIf newState openList
    let G := D.getGCost N.state nextAction.2
    let H := D.getHCost newState
    let newN := PlanNode.node newState (some action) G H N
    match it with
    | some (i, e) => if e.getTotalG > newN.getTotalG then openList.set i newN else openList
    | none => openList ++ [newN]

/-- The function `aStar`: the search state after the call and the returned flag. -/
def aStar (D : Domain S A) (state : State S A) : State S A × Bool :=
  match selectN state.openList with
  | none => (state, state.openList.length == 0)
  | some sc =>
    let N := sc.N
    let openList := state.openList.eraseIdx sc.index
    let closedList := closedAssign state.closedList N.state N
    if D.isEndState N.state then
      ({ state with openList := openList, closedList := closedList,
                    path := buildPath N state.path }, true)
    else
      let openList := (getNextStates D N.state).foldl (expandOne D N closedList) openList
      ({ state with openList := openList, closedList := closedList },
        openList.length == 0)

/-- The search state after `k` successive calls of `aStar`. -/
def calls (D : Domain S A) : Nat → State S A → State S A
  | 0, state => state
  | k + 1, state => (aStar D (calls D k state)).1

end Step

section Spec

variable {S A : Type}

/-- The state reached by applying the actions of `path` in order, starting from `s`. -/
def applyPath (D : Domain S A) : S → List A → S
  | s, [] => s
  | s, a :: rest => applyPath D (D.apply a s) rest

/-- Every action of `path` is legal (`isLegalAction`) in the state it is applied to, when
the actions are applied in order starting from `s`. -/
def legalPath (D : Domain S A) : S → List A → Bool
  | _, [] => true
  | s, a :: rest => D.isLegalAction s a && legalPath D (D.apply a s) rest

/-- The summed `getGCost` of the actions of `path`, applied in order starting from `s`. -/
def pathCost (D : Domain S A) : S → List A → Cost
  | _, [] => 0
  | s, a :: rest => D.getGCost s a + pathCost D (D.apply a s) rest

/-- The states reachable from `start` by a sequence of legal actions of the actions list. -/
inductive Reachable (D : Domain S A) (start : S) : S → Prop where
  | refl : Reachable D start start
  | step {s : S} {a : A} : Reachable D start s → a ∈ D.actions →
      D.isLegalAction s a = true → Reachable D start (D.apply a s)

/-- A node whose predecessor chain is a route from `start`: the chain ends in a node
without predecessor that holds `start` and the null action, and every other node of the
chain holds an action of the actions list that is legal in its predecessor's state and
leads from there to the node's own state. -/
def Chain (D : Domain S A) (start : S) : PlanNode S A → Prop
  | PlanNode.root s a _ _ => s = start ∧ a = none
  | PlanNode.node s a _ _ p =>
    (∃ x, a = some x ∧ x ∈ D.actions ∧ D.isLegalAction p.state x = true ∧
      s = D.apply x p.state) ∧ Chain D start p

/-- The node `newN` that the expansion of `N` constructs for the pair `p` of
`getNextStates(N->state)`. -/
def candidate (D : Domain S A) (N : PlanNode S A) (p : S × A) : PlanNode S A :=
  PlanNode.node p.1 (some p.2) (D.getGCost N.state p.2) (D.getHCost p.1) N

/-- The states of the nodes of an open list, in order. -/
def openStates (l : List (PlanNode S A)) : List S := l.map PlanNode.state

/-- The keys of a closed list, in order. -/
def closedKeys (l : List (S × PlanNode S A)) : List S := l.map Prod.fst

/-- The invariant of the search states of a run started on `State(start)`. -/
structure Inv (D : Domain S A) (start : S) (st : State S A) : Prop where
  start_eq : st.start = start
  open_nodup : (openStates st.openList).Nodup
  closed_nodup : (closedKeys st.closedList).Nodup
  disjoint : ∀ s ∈ openStates st.openList, s ∉ closedKeys st.closedList
  closed_state : ∀ p ∈ st.closedList, p.2.state = p.1
  open_chain : ∀ n ∈ st.openList, Chain D start n
  closed_chain : ∀ p ∈ st.closedList, Chain D start p.2

/-- The additional invariant of a run in which no call has settled a node satisfying
`isEndState` so far: the path is still empty, no settled state satisfies `isEndState`,
`start` is known, and every legal successor of a settled state is known. -/
structure Searching (D : Domain S A) (start : S) (st : State S A) : Prop where
  path_nil : st.path = []
  closed_not_goal : ∀ s ∈ closedKeys st.closedList, D.isEndState s = false
  start_known : start ∈ closedKeys st.closedList ∨ start ∈ openStates st.openList
  succ_known : ∀ s ∈ closedKeys st.closedList, ∀ a ∈ D.actions, D.isLegalAction s a = true →
    D.apply a s ∈ closedKeys st.closedList ∨ D.apply a s ∈ openStates st.openList

end Spec

section Examples

/-- A small instance with integer costs: the states are numbers, the action `a` leads
from `s` to `s + a` and is legal when `s + a ≤ 2`; the actions are `1` (cost 1) and `2`
(cost 5), the heuristic is zero, and the goal test is `s == goal`.  From `0` the state `2`
is first discovered by the action `2` (total 5) and later by two actions `1` (total 2). -/
def stepDomain (goal : Nat) : Domain Nat Nat :=
  { isEndState := fun s => s == goal
    actions := [1, 2]
    apply := fun a s => s + a
    getHCost := fun _ => 0
    getGCost := fun _ a => if a = 1 then 1 else 5
    isLegalAction := fun s a => decide (s + a ≤ 2) }

/-- An instance with fractional costs and zero heuristic: the action `true` leads to the
goal state `2` (cost 3/4 from the state `0`, cost 1/4 from any other state), the action
`false` leads to the state `1` (cost 1/4); every action is legal. -/
def fractionDomain : Domain Nat Bool :=
  { isEndState := fun s => s == 2
    actions := [true, false]
    apply := fun a _ => if a then 2 else 1
    getHCost := fun _ => 0
    getGCost := fun s a => if a then (if s = 0 then 3 / 4 else 1 / 4) else 1 / 4
    isLegalAction := fun _ _ => true }

end Examples

section Spec2

variable {S A : Type}

/-- The sum of `G` over a node and its ancestors, the node whose `prevNode` is null left
out. -/
def PlanNode.sumG : PlanNode S A → Cost
  | PlanNode.root _ _ _ _ => 0
  | PlanNode.node _ _ g _ p => g + PlanNode.sumG p

/-- The sum of `G` over a node and all its ancestors. -/
def PlanNode.sumGAll : PlanNode S A → Cost
  | PlanNode.root _ _ g _ => g
  | PlanNode.node _ _ g _ p => g + PlanNode.sumGAll p

/-- The nodes of the predecessor chain of a node other than the node whose `prevNode` is
null, listed from the first one after that node down to the node itself. -/
def PlanNode.chain : PlanNode S A → List (PlanNode S A)
  | PlanNode.root _ _ _ _ => []
  | PlanNode.node s a g h p => PlanNode.chain p ++ [PlanNode.node s a g h p]

/-- The actions of the chain of a node, in the order from the start node to the node: its
route from start. -/
def PlanNode.route : PlanNode S A → List A
  | PlanNode.root _ _ _ _ => []
  | PlanNode.node _ a _ _ p =>
    PlanNode.route p ++ (match a with
      | some x => [x]
      | none => [])

/-- A node as `aStar` creates them: the chain ends in the start node
`PlanNode(start, 0, 0, 0, 0)`, and every other node of the chain holds an action of the
actions list that is legal in its predecessor's state and leads from there to the node's
own state, with `G = getGCost(prev->state, action)` and `H = getHCost(state)`. -/
def Created (D : Domain S A) (start : S) : PlanNode S A → Prop
  | PlanNode.root s a g h => s = start ∧ a = none ∧ g = 0 ∧ h = 0
  | PlanNode.node s a g h p =>
    (∃ x, a = some x ∧ x ∈ D.actions ∧ D.isLegalAction p.state x = true ∧
      s = D.apply x p.state ∧ g = D.getGCost p.state x ∧ h = D.getHCost s) ∧
    Created D start p

/-- The values `G` of the node and its ancestors, in the order from the node back to the
start, the node whose `prevNode` is null left out. -/
def PlanNode.chainG : PlanNode S A → List Cost
  | PlanNode.root _ _ _ _ => []
  | PlanNode.node _ _ g _ p => g :: PlanNode.chainG p

/-- Every `G` on the chain of the node, the node without predecessor left out, is a
non-negative integer. -/
def NatG : PlanNode S A → Prop
  | PlanNode.root _ _ _ _ => True
  | PlanNode.node _ _ g _ p => (∃ m : ℕ, g = m) ∧ NatG p

/-- The states of the node and its ancestors, in the order from the node back to the
start node. -/
def PlanNode.states : PlanNode S A → List S
  | PlanNode.root s _ _ _ => [s]
  | PlanNode.node s _ _ _ p => s :: PlanNode.states p

/-- The states passed when the actions of `path` are applied in order starting from `s`,
the state `s` included. -/
def visits (D : Domain S A) : S → List A → List S
  | s, [] => [s]
  | s, a :: rest => s :: visits D (D.apply a s) rest

/-- Every action of `path` is an action of the actions list. -/
def listed (D : Domain S A) (path : List A) : Prop := ∀ a ∈ path, a ∈ D.actions

end Spec2

section Examples2

/-- An instance with integer costs and an admissible, inconsistent heuristic.  The states
are `0` (start), `1`, `2` and `3` (goal); the action `a` leads to the state `a`.  The legal
steps are `0 → 1` (cost 1), `0 → 2` (cost 3), `1 → 2` (cost 1) and `2 → 3` (cost 4).  The
heuristic is 5 in the state `1` (the remaining cost from there is 5) and 0 elsewhere. -/
def detourDomain : Domain Nat Nat :=
  { isEndState := fun s => s == 3
    actions := [1, 2, 3]
    apply := fun a _ => a
    getHCost := fun s => if s = 1 then 5 else 0
    getGCost := fun s a => if s = 0 then (if a = 1 then 1 else 3) else if s = 1 then 1 else 4
    isLegalAction := fun s a =>
      decide ((s = 0 ∧ (a = 1 ∨ a = 2)) ∨ (s = 1 ∧ a = 2) ∨ (s = 2 ∧ a = 3)) }

/-- An instance with integer costs whose sums leave the range in which `float` holds every
integer, and zero heuristic.  The states are `0` (start), `1`, `2` and `10` (goal); the
action `a` leads to the state `a`.  The legal steps are `0 → 1` (cost 2), `0 → 2`
(cost 3), `1 → 10` (cost 16777215) and `2 → 10` (cost 16777213). -/
def roundingDomain : Domain Nat Nat :=
  { isEndState := fun s => s == 10
    actions := [1, 2, 10]
    apply := fun a _ => a
    getHCost := fun _ => 0
    getGCost := fun s a =>
      if s = 0 then (if a = 1 then 2 else 3) else if s = 1 then 16777215 else 16777213
    isLegalAction := fun s a =>
      decide ((s = 0 ∧ (a = 1 ∨ a = 2)) ∨ ((s = 1 ∨ s = 2) ∧ a = 10)) }

/-- An instance with a cycle: the states `0`, `1`, `2`, one action that leads from `s` to
`(s + 1) % 3` at cost 1 and is always legal, the goal `2`, and zero heuristic. -/
def ringDomain : Domain Nat Unit :=
  { isEndState := fun s => s == 2
    actions := [()]
    apply := fun _ s => (s + 1) % 3
    getHCost := fun _ => 0
    getGCost := fun _ _ => 1
    isLegalAction := fun _ _ => true }

end Examples2

section Spec3

variable {S A : Type} [DecidableEq S]

/-- The call of `aStar` on `state` discards the open-list node `e`: the call expands the
settled node `N`, and for one pair `p` of `getNextStates(N->state)`, reached after the
pairs `pre`, the state `p.first` is not in the closed list, `std::find_if` returns the
open-list entry `e` for it, and `e->getTotalG() > newN->getTotalG()` holds, so that the
slot of `e` is overwritten with `newN`. -/
def Discards (D : Domain S A) (state : State S A) (e : PlanNode S A) : Prop :=
  ∃ sc pre p post i, selectN state.openList = some sc ∧ D.isEndState sc.N.state = false ∧
    getNextStates D sc.N.state = pre ++ p :: post ∧
    closedFind (closedAssign state.closedList sc.N.state sc.N) p.1 = none ∧
    findIf p.1 (pre.foldl (expandOne D sc.N (closedAssign state.closedList sc.N.state sc.N))
      (state.openList.eraseIdx sc.index)) = some (i, e) ∧
    e.getTotalG > (candidate D sc.N p).getTotalG

/-- The node `e` is superseded in the lists `cl` (closed) and `ol` (open): its state is
known, and every node of the lists with that state has a smaller `getTotalG()`. -/
def Superseded (e : PlanNode S A) (cl : List (S × PlanNode S A))
    (ol : List (PlanNode S A)) : Prop :=
  (e.state ∈ closedKeys cl ∨ e.state ∈ openStates ol) ∧
    (∀ n ∈ ol, n.state = e.state → n.getTotalG < e.getTotalG) ∧
    (∀ q ∈ cl, q.2.state = e.state → q.2.getTotalG < e.getTotalG)

end Spec3

section Drive

variable {S A : Type} [DecidableEq S]

/-- The drive loop `while (false == astar::aStar(state, ...)) { }` of `findPath` and
`plan`, limited to `fuel` calls: the search state when a call returns `true`, `none` when
none of the first `fuel` calls does. -/
def drive (D : Domain S A) : Nat → State S A → Option (State S A)
  | 0, _ => none
  | fuel + 1, state =>
    if (aStar D state).2 then some (aStar D state).1 else drive D fuel (aStar D state).1

omit [DecidableEq S] in
/-- The relation `ok s s'` holds at every step `s → s'` made when the actions of `path`
are applied in order, starting from `s`. -/
def Along (D : Domain S A) (ok : S → S → Prop) : S → List A → Prop
  | _, [] => True
  | s, a :: rest => ok s (D.apply a s) ∧ Along D ok (D.apply a s) rest

end Drive

namespace Goap

/-- The class `State` of the planning demo: a `std::vector<int>`. -/
abbrev State := List Int

/-- The type `Action`: a function pointer `State (*)(State)`. -/
abbrev Action := State → State

/-- The enumerator `TIME` of `Items`. -/
def TIME : Nat := 0

/-- The enumerator `ENERGY` of `Items`. -/
def ENERGY : Nat := 1

/-- The enumerator `MONEY` of `Items`. -/
def MONEY : Nat := 2

/-- The enumerator `FOOD` of `Items`. -/
def FOOD : Nat := 3

/-- The element read `state[i]`. -/
def get (state : State) (i : Nat) : Int := state.getD i 0

/-- The update `state[i] += d` (`state[i] -= d` is `add state i (-d)`). -/
def add (state : State) (i : Nat) (d : Int) : State := state.set i (get state i + d)

/-- The function `buyFood`. -/
def buyFood (state : State) : State :=
  add (add (add (add state TIME (-30)) ENERGY (-100)) MONEY (-100)) FOOD 7

/-- The function `work`. -/
def work (state : State) : State :=
  add (add (add state TIME (-60)) ENERGY (-400)) MONEY 100

/-- The function `eat`. -/
def eat (state : State) : State :=
  add (add (add state TIME (-15)) FOOD (-1)) ENERGY 1200

/-- The global `actions`. -/
def actions : List Action := [work, eat, buyFood]

/-- The lambda `guard` of `plan`: no element of the new state is negative. -/
def guard (state : State) (action : Action) : Bool :=
  (action state).all fun s => !decide (s < 0)

/-- The function `plan`, its drive loop limited to `fuel` calls of `aStar`: the path of the
search state when the loop ends, `none` when it has not ended after `fuel` calls. -/
def plan (fuel : Nat) (start : State) (isEndState : State → Bool) (actions : List Action)
    (getGCost : State → Action → Cost) (getHCost : State → Cost) : Option (List Action) :=
  (drive
    { isEndState := isEndState
      actions := actions
      apply := fun action state => action state
      getHCost := getHCost
      getGCost := getGCost
      isLegalAction := guard } fuel (astar.State.new start)).map astar.State.path

/-- The variable `startState` of `main`. -/
def startState : State := [2000, 0, 0, 5]

/-- The variable `goalState` of `main`: four zeros, then `goalState[MONEY] = 2000`. -/
def goalState : State := [0, 0, 2000, 0]

/-- The lambda `isEndState` of `main`. -/
def isEndState (state : State) : Bool := decide (get state MONEY ≥ get goalState MONEY)

/-- The lambda `getGCost` of `main`: time spent plus energy spent, the latter at least 0;
the `int` elements are converted to `float` and the arithmetic is `float` arithmetic. -/
def getGCost (state : State) (action : Action) : Cost :=
  let newState := action state
  let timeCost : Cost := fsub (roundF (get state TIME)) (roundF (get newState TIME))
  let energyCost : Cost := fsub (roundF (get state ENERGY)) (roundF (get newState ENERGY))
  fadd timeCost (if energyCost < 0 then 0 else energyCost)

/-- The lambda `getHCost` of `main`. -/
def getHCost (_ : State) : Cost := 0

/-- The arguments that `main` and `plan` pass to `aStar`. -/
def domain : Domain State Action :=
  { isEndState := isEndState
    actions := actions
    apply := fun action state => action state
    getHCost := getHCost
    getGCost := getGCost
    isLegalAction := guard }

/-- The call `plan(startState, isEndState, actions, getGCost, getHCost)` of `main`. -/
def result (fuel : Nat) : Option (List Action) :=
  plan fuel startState isEndState actions getGCost getHCost

/-- A plan that earns the money: eat five times, work fourteen times, buy food, eat seven
times, work seven times. -/
def samplePlan : List Action :=
  List.replicate 5 eat ++ List.replicate 14 work ++ [buyFood] ++ List.replicate 7 eat ++
    List.replicate 7 work

end Goap

namespace Grid

/-- The type `Position`: a `std::pair<int, int>` of a column (`first`) and a row
(`second`). -/
abbrev Position := Int × Int

/-- The type `Action`: a `std::function<Position(const Position&)>`. -/
abbrev Action := Position → Position

/-- The first action of `findPath`: one column to the left. -/
def left (pos : Position) : Position := (pos.1 - 1, pos.2)

/-- The second action of `findPath`: one column to the right. -/
def right (pos : Position) : Position := (pos.1 + 1, pos.2)

/-- The third action of `findPath`: one row up. -/
def up (pos : Position) : Position := (pos.1, pos.2 - 1)

/-- The fourth action of `findPath`: one row down. -/
def down (pos : Position) : Position := (pos.1, pos.2 + 1)

/-- The vector `actions` of `findPath`. -/
def actions : List Action := [left, right, up, down]

/-- The row `level[y]`, for `0 ≤ y < level.size()`. -/
def row (level : List (List Int)) (y : Int) : List Int := level.getD y.toNat []

/-- The lambda `isLegalPosition` of `findPath`: the position is inside the grid and its
cell is 0. -/
def isLegalPosition (level : List (List Int)) (pos : Position) : Bool :=
  if pos.1 < 0 ∨ pos.2 < 0 ∨ pos.2 ≥ level.length ∨ pos.1 ≥ (row level pos.2).length then false
  else (row level pos.2).getD pos.1.toNat 0 == 0

/-- The lambda `isLegalAction` of `findPath`. -/
def isLegalAction (level : List (List Int)) (pos : Position) (action : Action) : Bool :=
  isLegalPosition level (action pos)

/-- The arguments that `findPath` passes to `aStar`.  The lambda `getHCost` (the Euclidean
distance to `end`, computed with `sqrtf`) is the parameter `getHCost`; the parameter
`endPos` is the argument `end`. -/
def domain (level : List (List Int)) (endPos : Position) (getHCost : Position → Cost) :
    Domain Position Action :=
  { isEndState := fun pos => pos == endPos
    actions := actions
    apply := fun action pos => action pos
    getHCost := getHCost
    getGCost := fun _ _ => 1
    isLegalAction := isLegalAction level }

/-- The function `findPath`, its drive loop limited to `fuel` calls of `aStar`: the path of
the search state when the loop ends, `none` when it has not ended after `fuel` calls. -/
def findPath (fuel : Nat) (level : List (List Int)) (start endPos : Position)
    (getHCost : Position → Cost) : Option (List Action) :=
  (drive (domain level endPos getHCost) fuel (astar.State.new start)).map astar.State.path

/-- The variable `level` of `main`. -/
def level : List (List Int) :=
  [[1, 1, 1, 1, 1, 1, 1, 1, 1, 1, 1, 1, 1],
   [1, 0, 0, 1, 0, 0, 0, 0, 0, 0, 0, 0, 1],
   [1, 0, 0, 1, 0, 1, 0, 0, 1, 0, 0, 0, 1],
   [1, 0, 1, 1, 0, 1, 1, 0, 0, 0, 1, 0, 1],
   [1, 0, 0, 1, 0, 0, 1, 1, 1, 1, 1, 0, 1],
   [1, 0, 0, 1, 0, 1, 0, 0, 0, 0, 1, 0, 1],
   [1, 0, 0, 1, 0, 0, 0, 0, 0, 0, 1, 0, 1],
   [1, 0, 0, 0, 0, 0, 0, 0, 0, 0, 1, 0, 1],
   [1, 1, 1, 1, 1, 1, 1, 1, 1, 1, 1, 1, 1]]

/-- The variable `start` of `main`. -/
def start : Position := (1, 1)

/-- The variable `end` of `main`. -/
def endPos : Position := (11, 7)

/-- A walk from `start` to `endPos`: six rows down, three columns right, six rows up, seven
columns right, six rows down. -/
def sampleWalk : List Action :=
  List.replicate 6 down ++ List.replicate 3 right ++ List.replicate 6 up ++
    List.replicate 7 right ++ List.replicate 6 down

/-- The step from `p` to `q` changes exactly one coordinate, by +1 or -1. -/
def unitStep (p q : Position) : Prop :=
  (q.2 = p.2 ∧ (q.1 = p.1 + 1 ∨ q.1 = p.1 - 1)) ∨
    (q.1 = p.1 ∧ (q.2 = p.2 + 1 ∨ q.2 = p.2 - 1))

/-- The position is inside the 13 × 9 grid `level` and its cell holds 0. -/
def freeCell (q : Position) : Prop :=
  0 ≤ q.1 ∧ q.1 < 13 ∧ 0 ≤ q.2 ∧ q.2 < 9 ∧ (row level q.2).getD q.1.toNat 1 = 0

end Grid

section SpecOptimal

variable {S A : Type}

/-- The invariant behind optimality: the node of every settled state costs no more than
any legal sequence of listed actions from `start` to that state, and every legal successor
of a settled state is settled or has an open-list node that costs no more than the route
through the settled node. -/
structure Optimal (D : Domain S A) (start : S) (st : State S A) : Prop where
  closed_opt : ∀ q ∈ st.closedList, ∀ path, listed D path → legalPath D start path = true →
    applyPath D start path = q.1 → q.2.getTotalG ≤ pathCost D start path
  succ_cost : ∀ q ∈ st.closedList, ∀ a ∈ D.actions, D.isLegalAction q.1 a = true →
    D.apply a q.1 ∈ closedKeys st.closedList ∨
      ∃ m ∈ st.openList, m.state = D.apply a q.1 ∧
        m.getTotalG ≤ q.2.getTotalG + D.getGCost q.1 a

end SpecOptimal

section ScanLemmas
variable {S A : Type}

theorem scanStep_cases (sc : Scan S A) (i : Nat) (n : PlanNode S A) :
    scanStep sc i n = sc ∨ ((scanStep sc i n).N = n ∧ (scanStep sc i n).index = i) := by
  unfold scanStep
  by_cases h : n.getF < (sc.nF : Cost)
  · right; simp [h]
  · left; simp [h]

theorem scanLoop_cases (l : List (PlanNode S A)) (sc : Scan S A) (i : Nat) :
    scanLoop sc i l = sc ∨
      ∃ j, l[j]? = some (scanLoop sc i l).N ∧ (scanLoop sc i l).index = i + j := by
  induction l generalizing sc i with
  | nil => left; rfl
  | cons n rest ih =>
    simp only [scanLoop]
    rcases ih (scanStep sc i n) (i + 1) with h | ⟨j, hj, hidx⟩
    · rcases scanStep_cases sc i n with h2 | ⟨h2, h3⟩
      · left; rw [h, h2]
      · right
        refine ⟨0, ?_, ?_⟩
        · rw [h]; simp [h2]
        · rw [h]; simp [h3]
    · right
      refine ⟨j + 1, ?_, ?_⟩
      · simpa using hj
      · rw [hidx]; omega

theorem selectN_get {l : List (PlanNode S A)} {sc : Scan S A} (h : selectN l = some sc) :
    l[sc.index]? = some sc.N := by
  cases l with
  | nil => simp [selectN] at h
  | cons n0 rest =>
    simp only [selectN, Option.some.injEq] at h
    rcases scanLoop_cases (n0 :: rest) { N := n0, nF := toInt n0.getF, index := 0 } 0 with
      h2 | ⟨j, hj, hidx⟩
    · rw [h] at h2
      rw [h2]; simp
    · rw [h] at hj hidx
      rw [hidx]; simpa using hj

theorem selectN_isSome {l : List (PlanNode S A)} (h : l ≠ []) : ∃ sc, selectN l = some sc := by
  cases l with
  | nil => exact absurd rfl h
  | cons n0 rest => exact ⟨_, rfl⟩

theorem getElem?_split {α : Type} {l : List α} {i : Nat} {x : α} (h : l[i]? = some x) :
    ∃ l1 l2, l = l1 ++ x :: l2 ∧ l.eraseIdx i = l1 ++ l2 := by
  induction l generalizing i with
  | nil => simp at h
  | cons y ys ih =>
    cases i with
    | zero =>
      simp at h
      exact ⟨[], ys, by simp [h], by simp⟩
    | succ i =>
      simp at h
      obtain ⟨l1, l2, h1, h2⟩ := ih h
      exact ⟨y :: l1, l2, by simp [h1], by simp [h2]⟩
end ScanLemmas

section FloatLemmas

theorem log2Fuel_spec (fuel n : Nat) (h1 : n ≤ fuel) (h2 : 0 < n) :
    2 ^ log2Fuel fuel n ≤ n ∧ n < 2 ^ (log2Fuel fuel n + 1) := by
  induction fuel generalizing n with
  | zero => omega
  | succ fuel ih =>
    simp only [log2Fuel]
    by_cases h : n < 2
    · simp only [h, if_true]
      omega
    · simp only [h, if_false]
      obtain ⟨i1, i2⟩ := ih (n / 2) (by omega) (by omega)
      constructor
      · rw [pow_succ]; omega
      · rw [pow_succ]; omega

theorem roundHalfEven_natCast (k : ℕ) : roundHalfEven (k : ℚ) = k := by
  simp [roundHalfEven, Nat.mod_one]

theorem pow2_pos (e : Int) : 0 < pow2 e := by
  unfold pow2
  split
  · positivity
  · positivity

theorem roundF_of_multiple {x : ℚ} (hx : 0 < x) (k : ℕ)
    (hk : x / pow2 (max (floorLog2 |x|) (-126) - 23) = k) : roundF x = x := by
  unfold roundF
  have hne : x ≠ 0 := ne_of_gt hx
  have hnn : ¬ x < 0 := not_lt.mpr (le_of_lt hx)
  simp only [hne, if_false, hnn, abs_of_pos hx]
  rw [abs_of_pos hx] at hk
  rw [hk, roundHalfEven_natCast, ← hk]
  have := pow2_pos (max (floorLog2 x) (-126) - 23)
  field_simp

theorem floorLog2_natCast (m : ℕ) (hm : 0 < m) :
    floorLog2 (m : ℚ) = (log2Fuel m m : Int) := by
  unfold floorLog2
  have h1 : log2Fuel 1 1 = 0 := rfl
  simp only [Rat.num_natCast, Int.toNat_natCast, Rat.den_natCast, h1, Nat.cast_zero, sub_zero]
  have hs := (log2Fuel_spec m m (le_refl _) hm).1
  have : pow2 (log2Fuel m m : Int) ≤ (m : ℚ) := by
    unfold pow2
    simp only [Int.natCast_nonneg, if_true, Int.toNat_natCast]
    exact_mod_cast hs
  simp [this]

/-- A natural number up to `2^24` is a `float`. -/
theorem roundF_natCast (m : ℕ) (hm : m ≤ 16777216) : roundF (m : ℚ) = m := by
  rcases Nat.eq_zero_or_pos m with h0 | hpos
  · subst h0; simp [roundF]
  · have hx : (0 : ℚ) < m := by exact_mod_cast hpos
    obtain ⟨s1, s2⟩ := log2Fuel_spec m m (le_refl _) hpos
    have hL : log2Fuel m m ≤ 24 := by
      by_contra hcon
      have : 2 ^ 25 ≤ 2 ^ log2Fuel m m := Nat.pow_le_pow_right (by norm_num) (by omega)
      omega
    rcases Nat.lt_or_ge (log2Fuel m m) 24 with hlt | hge
    · apply roundF_of_multiple hx (m * 2 ^ (23 - log2Fuel m m))
      rw [abs_of_pos hx, floorLog2_natCast m hpos]
      have hmax : max (log2Fuel m m : Int) (-126) = (log2Fuel m m : Int) := by omega
      rw [hmax]
      unfold pow2
      rcases Nat.lt_or_ge (log2Fuel m m) 23 with h23 | h23
      · have hneg : ¬ (0 : Int) ≤ (log2Fuel m m : Int) - 23 := by omega
        have he : (-((log2Fuel m m : Int) - 23)).toNat = 23 - log2Fuel m m := by omega
        simp only [hneg, if_false, he]
        push_cast
        field_simp
      · have h23' : log2Fuel m m = 23 := by omega
        simp [h23']
    · have h24 : log2Fuel m m = 24 := by omega
      rw [h24] at s1
      have hm2 : m = 16777216 := by omega
      subst hm2
      apply roundF_of_multiple hx 8388608
      rw [abs_of_pos hx, floorLog2_natCast _ hpos, h24]
      have hmax : max ((24 : ℕ) : Int) (-126) = 24 := by omega
      rw [hmax]
      unfold pow2
      norm_num

theorem roundF_zero : roundF 0 = 0 := by
  simp [roundF]

/-- The `float` sum of two natural numbers whose sum is at most `2^24` is exact. -/
theorem fadd_natCast (a b : ℕ) (h : a + b ≤ 16777216) :
    fadd (a : Cost) (b : Cost) = ((a + b : ℕ) : Cost) := by
  unfold fadd
  rw [← Nat.cast_add]
  exact roundF_natCast (a + b) h

end FloatLemmas

section ClosedLemmas
variable {S A : Type} [DecidableEq S]

theorem closedFind_eq_none_iff (cl : List (S × PlanNode S A)) (k : S) :
    closedFind cl k = none ↔ k ∉ closedKeys cl := by
  induction cl with
  | nil => simp [closedFind, closedKeys]
  | cons p rest ih =>
    obtain ⟨k', v⟩ := p
    by_cases h : k' = k
    · simp [closedFind, closedKeys, h]
    · have h2 : ¬ k = k' := fun e => h e.symm
      simp only [closedFind, h, if_false, ih]
      simp [closedKeys, h2]

theorem closedFind_isSome_iff (cl : List (S × PlanNode S A)) (k : S) :
    (closedFind cl k).isSome = true ↔ k ∈ closedKeys cl := by
  rw [← not_iff_not, ← closedFind_eq_none_iff]
  cases closedFind cl k <;> simp

theorem closedFind_mem {cl : List (S × PlanNode S A)} {k : S} {v : PlanNode S A}
    (h : closedFind cl k = some v) : (k, v) ∈ cl := by
  induction cl with
  | nil => simp [closedFind] at h
  | cons p rest ih =>
    obtain ⟨k', v'⟩ := p
    by_cases hk : k' = k
    · simp [closedFind, hk] at h
      simp [hk, h]
    · simp [closedFind, hk] at h
      exact List.mem_cons_of_mem _ (ih h)

theorem closedFind_of_mem {cl : List (S × PlanNode S A)} (hn : (closedKeys cl).Nodup)
    {k : S} {v : PlanNode S A} (h : (k, v) ∈ cl) : closedFind cl k = some v := by
  induction cl with
  | nil => simp at h
  | cons p rest ih =>
    obtain ⟨k', v'⟩ := p
    simp only [closedKeys, List.map_cons, List.nodup_cons] at hn
    rcases List.mem_cons.mp h with h1 | h1
    · simp only [Prod.mk.injEq] at h1
      simp [closedFind, h1.1, h1.2]
    · have hk : k' ≠ k := by
        intro e
        apply hn.1
        rw [e]
        exact List.mem_map_of_mem Prod.fst h1
      simp only [closedFind, hk, if_false]
      exact ih hn.2 h1

theorem closedAssign_fresh {cl : List (S × PlanNode S A)} {k : S} (v : PlanNode S A)
    (h : k ∉ closedKeys cl) : closedAssign cl k v = cl ++ [(k, v)] := by
  induction cl with
  | nil => rfl
  | cons p rest ih =>
    obtain ⟨k', v'⟩ := p
    simp only [closedKeys, List.map_cons, List.mem_cons, not_or] at h
    have hk : ¬ k' = k := fun e => h.1 e.symm
    simp only [closedAssign, hk, if_false, List.cons_append]
    rw [ih h.2]

omit [DecidableEq S] in
theorem closedKeys_append (cl : List (S × PlanNode S A)) (k : S) (v : PlanNode S A) :
    closedKeys (cl ++ [(k, v)]) = closedKeys cl ++ [k] := by
  simp [closedKeys]

theorem closedFind_append_of_some {cl : List (S × PlanNode S A)} {k : S} {v : PlanNode S A}
    (h : closedFind cl k = some v) (cl2 : List (S × PlanNode S A)) :
    closedFind (cl ++ cl2) k = some v := by
  induction cl with
  | nil => simp [closedFind] at h
  | cons p rest ih =>
    obtain ⟨k', v'⟩ := p
    by_cases hk : k' = k
    · simp [closedFind, hk] at h
      simp [closedFind, hk, h]
    · simp only [closedFind, hk, if_false] at h
      simp only [List.cons_append, closedFind, hk, if_false]
      exact ih h

end ClosedLemmas

section FindIfLemmas
variable {S A : Type} [DecidableEq S]

theorem findIf_eq_none_iff (s : S) (l : List (PlanNode S A)) :
    findIf s l = none ↔ s ∉ openStates l := by
  induction l with
  | nil => simp [findIf, openStates]
  | cons n rest ih =>
    by_cases h : n.state = s
    · simp [findIf, openStates, h]
    · have h2 : ¬ s = n.state := fun e => h e.symm
      simp only [findIf, h, if_false, Option.map_eq_none', ih]
      simp [openStates, h2]

theorem findIf_some {s : S} {l : List (PlanNode S A)} {i : Nat} {e : PlanNode S A}
    (h : findIf s l = some (i, e)) : l[i]? = some e ∧ e.state = s := by
  induction l generalizing i with
  | nil => simp [findIf] at h
  | cons n rest ih =>
    by_cases hs : n.state = s
    · simp only [findIf, hs, if_true, Option.some.injEq, Prod.mk.injEq] at h
      obtain ⟨h1, h2⟩ := h
      subst h1 h2
      simp [hs]
    · simp only [findIf, hs, if_false, Option.map_eq_some'] at h
      obtain ⟨⟨j, e'⟩, hj, heq⟩ := h
      simp only [Prod.mk.injEq] at heq
      obtain ⟨h1, h2⟩ := heq
      subst h1 h2
      simpa using ih hj

omit [DecidableEq S] in
theorem openStates_set {l : List (PlanNode S A)} {i : Nat} {e n : PlanNode S A}
    (h : l[i]? = some e) (hs : n.state = e.state) : openStates (l.set i n) = openStates l := by
  induction l generalizing i with
  | nil => simp
  | cons y ys ih =>
    cases i with
    | zero =>
      simp at h
      simp [openStates, h, hs]
    | succ i =>
      simp at h
      have := ih h
      simp only [openStates] at this
      simp [openStates, this]

end FindIfLemmas

section ExpandLemmas
variable {S A : Type} [DecidableEq S]

theorem expandOne_closed (D : Domain S A) (N : PlanNode S A) {cl : List (S × PlanNode S A)}
    (ol : List (PlanNode S A)) {p : S × A} (h : p.1 ∈ closedKeys cl) :
    expandOne D N cl ol p = ol := by
  have hc := (closedFind_isSome_iff cl p.1).mpr h
  simp [expandOne, hc]

theorem expandOne_found (D : Domain S A) (N : PlanNode S A) {cl : List (S × PlanNode S A)}
    {ol : List (PlanNode S A)} {p : S × A} (h : p.1 ∉ closedKeys cl) {i : Nat}
    {e : PlanNode S A} (hf : findIf p.1 ol = some (i, e)) :
    expandOne D N cl ol p =
      if e.getTotalG > (candidate D N p).getTotalG then ol.set i (candidate D N p) else ol := by
  have hc := (closedFind_eq_none_iff cl p.1).mpr h
  simp [expandOne, hc, hf, candidate]

theorem expandOne_new (D : Domain S A) (N : PlanNode S A) {cl : List (S × PlanNode S A)}
    {ol : List (PlanNode S A)} {p : S × A} (h : p.1 ∉ closedKeys cl)
    (hf : findIf p.1 ol = none) :
    expandOne D N cl ol p = ol ++ [candidate D N p] := by
  have hc := (closedFind_eq_none_iff cl p.1).mpr h
  simp [expandOne, hc, hf, candidate]

omit [DecidableEq S] in
theorem candidate_state (D : Domain S A) (N : PlanNode S A) (p : S × A) :
    (candidate D N p).state = p.1 := rfl

theorem expandOne_states (D : Domain S A) (N : PlanNode S A) (cl : List (S × PlanNode S A))
    (ol : List (PlanNode S A)) (p : S × A) :
    (openStates (expandOne D N cl ol p) = openStates ol ∧
        (p.1 ∈ closedKeys cl ∨ p.1 ∈ openStates ol)) ∨
      (openStates (expandOne D N cl ol p) = openStates ol ++ [p.1] ∧
        p.1 ∉ closedKeys cl ∧ p.1 ∉ openStates ol) := by
  by_cases hc : p.1 ∈ closedKeys cl
  · left
    rw [expandOne_closed D N ol hc]
    exact ⟨rfl, Or.inl hc⟩
  · cases hf : findIf p.1 ol with
    | none =>
      right
      rw [expandOne_new D N hc hf]
      refine ⟨?_, hc, (findIf_eq_none_iff p.1 ol).mp hf⟩
      simp [openStates, candidate_state]
    | some r =>
      obtain ⟨i, e⟩ := r
      obtain ⟨hget, hst⟩ := findIf_some hf
      left
      have hmem : p.1 ∈ openStates ol := by
        rw [← hst]
        exact List.mem_map_of_mem _ (List.getElem?_mem hget)
      refine ⟨?_, Or.inr hmem⟩
      rw [expandOne_found D N hc hf]
      split
      · exact openStates_set hget (by rw [candidate_state, hst])
      · rfl

theorem expandOne_mem (D : Domain S A) (N : PlanNode S A) (cl : List (S × PlanNode S A))
    (ol : List (PlanNode S A)) (p : S × A) :
    ∀ n ∈ expandOne D N cl ol p, n ∈ ol ∨ n = candidate D N p := by
  intro n hn
  by_cases hc : p.1 ∈ closedKeys cl
  · rw [expandOne_closed D N ol hc] at hn
    exact Or.inl hn
  · cases hf : findIf p.1 ol with
    | none =>
      rw [expandOne_new D N hc hf] at hn
      simpa using hn
    | some r =>
      obtain ⟨i, e⟩ := r
      rw [expandOne_found D N hc hf] at hn
      split at hn
      · rcases List.mem_or_eq_of_mem_set hn with h | h
        · exact Or.inl h
        · exact Or.inr h
      · exact Or.inl hn

end ExpandLemmas

section ExpandAll
variable {S A : Type} [DecidableEq S]

theorem expandOne_nodup (D : Domain S A) (N : PlanNode S A) (cl : List (S × PlanNode S A))
    {ol : List (PlanNode S A)} (p : S × A) (h : (openStates ol).Nodup) :
    (openStates (expandOne D N cl ol p)).Nodup := by
  rcases expandOne_states D N cl ol p with ⟨h1, _⟩ | ⟨h1, _, h3⟩
  · rw [h1]; exact h
  · rw [h1]
    exact List.Nodup.append h (List.nodup_singleton _) (by simpa using h3)

theorem expandOne_disjoint (D : Domain S A) (N : PlanNode S A) (cl : List (S × PlanNode S A))
    {ol : List (PlanNode S A)} (p : S × A) (h : ∀ s ∈ openStates ol, s ∉ closedKeys cl) :
    ∀ s ∈ openStates (expandOne D N cl ol p), s ∉ closedKeys cl := by
  intro s hs
  rcases expandOne_states D N cl ol p with ⟨h1, _⟩ | ⟨h1, h2, _⟩
  · rw [h1] at hs; exact h s hs
  · rw [h1] at hs
    rcases List.mem_append.mp hs with h3 | h3
    · exact h s h3
    · rw [List.mem_singleton.mp h3]; exact h2

theorem expandOne_mono (D : Domain S A) (N : PlanNode S A) (cl : List (S × PlanNode S A))
    (ol : List (PlanNode S A)) (p : S × A) {s : S} (h : s ∈ openStates ol) :
    s ∈ openStates (expandOne D N cl ol p) := by
  rcases expandOne_states D N cl ol p with ⟨h1, _⟩ | ⟨h1, _, _⟩
  · rw [h1]; exact h
  · rw [h1]; exact List.mem_append_left _ h

theorem expandOne_covers (D : Domain S A) (N : PlanNode S A) (cl : List (S × PlanNode S A))
    (ol : List (PlanNode S A)) (p : S × A) :
    p.1 ∈ closedKeys cl ∨ p.1 ∈ openStates (expandOne D N cl ol p) := by
  rcases expandOne_states D N cl ol p with ⟨h1, h2⟩ | ⟨h1, _, _⟩
  · rw [h1]; exact h2
  · rw [h1]; exact Or.inr (by simp)

theorem expand_nodup (D : Domain S A) (N : PlanNode S A) (cl : List (S × PlanNode S A))
    (ps : List (S × A)) {ol : List (PlanNode S A)} (h : (openStates ol).Nodup) :
    (openStates (ps.foldl (expandOne D N cl) ol)).Nodup := by
  induction ps generalizing ol with
  | nil => exact h
  | cons p rest ih => exact ih (expandOne_nodup D N cl p h)

theorem expand_disjoint (D : Domain S A) (N : PlanNode S A) (cl : List (S × PlanNode S A))
    (ps : List (S × A)) {ol : List (PlanNode S A)}
    (h : ∀ s ∈ openStates ol, s ∉ closedKeys cl) :
    ∀ s ∈ openStates (ps.foldl (expandOne D N cl) ol), s ∉ closedKeys cl := by
  induction ps generalizing ol with
  | nil => exact h
  | cons p rest ih => exact ih (expandOne_disjoint D N cl p h)

theorem expand_mono (D : Domain S A) (N : PlanNode S A) (cl : List (S × PlanNode S A))
    (ps : List (S × A)) {ol : List (PlanNode S A)} {s : S} (h : s ∈ openStates ol) :
    s ∈ openStates (ps.foldl (expandOne D N cl) ol) := by
  induction ps generalizing ol with
  | nil => exact h
  | cons p rest ih => exact ih (expandOne_mono D N cl ol p h)

theorem expand_covers (D : Domain S A) (N : PlanNode S A) (cl : List (S × PlanNode S A))
    (ps : List (S × A)) (ol : List (PlanNode S A)) :
    ∀ p ∈ ps, p.1 ∈ closedKeys cl ∨ p.1 ∈ openStates (ps.foldl (expandOne D N cl) ol) := by
  induction ps generalizing ol with
  | nil => intro p hp; simp at hp
  | cons q rest ih =>
    intro p hp
    rcases List.mem_cons.mp hp with h | h
    · subst h
      rcases expandOne_covers D N cl ol p with h1 | h1
      · exact Or.inl h1
      · exact Or.inr (expand_mono D N cl rest h1)
    · exact ih (expandOne D N cl ol q) p h

theorem expand_mem (D : Domain S A) (N : PlanNode S A) (cl : List (S × PlanNode S A))
    (ps : List (S × A)) (ol : List (PlanNode S A)) :
    ∀ n ∈ ps.foldl (expandOne D N cl) ol, n ∈ ol ∨ ∃ p ∈ ps, n = candidate D N p := by
  induction ps generalizing ol with
  | nil => intro n hn; exact Or.inl hn
  | cons q rest ih =>
    intro n hn
    rcases ih (expandOne D N cl ol q) n hn with h | ⟨p, hp, hnp⟩
    · rcases expandOne_mem D N cl ol q n h with h1 | h1
      · exact Or.inl h1
      · exact Or.inr ⟨q, List.mem_cons_self _ _, h1⟩
    · exact Or.inr ⟨p, List.mem_cons_of_mem _ hp, hnp⟩

omit [DecidableEq S] in
theorem mem_getNextStates {D : Domain S A} {pos : S} {p : S × A}
    (h : p ∈ getNextStates D pos) :
    p.2 ∈ D.actions ∧ D.isLegalAction pos p.2 = true ∧ p.1 = D.apply p.2 pos := by
  unfold getNextStates at h
  rw [List.mem_filterMap] at h
  obtain ⟨a, ha, hp⟩ := h
  by_cases hl : D.isLegalAction pos a = true
  · simp only [hl, if_true, Option.some.injEq] at hp
    subst hp
    exact ⟨ha, hl, rfl⟩
  · simp [hl] at hp

omit [DecidableEq S] in
theorem getNextStates_mem {D : Domain S A} {pos : S} {a : A} (ha : a ∈ D.actions)
    (hl : D.isLegalAction pos a = true) : (D.apply a pos, a) ∈ getNextStates D pos := by
  unfold getNextStates
  rw [List.mem_filterMap]
  exact ⟨a, ha, by simp [hl]⟩

end ExpandAll

section StepLemmas
variable {S A : Type} [DecidableEq S]

theorem aStar_nil (D : Domain S A) {st : State S A} (h : st.openList = []) :
    aStar D st = (st, true) := by
  simp [aStar, h, selectN]

theorem aStar_goal (D : Domain S A) {st : State S A} {sc : Scan S A}
    (h : selectN st.openList = some sc) (hg : D.isEndState sc.N.state = true) :
    aStar D st =
      ({ st with openList := st.openList.eraseIdx sc.index,
                 closedList := closedAssign st.closedList sc.N.state sc.N,
                 path := buildPath sc.N st.path }, true) := by
  simp [aStar, h, hg]

theorem aStar_expand (D : Domain S A) {st : State S A} {sc : Scan S A}
    (h : selectN st.openList = some sc) (hg : D.isEndState sc.N.state = false) :
    aStar D st =
      ({ st with
          openList := (getNextStates D sc.N.state).foldl
            (expandOne D sc.N (closedAssign st.closedList sc.N.state sc.N))
            (st.openList.eraseIdx sc.index),
          closedList := closedAssign st.closedList sc.N.state sc.N },
        ((getNextStates D sc.N.state).foldl
            (expandOne D sc.N (closedAssign st.closedList sc.N.state sc.N))
            (st.openList.eraseIdx sc.index)).length == 0) := by
  simp [aStar, h, hg]

omit [DecidableEq S] in
theorem chain_candidate {D : Domain S A} {start : S} {N : PlanNode S A}
    (hN : Chain D start N) {p : S × A} (hp : p ∈ getNextStates D N.state) :
    Chain D start (candidate D N p) := by
  obtain ⟨h1, h2, h3⟩ := mem_getNextStates hp
  exact ⟨⟨p.2, rfl, h1, h2, h3⟩, hN⟩

/-- The facts about the selected node that hold under the invariant: where the node sits
in the open list, and the open and closed lists after it has been settled. -/
theorem select_facts {D : Domain S A} {start : S} {st : State S A} (hI : Inv D start st)
    {sc : Scan S A} (h : selectN st.openList = some sc) :
    ∃ l1 l2, st.openList = l1 ++ sc.N :: l2 ∧ st.openList.eraseIdx sc.index = l1 ++ l2 ∧
      sc.N.state ∉ closedKeys st.closedList ∧
      closedAssign st.closedList sc.N.state sc.N = st.closedList ++ [(sc.N.state, sc.N)] ∧
      sc.N.state ∉ openStates (l1 ++ l2) ∧ (openStates (l1 ++ l2)).Nodup ∧
      Chain D start sc.N := by
  obtain ⟨l1, l2, h1, h2⟩ := getElem?_split (selectN_get h)
  have hmem : sc.N ∈ st.openList := by rw [h1]; simp
  have hfresh : sc.N.state ∉ closedKeys st.closedList :=
    hI.disjoint _ (List.mem_map_of_mem _ hmem)
  have hnd := hI.open_nodup
  rw [h1] at hnd
  simp only [openStates, List.map_append, List.map_cons] at hnd
  have hnd2 := List.nodup_middle.mp hnd
  rw [List.nodup_cons] at hnd2
  refine ⟨l1, l2, h1, h2, hfresh, closedAssign_fresh _ hfresh, ?_, ?_, hI.open_chain _ hmem⟩
  · simpa [openStates] using hnd2.1
  · simpa [openStates] using hnd2.2

omit [DecidableEq S] in
theorem inv_new (D : Domain S A) (start : S) : Inv D start (State.new start) where
  start_eq := rfl
  open_nodup := by simp [State.new, openStates]
  closed_nodup := by simp [State.new, closedKeys]
  disjoint := by simp [State.new, closedKeys]
  closed_state := by simp [State.new]
  open_chain := by
    intro n hn
    simp only [State.new, List.mem_singleton] at hn
    subst hn
    exact ⟨rfl, rfl⟩
  closed_chain := by simp [State.new]

theorem inv_aStar {D : Domain S A} {start : S} {st : State S A} (hI : Inv D start st) :
    Inv D start (aStar D st).1 := by
  cases hsel : selectN st.openList with
  | none =>
    have : st.openList = [] := by
      cases hl : st.openList with
      | nil => rfl
      | cons a l => rw [hl] at hsel; simp [selectN] at hsel
    rw [aStar_nil D this]
    exact hI
  | some sc =>
    obtain ⟨l1, l2, h1, h2, hfresh, hassign, hnot, hnd, hchain⟩ := select_facts hI hsel
    have hsub : ∀ n ∈ l1 ++ l2, n ∈ st.openList := by
      intro n hn
      rw [h1]
      rcases List.mem_append.mp hn with h | h
      · exact List.mem_append_left _ h
      · exact List.mem_append_right _ (List.mem_cons_of_mem _ h)
    have hcn : (closedKeys (st.closedList ++ [(sc.N.state, sc.N)])).Nodup := by
      rw [closedKeys_append]
      exact List.Nodup.append hI.closed_nodup (List.nodup_singleton _) (by simpa using hfresh)
    have hdis : ∀ s ∈ openStates (l1 ++ l2),
        s ∉ closedKeys (st.closedList ++ [(sc.N.state, sc.N)]) := by
      intro s hs
      rw [closedKeys_append, List.mem_append, not_or]
      constructor
      · apply hI.disjoint
        obtain ⟨n, hn, rfl⟩ := List.mem_map.mp hs
        exact List.mem_map_of_mem _ (hsub n hn)
      · intro h
        rw [List.mem_singleton.mp h] at hs
        exact hnot hs
    have hcs : ∀ p ∈ st.closedList ++ [(sc.N.state, sc.N)], p.2.state = p.1 := by
      intro p hp
      rcases List.mem_append.mp hp with h | h
      · exact hI.closed_state p h
      · rw [List.mem_singleton.mp h]
    have hcc : ∀ p ∈ st.closedList ++ [(sc.N.state, sc.N)], Chain D start p.2 := by
      intro p hp
      rcases List.mem_append.mp hp with h | h
      · exact hI.closed_chain p h
      · rw [List.mem_singleton.mp h]; exact hchain
    cases hg : D.isEndState sc.N.state with
    | true =>
      rw [aStar_goal D hsel hg, h2, hassign]
      exact
        { start_eq := hI.start_eq
          open_nodup := hnd
          closed_nodup := hcn
          disjoint := hdis
          closed_state := hcs
          open_chain := fun n hn => hI.open_chain n (hsub n hn)
          closed_chain := hcc }
    | false =>
      rw [aStar_expand D hsel hg, h2, hassign]
      exact
        { start_eq := hI.start_eq
          open_nodup := expand_nodup D sc.N _ _ hnd
          closed_nodup := hcn
          disjoint := expand_disjoint D sc.N _ _ hdis
          closed_state := hcs
          open_chain := by
            intro n hn
            rcases expand_mem D sc.N _ _ _ n hn with h | ⟨p, hp, hnp⟩
            · exact hI.open_chain n (hsub n h)
            · rw [hnp]; exact chain_candidate hchain hp
          closed_chain := hcc }

theorem inv_calls (D : Domain S A) (start : S) (k : Nat) :
    Inv D start (calls D k (State.new start)) := by
  induction k with
  | zero => exact inv_new D start
  | succ k ih => exact inv_aStar ih

end StepLemmas

section SearchingLemmas
variable {S A : Type} [DecidableEq S]

omit [DecidableEq S] in
theorem selectN_eq_none {l : List (PlanNode S A)} (h : selectN l = none) : l = [] := by
  cases l with
  | nil => rfl
  | cons a l => simp [selectN] at h

omit [DecidableEq S] in
theorem found_true {D : Domain S A} {st : State S A} (h : found D st = true) :
    ∃ sc, selectN st.openList = some sc ∧ D.isEndState sc.N.state = true := by
  unfold found settled at h
  cases hsel : selectN st.openList with
  | none => simp [hsel] at h
  | some sc => exact ⟨sc, rfl, by simpa [hsel] using h⟩

omit [DecidableEq S] in
theorem found_false {D : Domain S A} {st : State S A} (h : found D st = false)
    {sc : Scan S A} (hsel : selectN st.openList = some sc) :
    D.isEndState sc.N.state = false := by
  unfold found settled at h
  simpa [hsel] using h

omit [DecidableEq S] in
theorem searching_new (D : Domain S A) (start : S) : Searching D start (State.new start) where
  path_nil := rfl
  closed_not_goal := by simp [State.new, closedKeys]
  start_known := by simp [State.new, openStates, PlanNode.state]
  succ_known := by simp [State.new, closedKeys]

theorem searching_aStar {D : Domain S A} {start : S} {st : State S A} (hI : Inv D start st)
    (hS : Searching D start st) (hf : found D st = false) :
    Searching D start (aStar D st).1 := by
  cases hsel : selectN st.openList with
  | none =>
    rw [aStar_nil D (selectN_eq_none hsel)]
    exact hS
  | some sc =>
    obtain ⟨l1, l2, h1, h2, hfresh, hassign, hnot, hnd, hchain⟩ := select_facts hI hsel
    have hg := found_false hf hsel
    rw [aStar_expand D hsel hg, h2, hassign]
    have hopen : ∀ s ∈ openStates st.openList, s = sc.N.state ∨ s ∈ openStates (l1 ++ l2) := by
      intro s hs
      rw [h1] at hs
      simp only [openStates, List.map_append, List.map_cons, List.mem_append,
        List.mem_cons] at hs
      simp only [openStates, List.map_append, List.mem_append]
      tauto
    have hknown : ∀ s, (s ∈ closedKeys st.closedList ∨ s ∈ openStates st.openList) →
        s ∈ closedKeys (st.closedList ++ [(sc.N.state, sc.N)]) ∨
          s ∈ openStates ((getNextStates D sc.N.state).foldl
            (expandOne D sc.N (st.closedList ++ [(sc.N.state, sc.N)])) (l1 ++ l2)) := by
      intro s hs
      rw [closedKeys_append]
      rcases hs with h | h
      · exact Or.inl (List.mem_append_left _ h)
      · rcases hopen s h with h3 | h3
        · exact Or.inl (by rw [h3]; simp)
        · exact Or.inr (expand_mono D sc.N _ _ h3)
    exact
      { path_nil := hS.path_nil
        closed_not_goal := by
          intro s hs
          rw [closedKeys_append] at hs
          rcases List.mem_append.mp hs with h | h
          · exact hS.closed_not_goal s h
          · rw [List.mem_singleton.mp h]; exact hg
        start_known := hknown start hS.start_known
        succ_known := by
          intro s hs a ha hl
          rw [closedKeys_append] at hs
          rcases List.mem_append.mp hs with h | h
          · exact hknown _ (hS.succ_known s h a ha hl)
          · rw [List.mem_singleton.mp h]
            rw [List.mem_singleton.mp h] at hl
            exact expand_covers D sc.N _ _ (l1 ++ l2) _ (getNextStates_mem ha hl) }

theorem searching_calls (D : Domain S A) (start : S) (k : Nat)
    (h : ∀ j < k, found D (calls D j (State.new start)) = false) :
    Searching D start (calls D k (State.new start)) := by
  induction k with
  | zero => exact searching_new D start
  | succ k ih =>
    exact searching_aStar (inv_calls D start k)
      (ih fun j hj => h j (Nat.lt_succ_of_lt hj)) (h k (Nat.lt_succ_self k))

omit [DecidableEq S] in
theorem buildPath_chain {D : Domain S A} {start : S} (n : PlanNode S A)
    (hn : Chain D start n) (rest : List A) :
    applyPath D start (buildPath n rest) = applyPath D n.state rest ∧
      legalPath D start (buildPath n rest) = legalPath D n.state rest := by
  induction n generalizing rest with
  | root s a g h =>
    obtain ⟨h1, h2⟩ := hn
    subst h1 h2
    exact ⟨rfl, rfl⟩
  | node s a g h p ih =>
    obtain ⟨⟨x, h1, _, h3, h4⟩, hp⟩ := hn
    subst h1
    obtain ⟨e1, e2⟩ := ih hp (x :: rest)
    simp only [buildPath, PlanNode.state]
    rw [e1, e2]
    simp only [applyPath, legalPath, h3, h4, Bool.true_and, and_self]

end SearchingLemmas

section MoreLemmas

variable {S A : Type} [DecidableEq S]

theorem aStar_flag_of_not_found {D : Domain S A} {st : State S A} (hf : found D st = false) :
    (aStar D st).2 = ((aStar D st).1.openList.length == 0) := by
  cases hsel : selectN st.openList with
  | none =>
    have h := selectN_eq_none hsel
    rw [aStar_nil D h]
    simp [h]
  | some sc =>
    rw [aStar_expand D hsel (found_false hf hsel)]

omit [DecidableEq S] in
theorem reachable_of_closed {D : Domain S A} {start : S} {st : State S A}
    (hS : Searching D start st) (hempty : st.openList = []) {s : S}
    (hr : Reachable D start s) : s ∈ closedKeys st.closedList := by
  induction hr with
  | refl =>
    rcases hS.start_known with h | h
    · exact h
    · simp [hempty, openStates] at h
  | step _ ha hl ih =>
    rcases hS.succ_known _ ih _ ha hl with h | h
    · exact h
    · simp [hempty, openStates] at h

theorem closedFind_aStar {D : Domain S A} {start : S} {st : State S A} (hI : Inv D start st)
    {s : S} {n : PlanNode S A} (h : closedFind st.closedList s = some n) :
    closedFind (aStar D st).1.closedList s = some n := by
  cases hsel : selectN st.openList with
  | none =>
    rw [aStar_nil D (selectN_eq_none hsel)]
    exact h
  | some sc =>
    obtain ⟨_, _, _, _, _, hassign, _⟩ := select_facts hI hsel
    cases hg : D.isEndState sc.N.state with
    | true =>
      rw [aStar_goal D hsel hg, hassign]
      exact closedFind_append_of_some h _
    | false =>
      rw [aStar_expand D hsel hg, hassign]
      exact closedFind_append_of_some h _

theorem closedFind_calls (D : Domain S A) (start : S) {k m : Nat} (hkm : k ≤ m) {s : S}
    {n : PlanNode S A} (h : closedFind (calls D k (State.new start)).closedList s = some n) :
    closedFind (calls D m (State.new start)).closedList s = some n := by
  induction m with
  | zero =>
    have : k = 0 := Nat.le_zero.mp hkm
    subst this
    exact h
  | succ m ih =>
    rcases Nat.lt_or_ge k (m + 1) with hlt | hge
    · exact closedFind_aStar (inv_calls D start m) (ih (Nat.lt_succ_iff.mp hlt))
    · have : k = m + 1 := Nat.le_antisymm hkm hge
      subst this
      exact h

end MoreLemmas

section TerminationLemmas
variable {S A : Type} [DecidableEq S]

omit [DecidableEq S] in
theorem chain_reachable {D : Domain S A} {start : S} (n : PlanNode S A)
    (hn : Chain D start n) : Reachable D start n.state := by
  induction n with
  | root s a g h =>
    obtain ⟨h1, _⟩ := hn
    subst h1
    exact Reachable.refl
  | node s a g h p ih =>
    obtain ⟨⟨x, _, h2, h3, h4⟩, hp⟩ := hn
    simp only [PlanNode.state]
    rw [h4]
    exact Reachable.step (ih hp) h2 h3

theorem aStar_false {D : Domain S A} {st : State S A} (h : (aStar D st).2 = false) :
    st.openList ≠ [] ∧ (aStar D st).1.openList ≠ [] := by
  cases hsel : selectN st.openList with
  | none =>
    rw [aStar_nil D (selectN_eq_none hsel)] at h
    simp at h
  | some sc =>
    cases hg : D.isEndState sc.N.state with
    | true =>
      rw [aStar_goal D hsel hg] at h
      simp at h
    | false =>
      rw [aStar_expand D hsel hg] at h ⊢
      constructor
      · intro he
        rw [he] at hsel
        simp [selectN] at hsel
      · intro he
        simp only at he
        simp [he] at h

theorem closed_length_aStar {D : Domain S A} {start : S} {st : State S A}
    (hI : Inv D start st) (hne : st.openList ≠ []) :
    (aStar D st).1.closedList.length = st.closedList.length + 1 := by
  obtain ⟨sc, hsel⟩ := selectN_isSome hne
  obtain ⟨_, _, _, _, _, hassign, _⟩ := select_facts hI hsel
  cases hg : D.isEndState sc.N.state with
  | true => rw [aStar_goal D hsel hg, hassign]; simp
  | false => rw [aStar_expand D hsel hg, hassign]; simp

omit [DecidableEq S] in
theorem known_reachable {D : Domain S A} {start : S} {st : State S A} (hI : Inv D start st) :
    ∀ s ∈ closedKeys st.closedList ++ openStates st.openList, Reachable D start s := by
  intro s hs
  rcases List.mem_append.mp hs with h | h
  · obtain ⟨p, hp, rfl⟩ := List.mem_map.mp h
    rw [← hI.closed_state p hp]
    exact chain_reachable _ (hI.closed_chain p hp)
  · obtain ⟨n, hn, rfl⟩ := List.mem_map.mp h
    exact chain_reachable _ (hI.open_chain n hn)

theorem known_card {D : Domain S A} {start : S} {st : State S A} (hI : Inv D start st)
    (R : Finset S) (hR : ∀ s, Reachable D start s → s ∈ R) :
    st.closedList.length + st.openList.length ≤ R.card := by
  have hnd : (closedKeys st.closedList ++ openStates st.openList).Nodup := by
    refine List.Nodup.append hI.closed_nodup hI.open_nodup ?_
    intro s h1 h2
    exact hI.disjoint s h2 h1
  have hsub : (closedKeys st.closedList ++ openStates st.openList).toFinset ⊆ R := by
    intro s hs
    exact hR s (known_reachable hI s (List.mem_toFinset.mp hs))
  have hcard := Finset.card_le_card hsub
  rw [List.toFinset_card_of_nodup hnd] at hcard
  simpa [closedKeys, openStates] using hcard

theorem closed_length_calls (D : Domain S A) (start : S) (n : Nat)
    (h : ∀ k < n, (aStar D (calls D k (State.new start))).2 = false) :
    (calls D n (State.new start)).closedList.length = n := by
  induction n with
  | zero => rfl
  | succ n ih =>
    have h1 := ih fun k hk => h k (Nat.lt_succ_of_lt hk)
    have h2 := (aStar_false (h n (Nat.lt_succ_self n))).1
    simp only [calls]
    rw [closed_length_aStar (inv_calls D start n) h2, h1]

end TerminationLemmas

section ReplaceLemmas
variable {S A : Type} [DecidableEq S]

theorem getElem?_set_split {α : Type} {l : List α} {i : Nat} {x : α} (h : l[i]? = some x)
    (y : α) : ∃ l1 l2, l = l1 ++ x :: l2 ∧ l.set i y = l1 ++ y :: l2 := by
  induction l generalizing i with
  | nil => simp at h
  | cons z zs ih =>
    cases i with
    | zero =>
      simp at h
      exact ⟨[], zs, by simp [h], by simp⟩
    | succ i =>
      simp at h
      obtain ⟨l1, l2, h1, h2⟩ := ih h
      exact ⟨z :: l1, l2, by simp [h1], by simp [h2]⟩

theorem filter_state_middle {l1 l2 : List (PlanNode S A)} {e : PlanNode S A}
    (hp : (l1 ++ e :: l2).Pairwise (fun m n => m.state ≠ n.state)) (x : PlanNode S A)
    (hx : x.state = e.state) :
    (l1 ++ x :: l2).filter (fun n => decide (n.state = e.state)) = [x] := by
  rw [List.pairwise_append] at hp
  obtain ⟨_, h2, h3⟩ := hp
  rw [List.pairwise_cons] at h2
  have e1 : l1.filter (fun n => decide (n.state = e.state)) = [] := by
    rw [List.filter_eq_nil_iff]
    intro a ha
    simpa using h3 a ha e (List.mem_cons_self _ _)
  have e2 : l2.filter (fun n => decide (n.state = e.state)) = [] := by
    rw [List.filter_eq_nil_iff]
    intro a ha
    have := h2.1 a ha
    simpa using fun h => this h.symm
  rw [List.filter_append, List.filter_cons, e1, e2]
  simp [hx]

end ReplaceLemmas

section ExampleLemmas

theorem stepDomain_reachable (goal : Nat) (s : Nat) :
    s ∈ Finset.range 3 ↔ Reachable (stepDomain goal) 0 s := by
  constructor
  · intro h
    have h3 : s < 3 := Finset.mem_range.mp h
    have h1 : Reachable (stepDomain goal) 0 (0 + 1) :=
      Reachable.step (a := (1 : Nat)) Reachable.refl (by simp [stepDomain]) (by simp [stepDomain])
    have h2 : Reachable (stepDomain goal) 0 (0 + 2) :=
      Reachable.step (a := (2 : Nat)) Reachable.refl (by simp [stepDomain]) (by simp [stepDomain])
    interval_cases s
    · exact Reachable.refl
    · exact h1
    · exact h2
  · intro h
    induction h with
    | refl => simp
    | step _ _ hl ih =>
      simp only [stepDomain, decide_eq_true_eq] at hl
      simp only [stepDomain, Finset.mem_range]
      omega

end ExampleLemmas

section FirstCall

variable {S A : Type} [DecidableEq S]

omit [DecidableEq S] in
theorem toInt_zero : toInt 0 = 0 := by
  simp [toInt]

omit [DecidableEq S] in
theorem getF_root (s : S) (a : Option A) (g : Cost) : (PlanNode.root s a g 0).getF = 0 := by
  simp [PlanNode.getF, PlanNode.getTotalG, PlanNode.getTotalGLoop, PlanNode.H, fadd, roundF_zero]

omit [DecidableEq S] in
theorem selectN_new (start : S) :
    selectN [PlanNode.root start (none : Option A) 0 0]
      = some { N := PlanNode.root start none 0 0, nF := 0, index := 0 } := by
  simp [selectN, scanLoop, scanStep, getF_root, toInt_zero]

omit [DecidableEq S] in
theorem getNextStates_nil_of_illegal (D : Domain S A) (pos : S)
    (h : ∀ a ∈ D.actions, D.isLegalAction pos a = false) : getNextStates D pos = [] := by
  unfold getNextStates
  rw [List.filterMap_eq_nil_iff]
  intro a ha
  simp [h a ha]

end FirstCall

section NodeLemmas
variable {S A : Type} [DecidableEq S]

omit [DecidableEq S] in
theorem sumG_nat (n : PlanNode S A) (hn : NatG n) : ∃ m : ℕ, n.sumG = m := by
  induction n with
  | root s a g h => exact ⟨0, by simp [PlanNode.sumG]⟩
  | node s a g h p ih =>
    obtain ⟨⟨m, hm⟩, hp⟩ := hn
    obtain ⟨mp, hmp⟩ := ih hp
    exact ⟨m + mp, by simp [PlanNode.sumG, hm, hmp]⟩

omit [DecidableEq S] in
/-- The loop of `getTotalG` is exact while the running total stays within `2^24`. -/
theorem getTotalGLoop_exact (n : PlanNode S A) (hn : NatG n) (r : ℕ)
    (hb : (r : Cost) + n.sumG ≤ 16777216) :
    PlanNode.getTotalGLoop (r : Cost) n = r + n.sumG := by
  induction n generalizing r with
  | root s a g h => simp [PlanNode.getTotalGLoop, PlanNode.sumG]
  | node s a g h p ih =>
    obtain ⟨⟨m, hm⟩, hp⟩ := hn
    obtain ⟨mp, hmp⟩ := sumG_nat p hp
    subst hm
    simp only [PlanNode.sumG, hmp] at hb ⊢
    have hb2 : r + m + mp ≤ 16777216 := by exact_mod_cast (by linarith : (r : Cost) + m + mp ≤ 16777216)
    simp only [PlanNode.getTotalGLoop]
    rw [fadd_natCast r m (by omega), ih hp (r + m) (by rw [hmp]; exact_mod_cast hb2), hmp]
    push_cast
    ring

omit [DecidableEq S] in
theorem getTotalG_exact (n : PlanNode S A) (hn : NatG n) (hb : n.sumG ≤ 16777216) :
    n.getTotalG = n.sumG := by
  have := getTotalGLoop_exact n hn 0 (by simpa using hb)
  simpa [PlanNode.getTotalG] using this

omit [DecidableEq S] in
theorem getTotalG_root (s : S) (a : Option A) (g h : Cost) :
    (PlanNode.root s a g h).getTotalG = 0 := rfl

omit [DecidableEq S] in
theorem created_natG {D : Domain S A} {start : S} (hg : ∀ s a, ∃ m : ℕ, D.getGCost s a = m)
    (n : PlanNode S A) (h : Created D start n) : NatG n := by
  induction n with
  | root s a g h' => trivial
  | node s a g h' p ih =>
    obtain ⟨⟨x, _, _, _, _, h5, _⟩, hp⟩ := h
    obtain ⟨m, hm⟩ := hg p.state x
    exact ⟨⟨m, by rw [h5, hm]⟩, ih hp⟩

omit [DecidableEq S] in
theorem created_chain {D : Domain S A} {start : S} (n : PlanNode S A)
    (h : Created D start n) : Chain D start n := by
  induction n with
  | root s a g h => exact ⟨h.1, h.2.1⟩
  | node s a g h p ih =>
    obtain ⟨⟨x, h1, h2, h3, h4, _, _⟩, hp⟩ := h
    exact ⟨⟨x, h1, h2, h3, h4⟩, ih hp⟩

omit [DecidableEq S] in
theorem created_candidate {D : Domain S A} {start : S} {N : PlanNode S A}
    (hN : Created D start N) {p : S × A} (hp : p ∈ getNextStates D N.state) :
    Created D start (candidate D N p) := by
  obtain ⟨h1, h2, h3⟩ := mem_getNextStates hp
  exact ⟨⟨p.2, rfl, h1, h2, h3, rfl, rfl⟩, hN⟩

omit [DecidableEq S] in
theorem applyPath_append (D : Domain S A) (s : S) (p q : List A) :
    applyPath D s (p ++ q) = applyPath D (applyPath D s p) q := by
  induction p generalizing s with
  | nil => rfl
  | cons a rest ih => simp only [List.cons_append, applyPath]; exact ih _

omit [DecidableEq S] in
theorem legalPath_append (D : Domain S A) (s : S) (p q : List A) :
    legalPath D s (p ++ q) = (legalPath D s p && legalPath D (applyPath D s p) q) := by
  induction p generalizing s with
  | nil => simp [legalPath, applyPath]
  | cons a rest ih =>
    have h := ih (D.apply a s)
    simp only [List.cons_append, legalPath, applyPath, List.append_eq]
    rw [h, Bool.and_assoc]

omit [DecidableEq S] in
theorem pathCost_append (D : Domain S A) (s : S) (p q : List A) :
    pathCost D s (p ++ q) = pathCost D s p + pathCost D (applyPath D s p) q := by
  induction p generalizing s with
  | nil => simp [pathCost, applyPath]
  | cons a rest ih =>
    have h := ih (D.apply a s)
    simp only [List.cons_append, pathCost, applyPath, List.append_eq]
    rw [h]; ring

omit [DecidableEq S] in
/-- The route of a created node is a legal sequence of listed actions leading from `start`
to the node's state, and its summed cost is the exact sum of `G` over the chain. -/
theorem created_route {D : Domain S A} {start : S} (n : PlanNode S A)
    (h : Created D start n) :
    listed D n.route ∧ legalPath D start n.route = true ∧
      applyPath D start n.route = n.state ∧ pathCost D start n.route = n.sumG ∧
      n.sumGAll = n.sumG := by
  induction n with
  | root s a g h' =>
    obtain ⟨h1, _, h3, _⟩ := h
    subst h1 h3
    refine ⟨?_, rfl, rfl, ?_, ?_⟩
    · intro a ha; simp [PlanNode.route] at ha
    · simp [PlanNode.route, pathCost, PlanNode.sumG]
    · simp [PlanNode.sumGAll, PlanNode.sumG]
  | node s a g h' p ih =>
    obtain ⟨⟨x, h1, h2, h3, h4, h5, _⟩, hp⟩ := h
    obtain ⟨i1, i2, i3, i4, i5⟩ := ih hp
    subst h1
    simp only [PlanNode.route]
    refine ⟨?_, ?_, ?_, ?_, ?_⟩
    · intro a ha
      rcases List.mem_append.mp ha with h | h
      · exact i1 a h
      · rw [List.mem_singleton.mp h]; exact h2
    · rw [legalPath_append, i2, i3]
      simp [legalPath, h3]
    · rw [applyPath_append, i3]
      simp [applyPath, PlanNode.state, h4]
    · rw [pathCost_append, i3, i4, h5]
      simp [pathCost, PlanNode.sumG]
      ring
    · simp only [PlanNode.sumGAll, PlanNode.sumG, i5]

omit [DecidableEq S] in
theorem created_new (D : Domain S A) (start : S) :
    ∀ n ∈ (State.new start : State S A).openList, Created D start n := by
  intro n hn
  simp only [State.new, List.mem_singleton] at hn
  subst hn
  exact ⟨rfl, rfl, rfl, rfl⟩

/-- The nodes of the open and the closed list after a call are nodes of the lists before
the call or candidates built for the settled node. -/
theorem nodes_aStar {D : Domain S A} {start : S} {st : State S A} (hI : Inv D start st)
    (P : PlanNode S A → Prop)
    (hstep : ∀ N p, P N → p ∈ getNextStates D N.state → P (candidate D N p))
    (ho : ∀ n ∈ st.openList, P n) (hc : ∀ q ∈ st.closedList, P q.2) :
    (∀ n ∈ (aStar D st).1.openList, P n) ∧ (∀ q ∈ (aStar D st).1.closedList, P q.2) := by
  cases hsel : selectN st.openList with
  | none =>
    rw [aStar_nil D (selectN_eq_none hsel)]
    exact ⟨ho, hc⟩
  | some sc =>
    obtain ⟨l1, l2, h1, h2, _, hassign, _, _, _⟩ := select_facts hI hsel
    have hN : P sc.N := ho _ (by rw [h1]; simp)
    have hsub : ∀ n ∈ l1 ++ l2, P n := by
      intro n hn
      apply ho
      rw [h1]
      rcases List.mem_append.mp hn with h | h
      · exact List.mem_append_left _ h
      · exact List.mem_append_right _ (List.mem_cons_of_mem _ h)
    have hcl : ∀ q ∈ st.closedList ++ [(sc.N.state, sc.N)], P q.2 := by
      intro q hq
      rcases List.mem_append.mp hq with h | h
      · exact hc q h
      · rw [List.mem_singleton.mp h]; exact hN
    cases hg : D.isEndState sc.N.state with
    | true =>
      rw [aStar_goal D hsel hg, h2, hassign]
      exact ⟨hsub, hcl⟩
    | false =>
      rw [aStar_expand D hsel hg, h2, hassign]
      refine ⟨?_, hcl⟩
      intro n hn
      rcases expand_mem D sc.N _ _ _ n hn with h | ⟨p, hp, hnp⟩
      · exact hsub n h
      · rw [hnp]; exact hstep _ _ hN hp

theorem created_calls (D : Domain S A) (start : S) (k : Nat) :
    (∀ n ∈ (calls D k (State.new start)).openList, Created D start n) ∧
      (∀ q ∈ (calls D k (State.new start)).closedList, Created D start q.2) := by
  induction k with
  | zero => exact ⟨created_new D start, by simp [calls, State.new]⟩
  | succ k ih =>
    exact nodes_aStar (inv_calls D start k) (Created D start)
      (fun N p hN hp => created_candidate hN hp) ih.1 ih.2

end NodeLemmas

section StepFacts
variable {S A : Type} [DecidableEq S]

omit [DecidableEq S] in
theorem buildPath_chain_actions {D : Domain S A} {start : S} (n : PlanNode S A)
    (hn : Chain D start n) (rest : List A) :
    (buildPath n rest).map some = n.chain.map PlanNode.action ++ rest.map some := by
  induction n generalizing rest with
  | root s a g h =>
    obtain ⟨_, h2⟩ := hn
    subst h2
    simp [buildPath, PlanNode.chain]
  | node s a g h p ih =>
    obtain ⟨⟨x, h1, _⟩, hp⟩ := hn
    subst h1
    simp only [buildPath, PlanNode.chain]
    rw [ih hp]
    simp [PlanNode.action]

theorem closedFind_append_ne (cl : List (S × PlanNode S A)) {k s : S} (v : PlanNode S A)
    (h : s ≠ k) : closedFind (cl ++ [(k, v)]) s = closedFind cl s := by
  induction cl with
  | nil =>
    have : ¬ k = s := fun e => h e.symm
    simp [closedFind, this]
  | cons p rest ih =>
    obtain ⟨k', v'⟩ := p
    by_cases hk : k' = s
    · simp [closedFind, hk]
    · simp only [List.cons_append, closedFind, hk, if_false]
      exact ih

end StepFacts

section ScanInteger
variable {S A : Type}

theorem toInt_natCast (m : ℕ) : toInt (m : Cost) = (m : Int) := by
  simp [toInt]

theorem toInt_cast_of_nat {x : Cost} (h : ∃ m : ℕ, x = m) : ((toInt x : Int) : Cost) = x := by
  obtain ⟨m, rfl⟩ := h
  rw [toInt_natCast]
  simp

/-- The state of the selection scan after the nodes `pre` of the open list `pre ++ rest`:
`N` is the node at `index`, `nF` is its `getF()`, no node of `pre` has a smaller `getF()`,
and every node before `index` has a greater one. -/
theorem scanLoop_min (rest pre : List (PlanNode S A)) (sc : Scan S A)
    (hint : ∀ n ∈ pre ++ rest, ∃ m : ℕ, n.getF = m)
    (hN : (pre ++ rest)[sc.index]? = some sc.N)
    (hnF : (sc.nF : Cost) = sc.N.getF)
    (hmin : ∀ n ∈ pre, sc.N.getF ≤ n.getF)
    (hfirst : ∀ j n, j < sc.index → (pre ++ rest)[j]? = some n → sc.N.getF < n.getF) :
    (pre ++ rest)[(scanLoop sc pre.length rest).index]? = some (scanLoop sc pre.length rest).N ∧
      ((scanLoop sc pre.length rest).nF : Cost) = (scanLoop sc pre.length rest).N.getF ∧
      (∀ n ∈ pre ++ rest, (scanLoop sc pre.length rest).N.getF ≤ n.getF) ∧
      ∀ j n, j < (scanLoop sc pre.length rest).index → (pre ++ rest)[j]? = some n →
        (scanLoop sc pre.length rest).N.getF < n.getF := by
  induction rest generalizing pre sc with
  | nil =>
    simp only [scanLoop]
    refine ⟨hN, hnF, ?_, hfirst⟩
    simpa using hmin
  | cons x xs ih =>
    simp only [scanLoop]
    have hlist : pre ++ x :: xs = (pre ++ [x]) ++ xs := by simp
    have hlen : pre.length + 1 = (pre ++ [x]).length := by simp
    rw [hlen, hlist]
    rw [hlist] at hint hN hfirst
    apply ih (pre ++ [x]) (scanStep sc pre.length x) hint
    · unfold scanStep
      by_cases hlt : x.getF < (sc.nF : Cost)
      · simp only [hlt, if_true]
        rw [List.append_assoc, List.getElem?_append_right (Nat.le_refl _)]
        simp
      · simp only [hlt, if_false]
        exact hN
    · unfold scanStep
      by_cases hlt : x.getF < (sc.nF : Cost)
      · simp only [hlt, if_true]
        exact toInt_cast_of_nat (hint x (by simp))
      · simp only [hlt, if_false]
        exact hnF
    · intro n hn
      unfold scanStep
      by_cases hlt : x.getF < (sc.nF : Cost)
      · simp only [hlt, if_true]
        rcases List.mem_append.mp hn with h | h
        · exact le_of_lt (lt_of_lt_of_le (hnF ▸ hlt) (hmin n h))
        · rw [List.mem_singleton.mp h]
      · simp only [hlt, if_false]
        rcases List.mem_append.mp hn with h | h
        · exact hmin n h
        · rw [List.mem_singleton.mp h, ← hnF]
          exact not_lt.mp hlt
    · intro j n hj hjn
      unfold scanStep at hj ⊢
      by_cases hlt : x.getF < (sc.nF : Cost)
      · simp only [hlt, if_true] at hj ⊢
        have hpre : pre[j]? = some n := by
          rw [List.append_assoc, List.getElem?_append_left hj] at hjn
          exact hjn
        exact lt_of_lt_of_le (hnF ▸ hlt) (hmin n (List.getElem?_mem hpre))
      · simp only [hlt, if_false] at hj ⊢
        exact hfirst j n hj hjn

end ScanInteger

section DetourLemmas

theorem pathCost_nonneg {S A : Type} (D : Domain S A) (hg : ∀ s a, 0 ≤ D.getGCost s a)
    (s : S) (path : List A) : 0 ≤ pathCost D s path := by
  induction path generalizing s with
  | nil => simp [pathCost]
  | cons a rest ih =>
    simp only [pathCost]
    exact add_nonneg (hg s a) (ih _)

theorem detourDomain_cost_nonneg (s a : Nat) : 0 ≤ detourDomain.getGCost s a := by
  simp only [detourDomain]
  split_ifs <;> norm_num

theorem detourDomain_admissible (s : Nat) (path : List Nat)
    (hl : legalPath detourDomain s path = true)
    (hgoal : detourDomain.isEndState (applyPath detourDomain s path) = true) :
    detourDomain.getHCost s ≤ pathCost detourDomain s path := by
  by_cases hs : s = 1
  · subst hs
    cases path with
    | nil => simp [applyPath, detourDomain] at hgoal
    | cons a rest =>
      simp only [legalPath, Bool.and_eq_true] at hl
      obtain ⟨h1, h2⟩ := hl
      have ha : a = 2 := by
        simp only [detourDomain, decide_eq_true_eq] at h1
        omega
      subst ha
      cases rest with
      | nil => simp [applyPath, detourDomain] at hgoal
      | cons b rest2 =>
        simp only [legalPath, Bool.and_eq_true] at h2
        have hb : b = 3 := by
          have h3 := h2.1
          simp only [detourDomain, decide_eq_true_eq] at h3
          omega
        subst hb
        have hrest := pathCost_nonneg detourDomain detourDomain_cost_nonneg
          (detourDomain.apply 3 (detourDomain.apply 2 1)) rest2
        simp only [pathCost]
        have e1 : detourDomain.getHCost 1 = 5 := by simp [detourDomain]
        have e2 : detourDomain.getGCost 1 2 = 1 := by simp [detourDomain]
        have e3 : detourDomain.getGCost (detourDomain.apply 2 1) 3 = 4 := by
          simp [detourDomain]
        rw [e1, e2, e3]
        linarith
  · have e : detourDomain.getHCost s = 0 := by simp [detourDomain, hs]
    rw [e]
    exact pathCost_nonneg detourDomain detourDomain_cost_nonneg s path

end DetourLemmas

section LinkedLemmas
variable {S A : Type} [DecidableEq S]

/-- The predecessor of a node of the lists is the closed-list entry of its state. -/
theorem linked_aStar {D : Domain S A} {start : S} {st : State S A} (hI : Inv D start st)
    (ho : ∀ n ∈ st.openList, ∀ p, n.prevNode = some p →
      closedFind st.closedList p.state = some p)
    (hc : ∀ q ∈ st.closedList, ∀ p, q.2.prevNode = some p →
      closedFind st.closedList p.state = some p) :
    (∀ n ∈ (aStar D st).1.openList, ∀ p, n.prevNode = some p →
        closedFind (aStar D st).1.closedList p.state = some p) ∧
      (∀ q ∈ (aStar D st).1.closedList, ∀ p, q.2.prevNode = some p →
        closedFind (aStar D st).1.closedList p.state = some p) := by
  cases hsel : selectN st.openList with
  | none =>
    rw [aStar_nil D (selectN_eq_none hsel)]
    exact ⟨ho, hc⟩
  | some sc =>
    obtain ⟨l1, l2, h1, h2, hfresh, hassign, _, _, _⟩ := select_facts hI hsel
    have hNmem : sc.N ∈ st.openList := by rw [h1]; simp
    have hsub : ∀ n ∈ l1 ++ l2, n ∈ st.openList := by
      intro n hn
      rw [h1]
      rcases List.mem_append.mp hn with h | h
      · exact List.mem_append_left _ h
      · exact List.mem_append_right _ (List.mem_cons_of_mem _ h)
    have hNew : closedFind (st.closedList ++ [(sc.N.state, sc.N)]) sc.N.state = some sc.N :=
      closedFind_of_mem
        (by
          rw [closedKeys_append]
          exact List.Nodup.append hI.closed_nodup (List.nodup_singleton _)
            (by simpa using hfresh))
        (by simp)
    have hcl : ∀ q ∈ st.closedList ++ [(sc.N.state, sc.N)], ∀ p, q.2.prevNode = some p →
        closedFind (st.closedList ++ [(sc.N.state, sc.N)]) p.state = some p := by
      intro q hq p hp
      rcases List.mem_append.mp hq with h | h
      · exact closedFind_append_of_some (hc q h p hp) _
      · rw [List.mem_singleton.mp h] at hp
        exact closedFind_append_of_some (ho _ hNmem p hp) _
    have hol : ∀ n ∈ l1 ++ l2, ∀ p, n.prevNode = some p →
        closedFind (st.closedList ++ [(sc.N.state, sc.N)]) p.state = some p := by
      intro n hn p hp
      exact closedFind_append_of_some (ho n (hsub n hn) p hp) _
    cases hg : D.isEndState sc.N.state with
    | true =>
      rw [aStar_goal D hsel hg, h2, hassign]
      exact ⟨hol, hcl⟩
    | false =>
      rw [aStar_expand D hsel hg, h2, hassign]
      refine ⟨?_, hcl⟩
      intro n hn p hp
      rcases expand_mem D sc.N _ _ _ n hn with h | ⟨q, _, hnq⟩
      · exact hol n h p hp
      · rw [hnq] at hp
        simp only [candidate, PlanNode.prevNode, Option.some.injEq] at hp
        rw [← hp]
        exact hNew

theorem linked_calls (D : Domain S A) (start : S) (k : Nat) :
    (∀ n ∈ (calls D k (State.new start)).openList, ∀ p, n.prevNode = some p →
        closedFind (calls D k (State.new start)).closedList p.state = some p) ∧
      (∀ q ∈ (calls D k (State.new start)).closedList, ∀ p, q.2.prevNode = some p →
        closedFind (calls D k (State.new start)).closedList p.state = some p) := by
  induction k with
  | zero =>
    constructor
    · intro n hn p hp
      simp only [calls, State.new, List.mem_singleton] at hn
      subst hn
      simp [PlanNode.prevNode] at hp
    · simp [calls, State.new]
  | succ k ih => exact linked_aStar (inv_calls D start k) ih.1 ih.2

omit [DecidableEq S] in
theorem created_root {D : Domain S A} {start : S} {n : PlanNode S A}
    (h : Created D start n) (hp : n.prevNode = none) : n = PlanNode.root start none 0 0 := by
  cases n with
  | root s a g h' =>
    obtain ⟨h1, h2, h3, h4⟩ := h
    subst h1 h2 h3 h4
    rfl
  | node s a g h' p => simp [PlanNode.prevNode] at hp

end LinkedLemmas

section SupersededLemmas
variable {S A : Type} [DecidableEq S]

theorem expandOne_mem_fine (D : Domain S A) (N : PlanNode S A) (cl : List (S × PlanNode S A))
    (ol : List (PlanNode S A)) (p : S × A) :
    ∀ n ∈ expandOne D N cl ol p, n ∈ ol ∨
      (n = candidate D N p ∧ p.1 ∉ closedKeys cl ∧ p.1 ∉ openStates ol) ∨
      (n = candidate D N p ∧ ∃ e ∈ ol, e.state = p.1 ∧
        (candidate D N p).getTotalG < e.getTotalG) := by
  intro n hn
  by_cases hc : p.1 ∈ closedKeys cl
  · rw [expandOne_closed D N ol hc] at hn
    exact Or.inl hn
  · cases hf : findIf p.1 ol with
    | none =>
      rw [expandOne_new D N hc hf] at hn
      rcases List.mem_append.mp hn with h | h
      · exact Or.inl h
      · exact Or.inr (Or.inl ⟨List.mem_singleton.mp h, hc, (findIf_eq_none_iff p.1 ol).mp hf⟩)
    | some r =>
      obtain ⟨i, e⟩ := r
      obtain ⟨hget, hst⟩ := findIf_some hf
      rw [expandOne_found D N hc hf] at hn
      split at hn
      · rename_i hlt
        rcases List.mem_or_eq_of_mem_set hn with h | h
        · exact Or.inl h
        · exact Or.inr (Or.inr ⟨h, e, List.getElem?_mem hget, hst, hlt⟩)
      · exact Or.inl hn

theorem superseded_expandOne (D : Domain S A) (N : PlanNode S A)
    {cl : List (S × PlanNode S A)} {ol : List (PlanNode S A)} (p : S × A)
    {e : PlanNode S A} (h : Superseded e cl ol) :
    Superseded e cl (expandOne D N cl ol p) := by
  obtain ⟨h1, h2, h3⟩ := h
  refine ⟨?_, ?_, h3⟩
  · rcases h1 with h | h
    · exact Or.inl h
    · exact Or.inr (expandOne_mono D N cl ol p h)
  · intro n hn hs
    rcases expandOne_mem_fine D N cl ol p n hn with h | ⟨hc, hk, ho⟩ | ⟨hc, e', he', hs', hlt⟩
    · exact h2 n h hs
    · exfalso
      rw [hc, candidate_state] at hs
      rw [hs] at hk ho
      rcases h1 with h | h
      · exact hk h
      · exact ho h
    · rw [hc]
      rw [hc, candidate_state] at hs
      exact lt_trans hlt (h2 e' he' (hs'.trans hs))

theorem superseded_expand (D : Domain S A) (N : PlanNode S A)
    {cl : List (S × PlanNode S A)} (ps : List (S × A)) {ol : List (PlanNode S A)}
    {e : PlanNode S A} (h : Superseded e cl ol) :
    Superseded e cl (ps.foldl (expandOne D N cl) ol) := by
  induction ps generalizing ol with
  | nil => exact h
  | cons p rest ih => exact ih (superseded_expandOne D N p h)

theorem superseded_replace (D : Domain S A) (N : PlanNode S A)
    {cl : List (S × PlanNode S A)} {ol : List (PlanNode S A)} {p : S × A} {i : Nat}
    {e : PlanNode S A} (hnd : (openStates ol).Nodup) (hcs : ∀ q ∈ cl, q.2.state = q.1)
    (hclosed : closedFind cl p.1 = none) (hopen : findIf p.1 ol = some (i, e))
    (hlt : e.getTotalG > (candidate D N p).getTotalG) :
    Superseded e cl (expandOne D N cl ol p) := by
  obtain ⟨hget, hst⟩ := findIf_some hopen
  have hkey : p.1 ∉ closedKeys cl := (closedFind_eq_none_iff cl p.1).mp hclosed
  rw [expandOne_found D N hkey hopen, if_pos hlt]
  obtain ⟨l1, l2, h1, h2⟩ := getElem?_set_split hget (candidate D N p)
  rw [h2]
  rw [h1] at hnd
  simp only [openStates, List.map_append, List.map_cons] at hnd
  have hnd2 := List.nodup_middle.mp hnd
  rw [List.nodup_cons, List.mem_append, not_or] at hnd2
  refine ⟨Or.inr ?_, ?_, ?_⟩
  · simp [openStates, candidate_state, hst]
  · intro n hn hs
    rcases List.mem_append.mp hn with h | h
    · exact absurd (hs ▸ List.mem_map_of_mem PlanNode.state h) hnd2.1.1
    · rcases List.mem_cons.mp h with h | h
      · rw [h]; exact hlt
      · exact absurd (hs ▸ List.mem_map_of_mem PlanNode.state h) hnd2.1.2
  · intro q hq hs
    exfalso
    apply hkey
    rw [← hst, ← hs, hcs q hq]
    exact List.mem_map_of_mem Prod.fst hq

theorem superseded_aStar {D : Domain S A} {start : S} {st : State S A} (hI : Inv D start st)
    {e : PlanNode S A} (h : Superseded e st.closedList st.openList) :
    Superseded e (aStar D st).1.closedList (aStar D st).1.openList := by
  cases hsel : selectN st.openList with
  | none =>
    rw [aStar_nil D (selectN_eq_none hsel)]
    exact h
  | some sc =>
    obtain ⟨l1, l2, h1, h2, _, hassign, _, _, _⟩ := select_facts hI hsel
    obtain ⟨j1, j2, j3⟩ := h
    have hNmem : sc.N ∈ st.openList := by rw [h1]; simp
    have hsub : ∀ n ∈ l1 ++ l2, n ∈ st.openList := by
      intro n hn
      rw [h1]
      rcases List.mem_append.mp hn with h | h
      · exact List.mem_append_left _ h
      · exact List.mem_append_right _ (List.mem_cons_of_mem _ h)
    have hmid : Superseded e (st.closedList ++ [(sc.N.state, sc.N)]) (l1 ++ l2) := by
      refine ⟨?_, fun n hn => j2 n (hsub n hn), ?_⟩
      · rw [closedKeys_append]
        rcases j1 with h | h
        · exact Or.inl (List.mem_append_left _ h)
        · rw [h1] at h
          simp only [openStates, List.map_append, List.map_cons, List.mem_append,
            List.mem_cons] at h
          simp only [openStates, List.map_append, List.mem_append, List.mem_singleton]
          tauto
      · intro q hq hs
        rcases List.mem_append.mp hq with h | h
        · exact j3 q h hs
        · rw [List.mem_singleton.mp h] at hs ⊢
          exact j2 _ hNmem hs
    cases hg : D.isEndState sc.N.state with
    | true =>
      rw [aStar_goal D hsel hg, h2, hassign]
      exact hmid
    | false =>
      rw [aStar_expand D hsel hg, h2, hassign]
      exact superseded_expand D sc.N _ hmid

theorem superseded_of_discards {D : Domain S A} {start : S} {st : State S A}
    (hI : Inv D start st) {e : PlanNode S A} (h : Discards D st e) :
    Superseded e (aStar D st).1.closedList (aStar D st).1.openList := by
  obtain ⟨sc, pre, p, post, i, hsel, hg, hnext, hclosed, hopen, hlt⟩ := h
  obtain ⟨l1, l2, h1, h2, hfresh, hassign, _, hnd, _⟩ := select_facts hI hsel
  rw [aStar_expand D hsel hg, hnext, List.foldl_append, List.foldl_cons]
  apply superseded_expand
  refine superseded_replace D sc.N ?_ ?_ hclosed hopen hlt
  · rw [h2]
    exact expand_nodup D sc.N _ pre hnd
  · rw [hassign]
    intro q hq
    rcases List.mem_append.mp hq with h | h
    · exact hI.closed_state q h
    · rw [List.mem_singleton.mp h]

theorem superseded_calls (D : Domain S A) (start : S) {j m : Nat} (hjm : j < m)
    {e : PlanNode S A} (h : Discards D (calls D j (State.new start)) e) :
    Superseded e (calls D m (State.new start)).closedList
      (calls D m (State.new start)).openList := by
  induction m with
  | zero => omega
  | succ m ih =>
    rcases Nat.lt_or_ge j m with hlt | hge
    · exact superseded_aStar (inv_calls D start m) (ih hlt)
    · have : j = m := by omega
      subst this
      exact superseded_of_discards (inv_calls D start j) h

omit [DecidableEq S] in
theorem superseded_not_mem {e : PlanNode S A} {cl : List (S × PlanNode S A)}
    {ol : List (PlanNode S A)} (h : Superseded e cl ol) :
    e ∉ ol ∧ ∀ q ∈ cl, q.2 ≠ e := by
  obtain ⟨_, h2, h3⟩ := h
  constructor
  · intro he
    exact lt_irrefl _ (h2 e he rfl)
  · intro q hq hqe
    have := h3 q hq (by rw [hqe])
    rw [hqe] at this
    exact lt_irrefl _ this

/-- The second call on `stepDomain 2` discards the node of the state `2` found first. -/
theorem stepDomain_discards :
    Discards (stepDomain 2) (calls (stepDomain 2) 1 (State.new 0))
      (PlanNode.node 2 (some 2) 5 0 (PlanNode.root 0 none 0 0)) :=
  ⟨{ N := PlanNode.node 1 (some 1) 1 0 (PlanNode.root 0 none 0 0), nF := 1, index := 0 },
    [], (2, 1), [], 0, by decide!, by decide!, by decide!, by decide!, by decide!, by decide!⟩

end SupersededLemmas

section DriveLemmas
variable {S A : Type} [DecidableEq S]

theorem drive_of_first_true (D : Domain S A) (st : State S A) (k : Nat)
    (hfalse : ∀ j < k, (aStar D (calls D j st)).2 = false)
    (htrue : (aStar D (calls D k st)).2 = true) (fuel : Nat) (hfuel : k < fuel) :
    drive D fuel st = some (calls D (k + 1) st) := by
  induction k generalizing st fuel with
  | zero =>
    obtain ⟨f, rfl⟩ : ∃ f, fuel = f + 1 := ⟨fuel - 1, by omega⟩
    simp only [calls] at htrue
    simp [drive, calls, htrue]
  | succ k ih =>
    obtain ⟨f, rfl⟩ : ∃ f, fuel = f + 1 := ⟨fuel - 1, by omega⟩
    have h0 : (aStar D st).2 = false := hfalse 0 (Nat.succ_pos k)
    have hshift : ∀ j, calls D j (aStar D st).1 = calls D (j + 1) st := by
      intro j
      induction j with
      | zero => rfl
      | succ j ihj => simp only [calls]; rw [ihj]; rfl
    have h1 := ih (aStar D st).1
      (fun j hj => by rw [hshift]; exact hfalse (j + 1) (by omega))
      (by rw [hshift]; exact htrue) f (by omega)
    simp only [drive, h0, Bool.false_eq_true, if_false]
    rw [h1, hshift]

theorem terminates_of_superset (D : Domain S A) (start : S) (R : Finset S)
    (hR : ∀ s, Reachable D start s → s ∈ R) :
    ∃ k, k < R.card ∧ (aStar D (calls D k (State.new start))).2 = true := by
  by_contra hcon
  have hall : ∀ k < R.card, (aStar D (calls D k (State.new start))).2 = false := by
    intro k hk
    cases hb : (aStar D (calls D k (State.new start))).2 with
    | false => rfl
    | true => exact absurd ⟨k, hk, hb⟩ hcon
  have hlen := closed_length_calls D start R.card hall
  have hcard := known_card (inv_calls D start R.card) R hR
  have hpos : 0 < R.card := Finset.card_pos.mpr ⟨start, hR start Reachable.refl⟩
  obtain ⟨n, hn⟩ : ∃ n, R.card = n + 1 := ⟨R.card - 1, by omega⟩
  have hlast := (aStar_false (hall n (by omega))).2
  rw [hn] at hlen hcard
  simp only [calls] at hlen hcard
  have : (aStar D (calls D n (State.new start))).1.openList.length = 0 := by omega
  exact hlast (List.length_eq_zero.mp this)

omit [DecidableEq S] in
theorem reachable_of_path (D : Domain S A) (start : S) (path : List A) (s : S)
    (hs : Reachable D start s) (hl : listed D path) (hlegal : legalPath D s path = true) :
    Reachable D start (applyPath D s path) := by
  induction path generalizing s with
  | nil => exact hs
  | cons a rest ih =>
    simp only [legalPath, Bool.and_eq_true] at hlegal
    exact ih _ (Reachable.step hs (hl a (List.mem_cons_self _ _)) hlegal.1)
      (fun b hb => hl b (List.mem_cons_of_mem _ hb)) hlegal.2

theorem found_flag {D : Domain S A} {st : State S A} (h : found D st = true) :
    (aStar D st).2 = true := by
  obtain ⟨sc, hsel, hg⟩ := found_true h
  rw [aStar_goal D hsel hg]

omit [DecidableEq S] in
theorem buildPath_route {D : Domain S A} {start : S} (n : PlanNode S A)
    (hn : Chain D start n) (rest : List A) : buildPath n rest = n.route ++ rest := by
  induction n generalizing rest with
  | root s a g h =>
    obtain ⟨_, h2⟩ := hn
    subst h2
    simp [buildPath, PlanNode.route]
  | node s a g h p ih =>
    obtain ⟨⟨x, h1, _⟩, hp⟩ := hn
    subst h1
    simp only [buildPath, PlanNode.route]
    rw [ih hp]
    simp

/-- A run on a finite state space with a reachable goal state: the drive loop stops with
a call that settles a goal node, and the path is the route of that node. -/
theorem search_finds (D : Domain S A) (start : S) (R : Finset S)
    (hR : ∀ s, Reachable D start s → s ∈ R) (goalPath : List A) (hl : listed D goalPath)
    (hlegal : legalPath D start goalPath = true)
    (hgoal : D.isEndState (applyPath D start goalPath) = true) :
    ∃ k N, k < R.card ∧
      (∀ fuel, k < fuel →
        drive D fuel (State.new start) = some (calls D (k + 1) (State.new start))) ∧
      (∀ j < k, found D (calls D j (State.new start)) = false) ∧
      settled (calls D k (State.new start)) = some N ∧ D.isEndState N.state = true ∧
      Created D start N ∧ (calls D (k + 1) (State.new start)).path = N.route := by
  classical
  have hex := terminates_of_superset D start R hR
  have hk := Nat.find_spec hex
  have hmin : ∀ j < Nat.find hex, (aStar D (calls D j (State.new start))).2 = false := by
    intro j hj
    have := Nat.find_min hex hj
    cases hb : (aStar D (calls D j (State.new start))).2 with
    | false => rfl
    | true => exact absurd ⟨lt_trans hj hk.1, hb⟩ this
  have hnf : ∀ j < Nat.find hex, found D (calls D j (State.new start)) = false := by
    intro j hj
    cases hb : found D (calls D j (State.new start)) with
    | false => rfl
    | true =>
      have := found_flag hb
      rw [hmin j hj] at this
      exact absurd this (by simp)
  have hfound : found D (calls D (Nat.find hex) (State.new start)) = true := by
    cases hb : found D (calls D (Nat.find hex) (State.new start)) with
    | true => rfl
    | false =>
      exfalso
      have hS : Searching D start (calls D (Nat.find hex + 1) (State.new start)) :=
        searching_calls D start _ (fun j hj => by
          rcases Nat.lt_or_ge j (Nat.find hex) with h | h
          · exact hnf j h
          · have : j = Nat.find hex := by omega
            rw [this]; exact hb)
      have hflag := hk.2
      rw [aStar_flag_of_not_found hb] at hflag
      have hempty : (calls D (Nat.find hex + 1) (State.new start)).openList = [] := by
        simp only [calls]
        exact List.length_eq_zero.mp (by simpa using hflag)
      have hreach := reachable_of_path D start goalPath start Reachable.refl hl hlegal
      have := hS.closed_not_goal _ (reachable_of_closed hS hempty hreach)
      rw [hgoal] at this
      exact absurd this (by simp)
  obtain ⟨sc, hsel, hg⟩ := found_true hfound
  have hmem : sc.N ∈ (calls D (Nat.find hex) (State.new start)).openList :=
    List.getElem?_mem (selectN_get hsel)
  have hcr := (created_calls D start (Nat.find hex)).1 sc.N hmem
  have hS := searching_calls D start (Nat.find hex) hnf
  refine ⟨Nat.find hex, sc.N, hk.1,
    fun fuel hf => drive_of_first_true D _ _ hmin hk.2 fuel hf, hnf,
    by simp [settled, hsel], hg, hcr, ?_⟩
  simp only [calls]
  rw [aStar_goal D hsel hg, hS.path_nil]
  simpa using buildPath_route sc.N (created_chain sc.N hcr) []

omit [DecidableEq S] in
theorem along_of_legal (D : Domain S A) (ok : S → S → Prop)
    (hok : ∀ s a, a ∈ D.actions → D.isLegalAction s a = true → ok s (D.apply a s))
    (s : S) (path : List A) (hl : listed D path) (hlegal : legalPath D s path = true) :
    Along D ok s path := by
  induction path generalizing s with
  | nil => trivial
  | cons a rest ih =>
    simp only [legalPath, Bool.and_eq_true] at hlegal
    exact ⟨hok s a (hl a (List.mem_cons_self _ _)) hlegal.1,
      ih _ (fun b hb => hl b (List.mem_cons_of_mem _ hb)) hlegal.2⟩

end DriveLemmas

namespace Goap

theorem work_eq (t e m f : Int) : work [t, e, m, f] = [t - 60, e - 400, m + 100, f] := by
  simp [work, add, get, TIME, ENERGY, MONEY]
  omega

theorem eat_eq (t e m f : Int) : eat [t, e, m, f] = [t - 15, e + 1200, m, f - 1] := by
  simp [eat, add, get, TIME, ENERGY, FOOD]
  omega

theorem buyFood_eq (t e m f : Int) :
    buyFood [t, e, m, f] = [t - 30, e - 100, m - 100, f + 7] := by
  simp [buyFood, add, get, TIME, ENERGY, MONEY, FOOD]
  omega

theorem guard_nonneg {state : State} {action : Action} (h : guard state action = true) :
    ∀ x ∈ action state, 0 ≤ x := by
  intro x hx
  have := List.all_eq_true.mp h x hx
  simpa using this

theorem reachable_bounds (s : State) (h : Reachable domain startState s) :
    ∃ t e m f : Int, s = [t, e, m, f] ∧ 0 ≤ t ∧ 0 ≤ e ∧ 0 ≤ m ∧ 0 ≤ f ∧
      e + 80 * t ≤ 160000 ∧ m + 2 * t ≤ 4000 ∧ f + t ≤ 2005 := by
  induction h with
  | refl => exact ⟨2000, 0, 0, 5, rfl, by norm_num, by norm_num, by norm_num, by norm_num,
      by norm_num, by norm_num, by norm_num⟩
  | step _ ha hl ih =>
    rename_i s a
    obtain ⟨t, e, m, f, rfl, h1, h2, h3, h4, h5, h6, h7⟩ := ih
    have hnn := guard_nonneg hl
    simp only [domain, actions, List.mem_cons, List.mem_singleton, List.not_mem_nil,
      or_false] at ha
    simp only [domain]
    rcases ha with rfl | rfl | rfl
    · rw [work_eq] at hnn ⊢
      have a1 := hnn (t - 60) (by simp)
      have a2 := hnn (e - 400) (by simp)
      exact ⟨_, _, _, _, rfl, a1, a2, by omega, h4, by omega, by omega, by omega⟩
    · rw [eat_eq] at hnn ⊢
      have a1 := hnn (t - 15) (by simp)
      have a4 := hnn (f - 1) (by simp)
      exact ⟨_, _, _, _, rfl, a1, by omega, h3, a4, by omega, by omega, by omega⟩
    · rw [buyFood_eq] at hnn ⊢
      have a1 := hnn (t - 30) (by simp)
      have a2 := hnn (e - 100) (by simp)
      have a3 := hnn (m - 100) (by simp)
      exact ⟨_, _, _, _, rfl, a1, a2, a3, by omega, by omega, by omega, by omega⟩

theorem planning_reachable_finite :
    ∃ R : Finset State, ∀ s, Reachable domain startState s → s ∈ R := by
  have hfin : ((fun q : ℤ × ℤ × ℤ × ℤ => [q.1, q.2.1, q.2.2.1, q.2.2.2]) ''
      (Set.Icc 0 2000 ×ˢ Set.Icc 0 160000 ×ˢ Set.Icc 0 4000 ×ˢ Set.Icc 0 2005)).Finite :=
    ((Set.finite_Icc _ _).prod ((Set.finite_Icc _ _).prod
      ((Set.finite_Icc _ _).prod (Set.finite_Icc _ _)))).image _
  refine ⟨hfin.toFinset, ?_⟩
  intro s hs
  obtain ⟨t, e, m, f, rfl, h1, h2, h3, h4, h5, h6, h7⟩ := reachable_bounds s hs
  rw [Set.Finite.mem_toFinset]
  refine ⟨(t, e, m, f), ?_, rfl⟩
  simp only [Set.mem_prod, Set.mem_Icc]
  omega

theorem samplePlan_listed : listed domain samplePlan := by
  intro a ha
  simp only [samplePlan, List.mem_append, List.mem_replicate, List.mem_singleton] at ha
  simp only [domain, actions, List.mem_cons, List.mem_singleton]
  tauto

end Goap

namespace Grid

theorem legal_freeCell {q : Position} (h : isLegalPosition level q = true) : freeCell q := by
  unfold isLegalPosition at h
  split at h
  · simp at h
  · rename_i hin
    simp only [not_or, not_lt, ge_iff_le, not_le] at hin
    obtain ⟨h1, h2, h3, h4⟩ := hin
    have hy : q.2 < 9 := by simpa [level] using h3
    have hcell : (row level q.2).getD q.1.toNat 0 = 0 := by simpa using h
    obtain ⟨x, y⟩ := q
    simp only at h1 h2 h3 h4 hy hcell
    have hrow : (row level y).length = 13 := by
      unfold row
      have : y.toNat < 9 := by omega
      interval_cases hk : y.toNat <;> rfl
    rw [hrow] at h4
    refine ⟨h1, by exact_mod_cast h4, h2, hy, ?_⟩
    simp only
    have hlt : x.toNat < (row level y).length := by rw [hrow]; omega
    rw [List.getD_eq_getElem _ _ hlt] at hcell ⊢
    exact hcell

theorem step_ok (hc : Position → Cost) (s : Position) (a : Action)
    (ha : a ∈ (domain level endPos hc).actions)
    (hl : (domain level endPos hc).isLegalAction s a = true) :
    unitStep s ((domain level endPos hc).apply a s) ∧
      freeCell ((domain level endPos hc).apply a s) := by
  refine ⟨?_, legal_freeCell hl⟩
  simp only [domain, actions, List.mem_cons, List.mem_singleton, List.not_mem_nil,
    or_false] at ha
  simp only [domain, unitStep]
  rcases ha with rfl | rfl | rfl | rfl
  · simp [left]
  · simp [right]
  · simp [up]
  · simp [down]

theorem reachable_inside (hc : Position → Cost) (s : Position)
    (h : Reachable (domain level endPos hc) start s) :
    0 ≤ s.1 ∧ s.1 ≤ 12 ∧ 0 ≤ s.2 ∧ s.2 ≤ 8 := by
  induction h with
  | refl => simp [start]
  | step _ ha hl _ =>
    obtain ⟨h1, h2, h3, h4, _⟩ := (step_ok hc _ _ ha hl).2
    omega

theorem grid_reachable_finite (hc : Position → Cost) :
    ∃ R : Finset Position, ∀ s, Reachable (domain level endPos hc) start s → s ∈ R := by
  have hfin : (Set.Icc (0 : Int) 12 ×ˢ Set.Icc (0 : Int) 8).Finite :=
    (Set.finite_Icc _ _).prod (Set.finite_Icc _ _)
  refine ⟨hfin.toFinset, ?_⟩
  intro s hs
  obtain ⟨h1, h2, h3, h4⟩ := reachable_inside hc s hs
  rw [Set.Finite.mem_toFinset]
  exact ⟨⟨h1, h2⟩, ⟨h3, h4⟩⟩

theorem sampleWalk_listed (hc : Position → Cost) : listed (domain level endPos hc) sampleWalk := by
  intro a ha
  simp only [sampleWalk, List.mem_append, List.mem_replicate] at ha
  simp only [domain, actions, List.mem_cons, List.mem_singleton]
  tauto

theorem legalPath_heuristic (hc : Position → Cost) (s : Position) (path : List Action) :
    legalPath (domain level endPos hc) s path =
      legalPath (domain level endPos fun _ => 0) s path := by
  induction path generalizing s with
  | nil => rfl
  | cons a rest ih =>
    simp only [legalPath]
    rw [ih]
    rfl

theorem applyPath_heuristic (hc : Position → Cost) (s : Position) (path : List Action) :
    applyPath (domain level endPos hc) s path =
      applyPath (domain level endPos fun _ => 0) s path := by
  induction path generalizing s with
  | nil => rfl
  | cons a rest ih =>
    simp only [applyPath]
    rw [ih]
    rfl

theorem sampleWalk_legal (hc : Position → Cost) :
    legalPath (domain level endPos hc) start sampleWalk = true := by
  rw [legalPath_heuristic]
  decide

theorem sampleWalk_goal (hc : Position → Cost) :
    (domain level endPos hc).isEndState (applyPath (domain level endPos hc) start sampleWalk)
      = true := by
  rw [applyPath_heuristic]
  show (domain level endPos fun _ => 0).isEndState
    (applyPath (domain level endPos fun _ => 0) start sampleWalk) = true
  decide

end Grid

section SimpleLemmas
variable {S A : Type} [DecidableEq S]

omit [DecidableEq S] in
theorem visits_append (D : Domain S A) (s : S) (p : List A) (a : A) :
    visits D s (p ++ [a]) = visits D s p ++ [D.apply a (applyPath D s p)] := by
  induction p generalizing s with
  | nil => rfl
  | cons b rest ih =>
    simp only [List.cons_append, visits, applyPath, List.append_eq]
    rw [ih]

omit [DecidableEq S] in
/-- The states passed by the route of a created node are the states of its chain. -/
theorem created_visits {D : Domain S A} {start : S} (n : PlanNode S A)
    (h : Created D start n) : visits D start n.route = n.states.reverse := by
  induction n with
  | root s a g h' =>
    obtain ⟨h1, _, _, _⟩ := h
    subst h1
    rfl
  | node s a g h' p ih =>
    obtain ⟨⟨x, h1, _, _, h4, _, _⟩, hp⟩ := h
    obtain ⟨_, _, r3, _, _⟩ := created_route p hp
    subst h1
    simp only [PlanNode.route, PlanNode.states, List.reverse_cons]
    rw [visits_append, ih hp, r3, h4]

/-- One call keeps the chains of the nodes free of repeated states: the states of an
open-list node other than its own, and all states of a closed-list node, are settled. -/
theorem simple_aStar {D : Domain S A} {start : S} {st : State S A} (hI : Inv D start st)
    (ho : ∀ n ∈ st.openList, n.states.Nodup ∧
      ∀ s ∈ n.states, s = n.state ∨ s ∈ closedKeys st.closedList)
    (hc : ∀ q ∈ st.closedList, q.2.states.Nodup ∧
      ∀ s ∈ q.2.states, s ∈ closedKeys st.closedList) :
    (∀ n ∈ (aStar D st).1.openList, n.states.Nodup ∧
        ∀ s ∈ n.states, s = n.state ∨ s ∈ closedKeys (aStar D st).1.closedList) ∧
      (∀ q ∈ (aStar D st).1.closedList, q.2.states.Nodup ∧
        ∀ s ∈ q.2.states, s ∈ closedKeys (aStar D st).1.closedList) := by
  cases hsel : selectN st.openList with
  | none =>
    rw [aStar_nil D (selectN_eq_none hsel)]
    exact ⟨ho, hc⟩
  | some sc =>
    obtain ⟨l1, l2, h1, h2, hfresh, hassign, _, _, _⟩ := select_facts hI hsel
    have hNmem : sc.N ∈ st.openList := by rw [h1]; simp
    have hsub : ∀ n ∈ l1 ++ l2, n ∈ st.openList := by
      intro n hn
      rw [h1]
      rcases List.mem_append.mp hn with h | h
      · exact List.mem_append_left _ h
      · exact List.mem_append_right _ (List.mem_cons_of_mem _ h)
    have hNin : ∀ s ∈ sc.N.states, s ∈ closedKeys (st.closedList ++ [(sc.N.state, sc.N)]) := by
      intro s hs
      rw [closedKeys_append]
      rcases (ho _ hNmem).2 s hs with h | h
      · rw [h]; simp
      · exact List.mem_append_left _ h
    have hcl : ∀ q ∈ st.closedList ++ [(sc.N.state, sc.N)], q.2.states.Nodup ∧
        ∀ s ∈ q.2.states, s ∈ closedKeys (st.closedList ++ [(sc.N.state, sc.N)]) := by
      intro q hq
      rcases List.mem_append.mp hq with h | h
      · refine ⟨(hc q h).1, fun s hs => ?_⟩
        rw [closedKeys_append]
        exact List.mem_append_left _ ((hc q h).2 s hs)
      · rw [List.mem_singleton.mp h]
        exact ⟨(ho _ hNmem).1, hNin⟩
    have hol : ∀ n ∈ l1 ++ l2, n.states.Nodup ∧
        ∀ s ∈ n.states, s = n.state ∨ s ∈ closedKeys (st.closedList ++ [(sc.N.state, sc.N)]) := by
      intro n hn
      refine ⟨(ho n (hsub n hn)).1, fun s hs => ?_⟩
      rcases (ho n (hsub n hn)).2 s hs with h | h
      · exact Or.inl h
      · rw [closedKeys_append]
        exact Or.inr (List.mem_append_left _ h)
    cases hg : D.isEndState sc.N.state with
    | true =>
      rw [aStar_goal D hsel hg, h2, hassign]
      exact ⟨hol, hcl⟩
    | false =>
      have hdis := (inv_aStar hI).disjoint
      rw [aStar_expand D hsel hg, h2, hassign] at hdis ⊢
      refine ⟨?_, hcl⟩
      intro n hn
      rcases expand_mem D sc.N _ _ _ n hn with h | ⟨q, _, hnq⟩
      · exact hol n h
      · have hns := hdis n.state (List.mem_map_of_mem _ hn)
        rw [hnq] at hns ⊢
        constructor
        · show (q.1 :: sc.N.states).Nodup
          exact List.nodup_cons.mpr ⟨fun hm => hns (hNin _ hm), (ho _ hNmem).1⟩
        · intro s hs
          rcases List.mem_cons.mp (show s ∈ q.1 :: sc.N.states from hs) with h | h
          · exact Or.inl h
          · exact Or.inr (hNin s h)

theorem simple_calls (D : Domain S A) (start : S) (k : Nat) :
    (∀ n ∈ (calls D k (State.new start)).openList, n.states.Nodup ∧
        ∀ s ∈ n.states, s = n.state ∨ s ∈ closedKeys (calls D k (State.new start)).closedList) ∧
      (∀ q ∈ (calls D k (State.new start)).closedList, q.2.states.Nodup ∧
        ∀ s ∈ q.2.states, s ∈ closedKeys (calls D k (State.new start)).closedList) := by
  induction k with
  | zero =>
    constructor
    · intro n hn
      simp only [calls, State.new, List.mem_singleton] at hn
      subst hn
      simp [PlanNode.states, PlanNode.state]
    · simp [calls, State.new]
  | succ k ih => exact simple_aStar (inv_calls D start k) ih.1 ih.2

end SimpleLemmas

section CostLemmas
variable {S A : Type} [DecidableEq S]

/-- A node of the open list keeps its state in the list, at a total cost that is not
greater, when one pair is expanded. -/
theorem expandOne_decrease (D : Domain S A) (N : PlanNode S A) (cl : List (S × PlanNode S A))
    (ol : List (PlanNode S A)) (p : S × A) :
    ∀ m ∈ ol, ∃ m2 ∈ expandOne D N cl ol p, m2.state = m.state ∧ m2.getTotalG ≤ m.getTotalG := by
  intro m hm
  by_cases hc : p.1 ∈ closedKeys cl
  · rw [expandOne_closed D N ol hc]
    exact ⟨m, hm, rfl, le_refl _⟩
  · cases hf : findIf p.1 ol with
    | none =>
      rw [expandOne_new D N hc hf]
      exact ⟨m, List.mem_append_left _ hm, rfl, le_refl _⟩
    | some r =>
      obtain ⟨i, e⟩ := r
      obtain ⟨hget, hst⟩ := findIf_some hf
      rw [expandOne_found D N hc hf]
      by_cases hlt : e.getTotalG > (candidate D N p).getTotalG
      · rw [if_pos hlt]
        obtain ⟨l1, l2, h1, h2⟩ := getElem?_set_split hget (candidate D N p)
        rw [h2]
        rw [h1] at hm
        rcases List.mem_append.mp hm with h | h
        · exact ⟨m, List.mem_append_left _ h, rfl, le_refl _⟩
        · rcases List.mem_cons.mp h with h | h
          · refine ⟨candidate D N p, by simp, ?_, ?_⟩
            · rw [h, candidate_state, hst]
            · rw [h]; exact le_of_lt hlt
          · exact ⟨m, List.mem_append_right _ (List.mem_cons_of_mem _ h), rfl, le_refl _⟩
      · rw [if_neg hlt]
        exact ⟨m, hm, rfl, le_refl _⟩

theorem expand_decrease (D : Domain S A) (N : PlanNode S A) (cl : List (S × PlanNode S A))
    (ps : List (S × A)) (ol : List (PlanNode S A)) :
    ∀ m ∈ ol, ∃ m2 ∈ ps.foldl (expandOne D N cl) ol,
      m2.state = m.state ∧ m2.getTotalG ≤ m.getTotalG := by
  induction ps generalizing ol with
  | nil => intro m hm; exact ⟨m, hm, rfl, le_refl _⟩
  | cons p rest ih =>
    intro m hm
    obtain ⟨m1, h1, h2, h3⟩ := expandOne_decrease D N cl ol p m hm
    obtain ⟨m2, k1, k2, k3⟩ := ih (expandOne D N cl ol p) m1 h1
    exact ⟨m2, k1, k2.trans h2, le_trans k3 h3⟩

/-- After a pair is expanded, its state is closed or has an open-list node that costs no
more than the candidate. -/
theorem expandOne_covers_cost (D : Domain S A) (N : PlanNode S A)
    (cl : List (S × PlanNode S A)) (ol : List (PlanNode S A)) (p : S × A) :
    p.1 ∈ closedKeys cl ∨ ∃ m ∈ expandOne D N cl ol p,
      m.state = p.1 ∧ m.getTotalG ≤ (candidate D N p).getTotalG := by
  by_cases hc : p.1 ∈ closedKeys cl
  · exact Or.inl hc
  · right
    cases hf : findIf p.1 ol with
    | none =>
      rw [expandOne_new D N hc hf]
      exact ⟨candidate D N p, by simp, candidate_state D N p, le_refl _⟩
    | some r =>
      obtain ⟨i, e⟩ := r
      obtain ⟨hget, hst⟩ := findIf_some hf
      rw [expandOne_found D N hc hf]
      by_cases hlt : e.getTotalG > (candidate D N p).getTotalG
      · rw [if_pos hlt]
        obtain ⟨l1, l2, _, h2⟩ := getElem?_set_split hget (candidate D N p)
        rw [h2]
        exact ⟨candidate D N p, by simp, candidate_state D N p, le_refl _⟩
      · rw [if_neg hlt]
        exact ⟨e, List.getElem?_mem hget, hst, not_lt.mp hlt⟩

theorem expand_covers_cost (D : Domain S A) (N : PlanNode S A) (cl : List (S × PlanNode S A))
    (ps : List (S × A)) (ol : List (PlanNode S A)) :
    ∀ p ∈ ps, p.1 ∈ closedKeys cl ∨ ∃ m ∈ ps.foldl (expandOne D N cl) ol,
      m.state = p.1 ∧ m.getTotalG ≤ (candidate D N p).getTotalG := by
  induction ps generalizing ol with
  | nil => intro p hp; simp at hp
  | cons q rest ih =>
    intro p hp
    rcases List.mem_cons.mp hp with h | h
    · subst h
      rcases expandOne_covers_cost D N cl ol p with h1 | ⟨m, h1, h2, h3⟩
      · exact Or.inl h1
      · obtain ⟨m2, k1, k2, k3⟩ := expand_decrease D N cl rest _ m h1
        exact Or.inr ⟨m2, k1, k2.trans h2, le_trans k3 h3⟩
    · exact ih (expandOne D N cl ol q) p h

omit [DecidableEq S] in
/-- A consistent heuristic along a legal sequence of listed actions. -/
theorem consistent_along (D : Domain S A)
    (hcons : ∀ s a, a ∈ D.actions → D.isLegalAction s a = true →
      D.getHCost s ≤ D.getGCost s a + D.getHCost (D.apply a s))
    (s : S) (path : List A) (hl : listed D path) (hlegal : legalPath D s path = true) :
    D.getHCost s ≤ pathCost D s path + D.getHCost (applyPath D s path) := by
  induction path generalizing s with
  | nil => simp [pathCost, applyPath]
  | cons a rest ih =>
    simp only [legalPath, Bool.and_eq_true] at hlegal
    have h1 := hcons s a (hl a (List.mem_cons_self _ _)) hlegal.1
    have h2 := ih (D.apply a s) (fun b hb => hl b (List.mem_cons_of_mem _ hb)) hlegal.2
    simp only [pathCost, applyPath]
    linarith

omit [DecidableEq S] in
theorem pathCost_nat (D : Domain S A) (hg : ∀ s a, ∃ m : ℕ, D.getGCost s a = m) (s : S)
    (path : List A) : ∃ m : ℕ, pathCost D s path = m := by
  induction path generalizing s with
  | nil => exact ⟨0, by simp [pathCost]⟩
  | cons a rest ih =>
    obtain ⟨m1, h1⟩ := hg s a
    obtain ⟨m2, h2⟩ := ih (D.apply a s)
    exact ⟨m1 + m2, by simp [pathCost, h1, h2]⟩

omit [DecidableEq S] in
/-- With integer costs and summed costs within `2^24`, the `float` sums of a created node
whose chain repeats no state are exact: `getTotalG()` is the exact sum of `G` over the chain, `getF()` is a non-negative
integer, and for a node with a predecessor it is `getTotalG()` plus the heuristic of its
state. -/
theorem created_exact (D : Domain S A) (start : S)
    (hg : ∀ s a, ∃ m : ℕ, D.getGCost s a = m) (hh : ∀ s, ∃ m : ℕ, D.getHCost s = m)
    (hbound : ∀ path, listed D path → legalPath D start path = true →
      (visits D start path).Nodup →
      pathCost D start path + D.getHCost (applyPath D start path) ≤ 16777216)
    (n : PlanNode S A) (h : Created D start n) (hs : n.states.Nodup) :
    n.getTotalG = n.sumG ∧ (∃ m : ℕ, n.getF = m) ∧
      (n.prevNode ≠ none → n.getF = n.getTotalG + D.getHCost n.state) := by
  obtain ⟨r1, r2, r3, r4, _⟩ := created_route n h
  have hb := hbound n.route r1 r2 (by rw [created_visits n h]; exact List.nodup_reverse.mpr hs)
  rw [r3, r4] at hb
  have hn := created_natG hg n h
  obtain ⟨ms, hms⟩ := sumG_nat n hn
  obtain ⟨mh, hmh⟩ := hh n.state
  rw [hms, hmh] at hb
  have hb2 : ms + mh ≤ 16777216 := by exact_mod_cast hb
  have ht : n.getTotalG = n.sumG :=
    getTotalG_exact n hn (by rw [hms]; exact_mod_cast (by omega : ms ≤ 16777216))
  refine ⟨ht, ?_⟩
  cases n with
  | root s a g h' =>
    obtain ⟨_, _, _, e4⟩ := h
    subst e4
    refine ⟨⟨ms, ?_⟩, fun hp => absurd rfl hp⟩
    show fadd (PlanNode.root s a g 0).getTotalG 0 = (ms : Cost)
    rw [ht, hms]
    have := fadd_natCast ms 0 (by omega)
    simpa using this
  | node s a g h' p =>
    obtain ⟨⟨x, _, _, _, _, _, e6⟩, _⟩ := h
    have hst : (PlanNode.node s a g h' p).state = s := rfl
    rw [hst] at hmh
    have hF : (PlanNode.node s a g h' p).getF = ((ms + mh : ℕ) : Cost) := by
      show fadd (PlanNode.node s a g h' p).getTotalG h' = _
      rw [ht, hms, e6, hmh]
      exact fadd_natCast ms mh hb2
    refine ⟨⟨ms + mh, hF⟩, fun _ => ?_⟩
    rw [hF, ht, hms, hst, hmh]
    push_cast
    rfl

end CostLemmas

section OptimalLemmas
variable {S A : Type} [DecidableEq S]

theorem first_closed (D : Domain S A) (start : S) :
    closedFind (calls D 1 (State.new start)).closedList start =
      some (PlanNode.root start none 0 0) := by
  have hsel : selectN (State.new start : State S A).openList =
      some { N := PlanNode.root start none 0 0, nF := 0, index := 0 } := selectN_new start
  simp only [calls]
  cases hg : D.isEndState start with
  | true =>
    rw [aStar_goal D hsel (by simpa [PlanNode.state] using hg)]
    simp [State.new, closedAssign, closedFind, PlanNode.state]
  | false =>
    rw [aStar_expand D hsel (by simpa [PlanNode.state] using hg)]
    simp [State.new, closedAssign, closedFind, PlanNode.state]

theorem start_closed (D : Domain S A) (start : S) (k : Nat) (hk : 1 ≤ k) :
    closedFind (calls D k (State.new start)).closedList start =
      some (PlanNode.root start none 0 0) :=
  closedFind_calls D start hk (first_closed D start)

/-- After the first call every open-list node has a predecessor. -/
theorem open_has_prev (D : Domain S A) (start : S) (k : Nat) (hk : 1 ≤ k) :
    ∀ n ∈ (calls D k (State.new start)).openList, n.prevNode ≠ none := by
  intro n hn hp
  have hroot := created_root ((created_calls D start k).1 n hn) hp
  have hkey : start ∈ closedKeys (calls D k (State.new start)).closedList :=
    List.mem_map_of_mem Prod.fst (closedFind_mem (start_closed D start k hk))
  have hst : n.state = start := by rw [hroot]; rfl
  have hmem : n.state ∈ openStates (calls D k (State.new start)).openList :=
    List.mem_map_of_mem _ hn
  rw [hst] at hmem
  exact (inv_calls D start k).disjoint start hmem hkey

omit [DecidableEq S] in
theorem mem_closedKeys {cl : List (S × PlanNode S A)} {s : S} (h : s ∈ closedKeys cl) :
    ∃ n, (s, n) ∈ cl := by
  obtain ⟨q, hq, rfl⟩ := List.mem_map.mp h
  exact ⟨q.2, hq⟩

omit [DecidableEq S] in
/-- A legal sequence of listed actions that leads from a settled state to a state that is
not settled passes an open-list node whose total cost plus heuristic is bounded by the
cost of the sequence. -/
theorem frontier_bound {D : Domain S A} {start : S} {st : State S A}
    (hcons : ∀ s a, a ∈ D.actions → D.isLegalAction s a = true →
      D.getHCost s ≤ D.getGCost s a + D.getHCost (D.apply a s))
    (hO : Optimal D start st) (hcs : ∀ q ∈ st.closedList, q.2.state = q.1)
    (hcr : ∀ q ∈ st.closedList, Created D start q.2)
    (hex : ∀ q ∈ st.closedList, q.2.getTotalG = q.2.sumG)
    (path : List A) (s : S) (n : PlanNode S A) (hn : (s, n) ∈ st.closedList)
    (hl : listed D path) (hlegal : legalPath D s path = true)
    (hend : applyPath D s path ∉ closedKeys st.closedList) :
    ∃ m ∈ st.openList, m.getTotalG + D.getHCost m.state ≤
      n.getTotalG + pathCost D s path + D.getHCost (applyPath D s path) := by
  induction path generalizing s n with
  | nil =>
    exfalso
    exact hend (List.mem_map_of_mem Prod.fst hn)
  | cons a rest ih =>
    simp only [legalPath, Bool.and_eq_true] at hlegal
    have ha : a ∈ D.actions := hl a (List.mem_cons_self _ _)
    have hl2 : listed D rest := fun b hb => hl b (List.mem_cons_of_mem _ hb)
    simp only [applyPath] at hend
    simp only [pathCost, applyPath]
    rcases hO.succ_cost (s, n) hn a ha hlegal.1 with hc | ⟨m, hm, hms, hmg⟩
    · obtain ⟨n2, hn2⟩ := mem_closedKeys hc
      obtain ⟨r1, r2, r3, r4, _⟩ := created_route n (hcr (s, n) hn)
      rw [← hex (s, n) hn] at r4
      have hst : n.state = s := hcs (s, n) hn
      have hle : n2.getTotalG ≤ n.getTotalG + D.getGCost s a := by
        have := hO.closed_opt (D.apply a s, n2) hn2 (n.route ++ [a])
          (by
            intro b hb
            rcases List.mem_append.mp hb with h | h
            · exact r1 b h
            · rw [List.mem_singleton.mp h]; exact ha)
          (by rw [legalPath_append, r2, r3, hst]; simp [legalPath, hlegal.1])
          (by rw [applyPath_append, r3, hst]; rfl)
        rw [pathCost_append, r3, r4, hst] at this
        simpa [pathCost] using this
      obtain ⟨m, hm, hmb⟩ := ih (D.apply a s) n2 hn2 hl2 hlegal.2 hend
      exact ⟨m, hm, by linarith⟩
    · have hc2 := consistent_along D hcons (D.apply a s) rest hl2 hlegal.2
      refine ⟨m, hm, ?_⟩
      rw [hms]
      linarith

omit [DecidableEq S] in
theorem selectN_min {ol : List (PlanNode S A)} {sc : Scan S A} (hsel : selectN ol = some sc)
    (hint : ∀ n ∈ ol, ∃ m : ℕ, n.getF = m) : ∀ n ∈ ol, sc.N.getF ≤ n.getF := by
  cases ol with
  | nil => simp [selectN] at hsel
  | cons n0 rest =>
    simp only [selectN, Option.some.injEq] at hsel
    have h := scanLoop_min (n0 :: rest) [] { N := n0, nF := toInt n0.getF, index := 0 }
      (by simpa using hint) (by simp) (toInt_cast_of_nat (hint n0 (by simp)))
      (by simp) (by simp)
    rw [← hsel]
    simpa using h.2.2.1

/-- The bound on the selected node: its total cost plus the heuristic of its state is at
most the cost of any legal sequence of listed actions from `start` to a state that is not
settled, plus the heuristic of that state. -/
theorem selected_le (D : Domain S A) (start : S)
    (hg : ∀ s a, ∃ m : ℕ, D.getGCost s a = m) (hh : ∀ s, ∃ m : ℕ, D.getHCost s = m)
    (hcons : ∀ s a, a ∈ D.actions → D.isLegalAction s a = true →
      D.getHCost s ≤ D.getGCost s a + D.getHCost (D.apply a s))
    (hbound : ∀ path, listed D path → legalPath D start path = true →
      (visits D start path).Nodup →
      pathCost D start path + D.getHCost (applyPath D start path) ≤ 16777216)
    (k : Nat) (hO : Optimal D start (calls D k (State.new start)))
    {sc : Scan S A} (hsel : selectN (calls D k (State.new start)).openList = some sc)
    (path : List A) (hl : listed D path) (hlegal : legalPath D start path = true)
    (hend : applyPath D start path ∉ closedKeys (calls D k (State.new start)).closedList) :
    sc.N.getTotalG + D.getHCost sc.N.state ≤
      pathCost D start path + D.getHCost (applyPath D start path) := by
  cases k with
  | zero =>
    simp only [calls] at hsel
    have h2 : selectN (State.new start : State S A).openList =
        some { N := PlanNode.root start none 0 0, nF := 0, index := 0 } := selectN_new start
    rw [h2] at hsel
    simp only [Option.some.injEq] at hsel
    rw [← hsel]
    have := consistent_along D hcons start path hl hlegal
    simpa [getTotalG_root, PlanNode.state] using this
  | succ k =>
    have hI := inv_calls D start (k + 1)
    obtain ⟨co, cc⟩ := created_calls D start (k + 1)
    obtain ⟨so, sc2⟩ := simple_calls D start (k + 1)
    have hstart := closedFind_mem (start_closed D start (k + 1) (by omega))
    obtain ⟨m, hm, hmb⟩ := frontier_bound hcons hO hI.closed_state cc
      (fun q hq => (created_exact D start hg hh hbound q.2 (cc q hq) (sc2 q hq).1).1) path start _ hstart
      hl hlegal hend
    have hNmem : sc.N ∈ (calls D (k + 1) (State.new start)).openList :=
      List.getElem?_mem (selectN_get hsel)
    have hmin := selectN_min hsel
      (fun n hn => (created_exact D start hg hh hbound n (co n hn) (so n hn).1).2.1) m hm
    have hprev := open_has_prev D start (k + 1) (by omega)
    rw [(created_exact D start hg hh hbound _ (co _ hNmem) (so _ hNmem).1).2.2 (hprev _ hNmem),
      (created_exact D start hg hh hbound _ (co _ hm) (so _ hm).1).2.2 (hprev _ hm)] at hmin
    have h0 : (PlanNode.root start (none : Option A) 0 0).getTotalG = 0 := rfl
    rw [h0] at hmb
    linarith

end OptimalLemmas

section OptimalRun
variable {S A : Type} [DecidableEq S]

theorem optimal_step {D : Domain S A} {start : S} {st : State S A} (hI : Inv D start st)
    (hO : Optimal D start st) {sc : Scan S A} (hsel : selectN st.openList = some sc)
    (hg : D.isEndState sc.N.state = false)
    (hex : ∀ n, Created D start n → n.states.Nodup → n.getTotalG = n.sumG)
    (hcN : Created D start sc.N) (hsN : sc.N.states.Nodup)
    (hsub : ∀ s ∈ sc.N.states, s = sc.N.state ∨ s ∈ closedKeys st.closedList)
    (hN : ∀ path, listed D path → legalPath D start path = true →
      applyPath D start path = sc.N.state → sc.N.getTotalG ≤ pathCost D start path) :
    Optimal D start (aStar D st).1 := by
  obtain ⟨l1, l2, h1, h2, _, hassign, _, _, _⟩ := select_facts hI hsel
  rw [aStar_expand D hsel hg, h2, hassign]
  constructor
  · intro q hq
    rcases List.mem_append.mp hq with h | h
    · exact hO.closed_opt q h
    · rw [List.mem_singleton.mp h]
      exact hN
  · intro q hq a ha hl
    simp only at hq ⊢
    rw [closedKeys_append]
    rcases List.mem_append.mp hq with h | h
    · rcases hO.succ_cost q h a ha hl with hc | ⟨m, hm, hms, hmg⟩
      · exact Or.inl (List.mem_append_left _ hc)
      · rw [h1] at hm
        have hcase : m = sc.N ∨ m ∈ l1 ++ l2 := by
          simp only [List.mem_append, List.mem_cons] at hm ⊢
          tauto
        rcases hcase with hmN | hmem
        · left
          rw [← hms, hmN]
          simp
        · obtain ⟨m2, k1, k2, k3⟩ := expand_decrease D sc.N
            (st.closedList ++ [(sc.N.state, sc.N)]) (getNextStates D sc.N.state) _ m hmem
          exact Or.inr ⟨m2, k1, k2.trans hms, le_trans k3 hmg⟩
    · rw [List.mem_singleton.mp h] at hl ⊢
      simp only at hl ⊢
      by_cases hcl : D.apply a sc.N.state ∈ closedKeys st.closedList ++ [sc.N.state]
      · exact Or.inl hcl
      have hcs : (candidate D sc.N (D.apply a sc.N.state, a)).states.Nodup := by
        show (D.apply a sc.N.state :: sc.N.states).Nodup
        refine List.nodup_cons.mpr ⟨fun hmem => hcl ?_, hsN⟩
        rcases hsub _ hmem with h | h
        · rw [h]; simp
        · exact List.mem_append_left _ h
      rcases expand_covers_cost D sc.N (st.closedList ++ [(sc.N.state, sc.N)])
          (getNextStates D sc.N.state) (l1 ++ l2) _ (getNextStates_mem ha hl) with
        hc | ⟨m, hm, hms, hmg⟩
      · rw [closedKeys_append] at hc
        exact Or.inl hc
      · refine Or.inr ⟨m, hm, hms, ?_⟩
        rw [hex _ (created_candidate hcN (getNextStates_mem ha hl)) hcs] at hmg
        rw [hex _ hcN hsN]
        have hsum : (candidate D sc.N (D.apply a sc.N.state, a)).sumG =
            D.getGCost sc.N.state a + sc.N.sumG := rfl
        rw [hsum] at hmg
        linarith

theorem optimal_calls (D : Domain S A) (start : S)
    (hg : ∀ s a, ∃ m : ℕ, D.getGCost s a = m) (hh : ∀ s, ∃ m : ℕ, D.getHCost s = m)
    (hcons : ∀ s a, a ∈ D.actions → D.isLegalAction s a = true →
      D.getHCost s ≤ D.getGCost s a + D.getHCost (D.apply a s))
    (hbound : ∀ path, listed D path → legalPath D start path = true →
      (visits D start path).Nodup →
      pathCost D start path + D.getHCost (applyPath D start path) ≤ 16777216)
    (k : Nat) (hno : ∀ j < k, found D (calls D j (State.new start)) = false) :
    Optimal D start (calls D k (State.new start)) := by
  induction k with
  | zero =>
    constructor
    · intro q hq; simp [calls, State.new] at hq
    · intro q hq; simp [calls, State.new] at hq
  | succ k ih =>
    have hO := ih fun j hj => hno j (Nat.lt_succ_of_lt hj)
    have hf := hno k (Nat.lt_succ_self k)
    have hI := inv_calls D start k
    simp only [calls]
    cases hsel : selectN (calls D k (State.new start)).openList with
    | none =>
      rw [aStar_nil D (selectN_eq_none hsel)]
      exact hO
    | some sc =>
      obtain ⟨_, _, _, _, hfresh, _⟩ := select_facts hI hsel
      have hNmem : sc.N ∈ (calls D k (State.new start)).openList :=
        List.getElem?_mem (selectN_get hsel)
      refine optimal_step hI hO hsel (found_false hf hsel)
        (fun n hn hs => (created_exact D start hg hh hbound n hn hs).1)
        ((created_calls D start k).1 sc.N hNmem) ((simple_calls D start k).1 sc.N hNmem).1
        ((simple_calls D start k).1 sc.N hNmem).2 ?_
      intro path hl hlegal hend
      have := selected_le D start hg hh hcons hbound k hO hsel path hl hlegal
        (by rw [hend]; exact hfresh)
      rw [hend] at this
      linarith

end OptimalRun

section ExampleLemmas3

theorem getTotalGLoop_eq_foldl {S A : Type} (res : Cost) (n : PlanNode S A) :
    PlanNode.getTotalGLoop res n = n.chainG.foldl fadd res := by
  induction n generalizing res with
  | root s a g h => rfl
  | node s a g h p ih =>
    simp only [PlanNode.getTotalGLoop, PlanNode.chainG, List.foldl_cons]
    exact ih _

theorem getTotalG_eq_foldl {S A : Type} (n : PlanNode S A) :
    n.getTotalG = n.chainG.foldl fadd 0 :=
  getTotalGLoop_eq_foldl 0 n

/-- The sum `getTotalG() + H` of `getF` is exact for integer values within `2^24`. -/
theorem getF_exact {S A : Type} (n : PlanNode S A) (hn : NatG n) (hH : ∃ m : ℕ, n.H = m)
    (hb : n.sumG + n.H ≤ 16777216) : n.getF = n.getTotalG + n.H := by
  obtain ⟨ms, hms⟩ := sumG_nat n hn
  obtain ⟨mh, hmh⟩ := hH
  rw [hms, hmh] at hb
  have hb2 : ms + mh ≤ 16777216 := by exact_mod_cast hb
  have ht : n.getTotalG = n.sumG :=
    getTotalG_exact n hn (by rw [hms]; exact_mod_cast (by omega : ms ≤ 16777216))
  show fadd n.getTotalG n.H = n.getTotalG + n.H
  rw [ht, hms, hmh, fadd_natCast ms mh hb2]
  push_cast
  rfl

theorem stepDomain_cost_nat (goal : Nat) (s a : Nat) :
    ∃ m : ℕ, (stepDomain goal).getGCost s a = m := by
  simp only [stepDomain]
  split_ifs
  · exact ⟨1, by norm_num⟩
  · exact ⟨5, by norm_num⟩

theorem roundingDomain_cost_nat (s a : Nat) : ∃ m : ℕ, roundingDomain.getGCost s a = m := by
  simp only [roundingDomain]
  split_ifs
  · exact ⟨2, by norm_num⟩
  · exact ⟨3, by norm_num⟩
  · exact ⟨16777215, by norm_num⟩
  · exact ⟨16777213, by norm_num⟩

theorem ringDomain_visits (s : Nat) (hs : s < 3) (path : List Unit) :
    (visits ringDomain s path).length = path.length + 1 ∧
      (∀ t ∈ visits ringDomain s path, t < 3) ∧
      pathCost ringDomain s path = path.length := by
  induction path generalizing s with
  | nil => simp [visits, pathCost, hs]
  | cons a rest ih =>
    have hlt : (s + 1) % 3 < 3 := Nat.mod_lt _ (by omega)
    obtain ⟨h1, h2, h3⟩ := ih ((s + 1) % 3) hlt
    have happ : ringDomain.apply a s = (s + 1) % 3 := rfl
    have hg : ringDomain.getGCost s a = 1 := rfl
    simp only [visits, pathCost, happ, hg, List.length_cons, h1, h3]
    refine ⟨trivial, ?_, ?_⟩
    · intro t ht
      rcases List.mem_cons.mp ht with h | h
      · rw [h]; exact hs
      · exact h2 t h
    · push_cast
      ring

/-- On `ringDomain` a sequence of actions that passes no state twice has at most two
actions. -/
theorem ringDomain_bound (path : List Unit) (_ : listed ringDomain path)
    (_ : legalPath ringDomain 0 path = true) (hn : (visits ringDomain 0 path).Nodup) :
    pathCost ringDomain 0 path + ringDomain.getHCost (applyPath ringDomain 0 path) ≤
      16777216 := by
  obtain ⟨h1, h2, h3⟩ := ringDomain_visits 0 (by omega) path
  have hsub : (visits ringDomain 0 path).toFinset ⊆ Finset.range 3 := by
    intro t ht
    exact Finset.mem_range.mpr (h2 t (List.mem_toFinset.mp ht))
  have hcard := Finset.card_le_card hsub
  rw [List.toFinset_card_of_nodup hn, h1, Finset.card_range] at hcard
  have h0 : ringDomain.getHCost (applyPath ringDomain 0 path) = 0 := rfl
  rw [h0, h3]
  have : (path.length : Cost) ≤ 2 := by exact_mod_cast (by omega : path.length ≤ 2)
  linarith

end ExampleLemmas3

section Claims

variable {S A : Type} [DecidableEq S]

/-- C1 (path validity): if the call number `k + 1` on a fresh `State(start)` is the first
one to settle a node whose state satisfies `isEndState`, then applying the actions of
`state.path` in order to `start` ends in a state satisfying `isEndState`, and every action
of the path is legal in the state it is applied to. -/
theorem C1_path_validity (D : Domain S A) (start : S) (k : Nat)
    (hfirst : ∀ j < k, found D (calls D j (State.new start)) = false)
    (hfound : found D (calls D k (State.new start)) = true) :
    D.isEndState (applyPath D start (calls D (k + 1) (State.new start)).path) = true ∧
      legalPath D start (calls D (k + 1) (State.new start)).path = true := by
  obtain ⟨sc, hsel, hg⟩ := found_true hfound
  have hI := inv_calls D start k
  have hS := searching_calls D start k hfirst
  obtain ⟨_, _, _, _, _, _, _, _, hchain⟩ := select_facts hI hsel
  have hpath : (calls D (k + 1) (State.new start)).path = buildPath sc.N [] := by
    simp only [calls]
    rw [aStar_goal D hsel hg, hS.path_nil]
  rw [hpath]
  obtain ⟨e1, e2⟩ := buildPath_chain sc.N hchain []
  rw [e1, e2]
  exact ⟨hg, rfl⟩

/-- Witness of C1 on `stepDomain 2`: the third call is the first to settle a goal node. -/
theorem C1_path_validity_witness :
    (∀ j < 2, found (stepDomain 2) (calls (stepDomain 2) j (State.new 0)) = false) ∧
      found (stepDomain 2) (calls (stepDomain 2) 2 (State.new 0)) = true ∧
      (stepDomain 2).isEndState
        (applyPath (stepDomain 2) 0 (calls (stepDomain 2) 3 (State.new 0)).path) = true ∧
      legalPath (stepDomain 2) 0 (calls (stepDomain 2) 3 (State.new 0)).path = true :=
  ⟨by decide!, by decide!, C1_path_validity (stepDomain 2) 0 2 (by decide!) (by decide!)⟩

/-- C2 (optimality with zero heuristic), evaluated on `fractionDomain`, where the
heuristic is zero and the costs are the non-negative fractions 3/4 and 1/4: the second
call is the first to settle a goal node and leaves the path `[true]` of summed cost 3/4,
although the legal sequence `[false, true]` reaches a goal state at summed cost 1/2. -/
theorem C2_fraction_costs_not_optimal :
    (∀ s, fractionDomain.getHCost s = 0) ∧
      (∀ s a, 0 ≤ fractionDomain.getGCost s a) ∧
      found fractionDomain (calls fractionDomain 0 (State.new 0)) = false ∧
      found fractionDomain (calls fractionDomain 1 (State.new 0)) = true ∧
      (calls fractionDomain 2 (State.new 0)).path = [true] ∧
      pathCost fractionDomain 0 (calls fractionDomain 2 (State.new 0)).path = 3 / 4 ∧
      legalPath fractionDomain 0 [false, true] = true ∧
      fractionDomain.isEndState (applyPath fractionDomain 0 [false, true]) = true ∧
      pathCost fractionDomain 0 [false, true] = 1 / 2 ∧
      pathCost fractionDomain 0 [false, true] <
        pathCost fractionDomain 0 (calls fractionDomain 2 (State.new 0)).path := by
  refine ⟨fun _ => rfl, ?_, by decide!, by decide!, by decide!, by decide!, by decide!,
    by decide!, by decide!, by decide!⟩
  intro s a
  simp only [fractionDomain]
  split_ifs <;> norm_num

/-- C3 (minimum selection), evaluated on the open list that the first call on
`fractionDomain` leaves: the next call settles the node at index 0, whose `getF()` is 3/4,
although the node at index 1 has `getF()` equal to 1/4. -/
theorem C3_selection_not_minimum :
    (calls fractionDomain 1 (State.new 0)).openList =
        [PlanNode.node 2 (some true) (3 / 4) 0 (PlanNode.root 0 none 0 0),
         PlanNode.node 1 (some false) (1 / 4) 0 (PlanNode.root 0 none 0 0)] ∧
      (selectN (calls fractionDomain 1 (State.new 0)).openList).map Scan.index = some 0 ∧
      settled (calls fractionDomain 1 (State.new 0)) =
        some (PlanNode.node 2 (some true) (3 / 4) 0 (PlanNode.root 0 none 0 0)) ∧
      (PlanNode.node 2 (some true) (3 / 4) 0 (PlanNode.root (0 : Nat) none 0 0)).getF = 3 / 4 ∧
      (PlanNode.node 1 (some false) (1 / 4) 0 (PlanNode.root (0 : Nat) none 0 0)).getF = 1 / 4 := by
  decide!

/-- C4 (termination): if the set of the states reachable from `start` by sequences of
legal actions is the finite set `R`, then one of the first `R.card` calls of `aStar` on a
fresh `State(start)` returns `true`. -/
theorem C4_termination (D : Domain S A) (start : S) (R : Finset S)
    (hR : ∀ s, s ∈ R ↔ Reachable D start s) :
    ∃ k, k < R.card ∧ (aStar D (calls D k (State.new start))).2 = true := by
  by_contra hcon
  have hall : ∀ k < R.card, (aStar D (calls D k (State.new start))).2 = false := by
    intro k hk
    cases hb : (aStar D (calls D k (State.new start))).2 with
    | false => rfl
    | true => exact absurd ⟨k, hk, hb⟩ hcon
  have hlen := closed_length_calls D start R.card hall
  have hcard := known_card (inv_calls D start R.card) R (fun s hs => (hR s).mpr hs)
  have hpos : 0 < R.card := Finset.card_pos.mpr ⟨start, (hR start).mpr Reachable.refl⟩
  obtain ⟨n, hn⟩ : ∃ n, R.card = n + 1 := ⟨R.card - 1, by omega⟩
  have hlast := (aStar_false (hall n (by omega))).2
  rw [hn] at hlen hcard
  simp only [calls] at hlen hcard
  have : (aStar D (calls D n (State.new start))).1.openList.length = 0 := by omega
  exact hlast (List.length_eq_zero.mp this)

/-- Witness of C4 on `stepDomain 2`, whose reachable states are `0`, `1` and `2`. -/
theorem C4_termination_witness :
    ∃ k, k < (Finset.range 3).card ∧
      (aStar (stepDomain 2) (calls (stepDomain 2) k (State.new 0))).2 = true :=
  C4_termination (stepDomain 2) 0 (Finset.range 3) (stepDomain_reachable 2)

/-- C5 (exhausted means no route exists): if no call up to and including call `k + 1` on
a fresh `State(start)` settles a node satisfying `isEndState`, and the open list is empty
when call `k + 1` ends, then that call returns `true`, no state satisfying `isEndState`
is reachable from `start` by a sequence of legal actions, and `state.path` is empty. -/
theorem C5_exhausted_no_route (D : Domain S A) (start : S) (k : Nat)
    (hno : ∀ j ≤ k, found D (calls D j (State.new start)) = false)
    (hempty : (calls D (k + 1) (State.new start)).openList = []) :
    (aStar D (calls D k (State.new start))).2 = true ∧
      (∀ s, Reachable D start s → D.isEndState s = false) ∧
      (calls D (k + 1) (State.new start)).path = [] := by
  have hS : Searching D start (calls D (k + 1) (State.new start)) :=
    searching_calls D start (k + 1) fun j hj => hno j (Nat.lt_succ_iff.mp hj)
  refine ⟨?_, ?_, hS.path_nil⟩
  · rw [aStar_flag_of_not_found (hno k (Nat.le_refl k))]
    simp only [calls] at hempty
    simp [hempty]
  · intro s hr
    exact hS.closed_not_goal s (reachable_of_closed hS hempty hr)

/-- Witness of C5 on `stepDomain 7`, whose goal state `7` cannot be reached. -/
theorem C5_exhausted_no_route_witness :
    (∀ j ≤ 2, found (stepDomain 7) (calls (stepDomain 7) j (State.new 0)) = false) ∧
      (calls (stepDomain 7) 3 (State.new 0)).openList = [] ∧
      (aStar (stepDomain 7) (calls (stepDomain 7) 2 (State.new 0))).2 = true ∧
      (∀ s, Reachable (stepDomain 7) 0 s → (stepDomain 7).isEndState s = false) ∧
      (calls (stepDomain 7) 3 (State.new 0)).path = [] :=
  ⟨by decide!, by decide!, C5_exhausted_no_route (stepDomain 7) 0 2 (by decide!) (by decide!)⟩

/-- C6 (frontier replacement): let the expansion of `N` reach the pair `(s, a)`, with `s`
not a key of the closed list and `e` the open-list entry that `std::find_if` returns for
`s`, at index `i`, in an open list whose nodes have pairwise distinct states.  If the
candidate (predecessor `N`) has `getTotalG()` strictly less than `e`, the open list
afterwards is the old one with the candidate in slot `i`; otherwise it is unchanged.  In
both cases exactly one node of the open list afterwards has state `s`, and its
`getTotalG()` is the smaller of the two totals. -/
theorem C6_frontier_replacement (D : Domain S A) (N : PlanNode S A)
    (cl : List (S × PlanNode S A)) (ol : List (PlanNode S A)) (s : S) (a : A) (i : Nat)
    (e : PlanNode S A) (hclosed : closedFind cl s = none)
    (hopen : findIf s ol = some (i, e))
    (hdistinct : ol.Pairwise (fun m n => m.state ≠ n.state)) :
    ol[i]? = some e ∧ e.state = s ∧
      ((candidate D N (s, a)).getTotalG < e.getTotalG →
        expandOne D N cl ol (s, a) = ol.set i (candidate D N (s, a))) ∧
      (¬ (candidate D N (s, a)).getTotalG < e.getTotalG →
        expandOne D N cl ol (s, a) = ol) ∧
      ∃ m, (expandOne D N cl ol (s, a)).filter (fun n => decide (n.state = s)) = [m] ∧
        m.getTotalG = min (candidate D N (s, a)).getTotalG e.getTotalG := by
  obtain ⟨hget, hst⟩ := findIf_some hopen
  have hkey : (s, a).1 ∉ closedKeys cl := (closedFind_eq_none_iff cl s).mp hclosed
  have hexp := expandOne_found D N hkey hopen
  obtain ⟨l1, l2, h1, h2⟩ := getElem?_set_split hget (candidate D N (s, a))
  refine ⟨hget, hst, ?_, ?_, ?_⟩
  · intro hlt
    rw [hexp, if_pos hlt]
  · intro hlt
    rw [hexp, if_neg hlt]
  · rw [hexp]
    subst hst
    by_cases hlt : (candidate D N (e.state, a)).getTotalG < e.getTotalG
    · refine ⟨candidate D N (e.state, a), ?_, (min_eq_left (le_of_lt hlt)).symm⟩
      rw [if_pos hlt, h2]
      rw [h1] at hdistinct
      exact filter_state_middle hdistinct _ (candidate_state D N _)
    · refine ⟨e, ?_, (min_eq_right (not_lt.mp hlt)).symm⟩
      rw [if_neg hlt]
      rw [h1] at hdistinct
      rw [h1]
      exact filter_state_middle hdistinct _ rfl

/-- Witness of C6 on `stepDomain 2`: the expansion of the node of state `1` reaches the
state `2` at total cost 2, while the open list holds a node of state `2` of total cost 5. -/
theorem C6_frontier_replacement_witness :
    closedFind [(0, PlanNode.root 0 none 0 0),
        (1, PlanNode.node 1 (some 1) 1 0 (PlanNode.root 0 none 0 0))] 2 = none ∧
      findIf 2 [PlanNode.node 2 (some 2) 5 0 (PlanNode.root 0 (none : Option Nat) 0 0)] =
        some (0, PlanNode.node 2 (some 2) 5 0 (PlanNode.root 0 none 0 0)) ∧
      expandOne (stepDomain 2) (PlanNode.node 1 (some 1) 1 0 (PlanNode.root 0 none 0 0))
          [(0, PlanNode.root 0 none 0 0),
            (1, PlanNode.node 1 (some 1) 1 0 (PlanNode.root 0 none 0 0))]
          [PlanNode.node 2 (some 2) 5 0 (PlanNode.root 0 none 0 0)] (2, 1) =
        [PlanNode.node 2 (some 1) 1 0
          (PlanNode.node 1 (some 1) 1 0 (PlanNode.root 0 none 0 0))] :=
  ⟨by decide!, by decide!,
    ((C6_frontier_replacement (stepDomain 2)
      (PlanNode.node 1 (some 1) 1 0 (PlanNode.root 0 none 0 0))
      [(0, PlanNode.root 0 none 0 0),
        (1, PlanNode.node 1 (some 1) 1 0 (PlanNode.root 0 none 0 0))]
      [PlanNode.node 2 (some 2) 5 0 (PlanNode.root 0 none 0 0)] 2 1 0
      (PlanNode.node 2 (some 2) 5 0 (PlanNode.root 0 none 0 0))
      (by decide!) (by decide!) (by decide!)).2.2.1 (by decide!)).trans (by decide!)⟩

/-- C7 (one node per state): in the search state after any number `k` of calls on a fresh
`State(start)`, the open-list nodes have pairwise distinct states and none of their states
is a key of the closed list; so the node `N` settled by the next call has no closed-list
entry, and `closedList[N->state] = N` adds an entry without overwriting one. -/
theorem C7_one_node_per_state (D : Domain S A) (start : S) (k : Nat) :
    (calls D k (State.new start)).openList.Pairwise (fun m n => m.state ≠ n.state) ∧
      (∀ n ∈ (calls D k (State.new start)).openList,
        closedFind (calls D k (State.new start)).closedList n.state = none) ∧
      ∀ N, settled (calls D k (State.new start)) = some N →
        closedFind (calls D k (State.new start)).closedList N.state = none ∧
        closedAssign (calls D k (State.new start)).closedList N.state N =
          (calls D k (State.new start)).closedList ++ [(N.state, N)] := by
  have hI := inv_calls D start k
  refine ⟨?_, ?_, ?_⟩
  · have := hI.open_nodup
    unfold openStates List.Nodup at this
    exact (List.pairwise_map.mp this)
  · intro n hn
    exact (closedFind_eq_none_iff _ _).mpr (hI.disjoint _ (List.mem_map_of_mem _ hn))
  · intro N hN
    unfold settled at hN
    obtain ⟨sc, hsel, rfl⟩ := Option.map_eq_some'.mp hN
    obtain ⟨_, _, _, _, hfresh, hassign, _⟩ := select_facts hI hsel
    exact ⟨(closedFind_eq_none_iff _ _).mpr hfresh, hassign⟩

/-- C8 (settled states are final): once the closed list holds the node `n` for the state
`s` (after `k` calls on a fresh `State(start)`), after every later number `m` of calls the
closed-list entry of `s` is still `n` and no open-list node has the state `s`. -/
theorem C8_settled_final (D : Domain S A) (start : S) (k m : Nat) (hkm : k ≤ m) (s : S)
    (n : PlanNode S A)
    (h : closedFind (calls D k (State.new start)).closedList s = some n) :
    closedFind (calls D m (State.new start)).closedList s = some n ∧
      ∀ x ∈ (calls D m (State.new start)).openList, x.state ≠ s := by
  have h2 := closedFind_calls D start hkm h
  refine ⟨h2, ?_⟩
  intro x hx hxs
  have hkey : s ∈ closedKeys (calls D m (State.new start)).closedList :=
    List.mem_map_of_mem Prod.fst (closedFind_mem h2)
  exact (inv_calls D start m).disjoint _ (List.mem_map_of_mem _ hx) (hxs ▸ hkey)

/-- Witness of C8 on `stepDomain 2`: the start node, settled by the first call, is still
the closed-list entry of the state `0` after three calls. -/
theorem C8_settled_final_witness :
    closedFind (calls (stepDomain 2) 1 (State.new 0)).closedList 0 =
        some (PlanNode.root 0 none 0 0) ∧
      closedFind (calls (stepDomain 2) 3 (State.new 0)).closedList 0 =
        some (PlanNode.root 0 none 0 0) ∧
      ∀ x ∈ (calls (stepDomain 2) 3 (State.new 0)).openList, x.state ≠ 0 :=
  ⟨by decide!, C8_settled_final (stepDomain 2) 0 1 3 (by decide) 0 (PlanNode.root 0 none 0 0)
    (by decide!)⟩

/-- C9 (trivial case): if `start` satisfies `isEndState`, the first call on a fresh
`State(start)` settles the start node, a goal node: it returns `true`, the start node is
removed from the open list and is the one entry of the closed list, and `state.path` is
empty. -/
theorem C9_trivial_case (D : Domain S A) (start : S) (h : D.isEndState start = true) :
    found D (State.new start) = true ∧
      settled (State.new start : State S A) = some (PlanNode.root start none 0 0) ∧
      (aStar D (State.new start)).2 = true ∧
      (aStar D (State.new start)).1.path = [] ∧
      (aStar D (State.new start)).1.openList = [] ∧
      (aStar D (State.new start)).1.closedList = [(start, PlanNode.root start none 0 0)] ∧
      (aStar D (State.new start)).1.start = start := by
  simp [found, settled, aStar, State.new, selectN_new, PlanNode.state, h, buildPath,
    closedAssign]

/-- Witness of C9 on `stepDomain 0`, whose goal is the start state `0`. -/
theorem C9_trivial_case_witness :
    (stepDomain 0).isEndState 0 = true ∧
      found (stepDomain 0) (State.new 0) = true ∧
      settled (State.new 0 : State Nat Nat) = some (PlanNode.root 0 none 0 0) ∧
      (aStar (stepDomain 0) (State.new 0)).2 = true ∧
      (aStar (stepDomain 0) (State.new 0)).1.path = [] ∧
      (aStar (stepDomain 0) (State.new 0)).1.openList = [] ∧
      (aStar (stepDomain 0) (State.new 0)).1.closedList = [(0, PlanNode.root 0 none 0 0)] ∧
      (aStar (stepDomain 0) (State.new 0)).1.start = 0 :=
  ⟨by decide, C9_trivial_case (stepDomain 0) 0 (by decide)⟩

/-- C10 (no-path case): if `start` does not satisfy `isEndState` and `isLegalAction`
rejects every action of the actions list in `start`, the first call on a fresh
`State(start)` returns `true` without settling a goal node, and leaves the open list and
`state.path` empty. -/
theorem C10_no_path_case (D : Domain S A) (start : S) (hgoal : D.isEndState start = false)
    (hillegal : ∀ a ∈ D.actions, D.isLegalAction start a = false) :
    (aStar D (State.new start)).2 = true ∧ found D (State.new start) = false ∧
      (aStar D (State.new start)).1.openList = [] ∧
      (aStar D (State.new start)).1.path = [] := by
  simp [found, settled, aStar, State.new, selectN_new, PlanNode.state, hgoal,
    getNextStates_nil_of_illegal D start hillegal]

/-- Witness of C10 on `stepDomain 0` started in the state `2`, where no action is legal. -/
theorem C10_no_path_case_witness :
    (stepDomain 0).isEndState 2 = false ∧
      (∀ a ∈ (stepDomain 0).actions, (stepDomain 0).isLegalAction 2 a = false) ∧
      (aStar (stepDomain 0) (State.new 2)).2 = true ∧
      found (stepDomain 0) (State.new 2) = false ∧
      (aStar (stepDomain 0) (State.new 2)).1.openList = [] ∧
      (aStar (stepDomain 0) (State.new 2)).1.path = [] :=
  ⟨by decide, by decide, C10_no_path_case (stepDomain 0) 2 (by decide) (by decide)⟩

/-- C11 (total cost), as the code computes it: `getTotalG()` is the `float` sum of the
values `G` accumulated from the node back to the start, the node without predecessor left
out, so it is 0 for the start node, and `getF()` is the `float` sum `getTotalG() + H`.  If
every `G` on the chain is a non-negative integer and their sum is at most `2^24`,
`getTotalG()` is that sum, and if `H` is a non-negative integer too and the sum with `H`
is at most `2^24`, `getF()` is `getTotalG()` plus `H`.  When `getGCost` takes
non-negative integer values, `getTotalG()` of every node of the open or the closed list
after any number of calls on a fresh `State(start)`, if the sum of `G` over its chain is
at most `2^24`, is the sum of `G` over the node and all its ancestors and the summed
`getGCost` of the node's route from `start`. -/
theorem C11_total_cost (D : Domain S A) (start : S) (k : Nat)
    (hg : ∀ s a, ∃ m : ℕ, D.getGCost s a = m) :
    (∀ n : PlanNode S A, n.getTotalG = n.chainG.foldl fadd 0 ∧
        n.getF = fadd n.getTotalG n.H) ∧
      (∀ n : PlanNode S A, NatG n → n.sumG ≤ 16777216 → n.getTotalG = n.sumG) ∧
      (∀ n : PlanNode S A, NatG n → (∃ m : ℕ, n.H = m) → n.sumG + n.H ≤ 16777216 →
        n.getF = n.getTotalG + n.H) ∧
      (PlanNode.root start (none : Option A) 0 0).getTotalG = 0 ∧
      (∀ n ∈ (calls D k (State.new start)).openList, n.sumG ≤ 16777216 →
        n.getTotalG = n.sumGAll ∧ n.getTotalG = pathCost D start n.route) ∧
      ∀ q ∈ (calls D k (State.new start)).closedList, q.2.sumG ≤ 16777216 →
        q.2.getTotalG = q.2.sumGAll ∧ q.2.getTotalG = pathCost D start q.2.route := by
  obtain ⟨ho, hc⟩ := created_calls D start k
  have key : ∀ n : PlanNode S A, Created D start n → n.sumG ≤ 16777216 →
      n.getTotalG = n.sumGAll ∧ n.getTotalG = pathCost D start n.route := by
    intro n hn hb
    obtain ⟨_, _, _, h4, h5⟩ := created_route n hn
    have := getTotalG_exact n (created_natG hg n hn) hb
    exact ⟨by rw [this, h5], by rw [this, h4]⟩
  refine ⟨fun n => ⟨getTotalG_eq_foldl n, rfl⟩, getTotalG_exact, getF_exact, rfl, ?_, ?_⟩
  · intro n hn hb
    exact key n (ho n hn) hb
  · intro q hq hb
    exact key q.2 (hc q hq) hb

/-- Witness of C11 on `stepDomain 2`, whose costs are 1 and 5. -/
theorem C11_total_cost_witness :
    (∀ s a, ∃ m : ℕ, (stepDomain 2).getGCost s a = m) ∧
      ∀ n ∈ (calls (stepDomain 2) 2 (State.new 0)).openList, n.sumG ≤ 16777216 →
        n.getTotalG = n.sumGAll ∧ n.getTotalG = pathCost (stepDomain 2) 0 n.route :=
  ⟨stepDomain_cost_nat 2,
    (C11_total_cost (stepDomain 2) 0 2 (stepDomain_cost_nat 2)).2.2.2.2.1⟩

/-- C11 as stated fails on `roundingDomain`: the second call on a fresh `State(0)` creates
the node of the state `10` with `G = 16777215` on the predecessor with `G = 2`; its
`getTotalG()` is 16777216, while the sum of `G` over the node and its ancestors, with or
without the start node, and the summed `getGCost` of its route are 16777217. -/
theorem C11_total_cost_rounds :
    PlanNode.node 10 (some 10) 16777215 0
        (PlanNode.node 1 (some 1) 2 0 (PlanNode.root 0 none 0 0)) ∈
        (calls roundingDomain 2 (State.new 0)).openList ∧
      (PlanNode.node 10 (some 10) 16777215 0
        (PlanNode.node 1 (some 1) 2 0 (PlanNode.root (0 : Nat) (none : Option Nat) 0 0))).getTotalG
          = 16777216 ∧
      (PlanNode.node 10 (some 10) 16777215 0
        (PlanNode.node 1 (some 1) 2 0 (PlanNode.root (0 : Nat) (none : Option Nat) 0 0))).sumG
          = 16777217 ∧
      (PlanNode.node 10 (some 10) 16777215 0
        (PlanNode.node 1 (some 1) 2 0 (PlanNode.root (0 : Nat) (none : Option Nat) 0 0))).sumGAll
          = 16777217 ∧
      pathCost roundingDomain 0 (PlanNode.node 10 (some 10) 16777215 0
        (PlanNode.node 1 (some 1) 2 0 (PlanNode.root (0 : Nat) (none : Option Nat) 0 0))).route
          = 16777217 := by
  decide!

/-- C12 (resource-planning scenario): with enough fuel for its drive loop, the call of
`plan` made by `main` (start `[2000, 0, 0, 5]`, actions `[work, eat, buyFood]`, the guard
against negative elements, cost = time spent + energy spent, zero heuristic, goal
`MONEY ≥ 2000`) returns an action sequence that is not empty, makes no element of the state
negative at any step when applied from the start state, and ends in a state with
`MONEY ≥ 2000`. -/
theorem C12_planning_scenario :
    ∃ fuel path, (∀ n, fuel ≤ n → Goap.result n = some path) ∧ path ≠ [] ∧
      Along Goap.domain (fun _ s => ∀ x ∈ s, 0 ≤ x) Goap.startState path ∧
      Goap.get (applyPath Goap.domain Goap.startState path) Goap.MONEY ≥ 2000 := by
  obtain ⟨R, hR⟩ := Goap.planning_reachable_finite
  obtain ⟨k, N, _, hdrive, _, _, hg, hcr, hpath⟩ :=
    search_finds Goap.domain Goap.startState R hR Goap.samplePlan
      Goap.samplePlan_listed (by decide) (by decide)
  obtain ⟨r1, r2, r3, _, _⟩ := created_route N hcr
  refine ⟨k + 1, N.route, ?_, ?_, ?_, ?_⟩
  · intro n hn
    have := hdrive n (by omega)
    simp only [Goap.result, Goap.plan]
    have hd : drive Goap.domain n (State.new Goap.startState) =
        some (calls Goap.domain (k + 1) (State.new Goap.startState)) := this
    unfold Goap.domain at hd
    rw [hd]
    simp only [Option.map_some']
    exact congrArg some hpath
  · intro hnil
    rw [hnil] at r3
    rw [← r3] at hg
    revert hg
    decide
  · exact along_of_legal Goap.domain _
      (fun s a _ hl => Goap.guard_nonneg hl) _ _ r1 r2
  · rw [r3]
    have : Goap.get N.state Goap.MONEY ≥ Goap.get Goap.goalState Goap.MONEY := by
      simpa [Goap.domain, Goap.isEndState] using hg
    simpa [Goap.goalState, Goap.get, Goap.MONEY] using this

/-- C13 (grid scenario): for every heuristic, with enough fuel for its drive loop, the call
`findPath(level, start, end)` of `main` (the 13 × 9 level, start (1,1), end (11,7), the
four unit moves, unit cost) returns an action sequence that is not empty, whose every step
changes exactly one coordinate by +1 or -1 and reaches a cell inside the grid that holds 0,
and that ends in the cell (11,7). -/
theorem C13_grid_scenario (getHCost : Grid.Position → Cost) :
    ∃ fuel path,
      (∀ n, fuel ≤ n →
        Grid.findPath n Grid.level Grid.start Grid.endPos getHCost = some path) ∧
      path ≠ [] ∧
      Along (Grid.domain Grid.level Grid.endPos getHCost)
        (fun p q => Grid.unitStep p q ∧ Grid.freeCell q) Grid.start path ∧
      applyPath (Grid.domain Grid.level Grid.endPos getHCost) Grid.start path = (11, 7) := by
  obtain ⟨R, hR⟩ := Grid.grid_reachable_finite getHCost
  obtain ⟨k, N, _, hdrive, _, _, hg, hcr, hpath⟩ :=
    search_finds (Grid.domain Grid.level Grid.endPos getHCost) Grid.start R hR
      Grid.sampleWalk (Grid.sampleWalk_listed getHCost) (Grid.sampleWalk_legal getHCost)
      (Grid.sampleWalk_goal getHCost)
  obtain ⟨r1, r2, r3, _, _⟩ := created_route N hcr
  have hend : N.state = (11, 7) := by
    simpa [Grid.domain, Grid.endPos] using hg
  refine ⟨k + 1, N.route, ?_, ?_, ?_, ?_⟩
  · intro n hn
    simp only [Grid.findPath]
    rw [hdrive n (by omega)]
    simp only [Option.map_some']
    exact congrArg some hpath
  · intro hnil
    rw [hnil] at r3
    rw [← r3] at hend
    have h2 : Grid.start = (11, 7) := hend
    revert h2
    decide
  · exact along_of_legal _ _ (fun s a ha hl => Grid.step_ok getHCost s a ha hl) _ _ r1 r2
  · rw [r3]; exact hend

/-- C15 (path reconstruction): when call `k + 1` on a fresh `State(start)` settles a node
`N` satisfying `isEndState` and `state.path` was empty before the call, `state.path`
afterwards is the sequence of the `action` fields of the nodes of the chain of `N`, the
start node left out, in the order from the start to `N`; its length is the number of these
nodes. -/
theorem C15_path_reconstruction (D : Domain S A) (start : S) (k : Nat)
    (hpath : (calls D k (State.new start)).path = [])
    (hfound : found D (calls D k (State.new start)) = true) :
    ∃ N, settled (calls D k (State.new start)) = some N ∧ D.isEndState N.state = true ∧
      (calls D (k + 1) (State.new start)).path.map some = N.chain.map PlanNode.action ∧
      (calls D (k + 1) (State.new start)).path.length = N.chain.length := by
  obtain ⟨sc, hsel, hg⟩ := found_true hfound
  obtain ⟨_, _, _, _, _, _, _, _, hchain⟩ := select_facts (inv_calls D start k) hsel
  have hp : (calls D (k + 1) (State.new start)).path = buildPath sc.N [] := by
    simp only [calls]
    rw [aStar_goal D hsel hg, hpath]
  have hmap := buildPath_chain_actions sc.N hchain []
  simp only [List.map_nil, List.append_nil] at hmap
  refine ⟨sc.N, by simp [settled, hsel], hg, by rw [hp, hmap], ?_⟩
  have := congrArg List.length hmap
  simpa [hp] using this

/-- Witness of C15 on `stepDomain 2`: the third call settles the goal node. -/
theorem C15_path_reconstruction_witness :
    (calls (stepDomain 2) 2 (State.new 0)).path = [] ∧
      found (stepDomain 2) (calls (stepDomain 2) 2 (State.new 0)) = true ∧
      ∃ N, settled (calls (stepDomain 2) 2 (State.new 0)) = some N ∧
        (stepDomain 2).isEndState N.state = true ∧
        (calls (stepDomain 2) 3 (State.new 0)).path.map some = N.chain.map PlanNode.action ∧
        (calls (stepDomain 2) 3 (State.new 0)).path.length = N.chain.length :=
  ⟨by decide!, by decide!, C15_path_reconstruction (stepDomain 2) 0 2 (by decide!) (by decide!)⟩

/-- C16 (one settlement per step): a call made after any number of calls on a fresh
`State(start)`, on a non-empty open list, takes one node `N` out of the open list (the
rest of the list is then expanded unless `N` satisfies `isEndState`), adds the one new key
`N->state` with the node `N` to the closed list, leaves the closed-list entry of every
other state and `state.start` unchanged, and changes `state.path` only if `N` satisfies
`isEndState`. -/
theorem C16_one_settlement (D : Domain S A) (start : S) (k : Nat)
    (hne : (calls D k (State.new start)).openList ≠ []) :
    ∃ N l1 l2, settled (calls D k (State.new start)) = some N ∧
      (calls D k (State.new start)).openList = l1 ++ N :: l2 ∧
      (calls D (k + 1) (State.new start)).openList =
        (if D.isEndState N.state = true then l1 ++ l2
          else (getNextStates D N.state).foldl
            (expandOne D N (calls D (k + 1) (State.new start)).closedList) (l1 ++ l2)) ∧
      N.state ∉ openStates (calls D (k + 1) (State.new start)).openList ∧
      N.state ∉ closedKeys (calls D k (State.new start)).closedList ∧
      (calls D (k + 1) (State.new start)).closedList =
        (calls D k (State.new start)).closedList ++ [(N.state, N)] ∧
      (calls D (k + 1) (State.new start)).closedList.length =
        (calls D k (State.new start)).closedList.length + 1 ∧
      (∀ s, s ≠ N.state → closedFind (calls D (k + 1) (State.new start)).closedList s =
        closedFind (calls D k (State.new start)).closedList s) ∧
      (calls D (k + 1) (State.new start)).start = (calls D k (State.new start)).start ∧
      (D.isEndState N.state = false →
        (calls D (k + 1) (State.new start)).path = (calls D k (State.new start)).path) := by
  obtain ⟨sc, hsel⟩ := selectN_isSome hne
  have hI := inv_calls D start k
  have hI' := inv_calls D start (k + 1)
  obtain ⟨l1, l2, h1, h2, hfresh, hassign, _, _, _⟩ := select_facts hI hsel
  have hcl : (calls D (k + 1) (State.new start)).closedList =
      (calls D k (State.new start)).closedList ++ [(sc.N.state, sc.N)] := by
    simp only [calls]
    cases hg : D.isEndState sc.N.state with
    | true => rw [aStar_goal D hsel hg, hassign]
    | false => rw [aStar_expand D hsel hg, hassign]
  refine ⟨sc.N, l1, l2, by simp [settled, hsel], h1, ?_, ?_, hfresh, hcl, ?_, ?_, ?_, ?_⟩
  · rw [hcl]
    simp only [calls]
    cases hg : D.isEndState sc.N.state with
    | true => rw [aStar_goal D hsel hg, h2]; simp
    | false => rw [aStar_expand D hsel hg, h2, hassign]; simp
  · intro hmem
    apply hI'.disjoint _ hmem
    rw [hcl, closedKeys_append]
    simp
  · rw [hcl]; simp
  · intro s hs
    rw [hcl]
    exact closedFind_append_ne _ _ hs
  · simp only [calls]
    cases hg : D.isEndState sc.N.state with
    | true => rw [aStar_goal D hsel hg]
    | false => rw [aStar_expand D hsel hg]
  · intro hg
    simp only [calls]
    rw [aStar_expand D hsel hg]

/-- Witness of C16 on `stepDomain 2`: the second call, made on an open list of two nodes. -/
theorem C16_one_settlement_witness :
    (calls (stepDomain 2) 1 (State.new 0)).openList ≠ [] ∧
      (calls (stepDomain 2) 2 (State.new 0)).closedList.length =
        (calls (stepDomain 2) 1 (State.new 0)).closedList.length + 1 :=
  ⟨by decide!, by
    obtain ⟨_, _, _, _, _, _, _, _, _, h, _⟩ :=
      C16_one_settlement (stepDomain 2) 0 1 (by decide!)
    exact h⟩

/-- C17 (predecessors stay alive): after any number `k` of calls on a fresh `State(start)`,
a node of the open or the closed list without predecessor is the start node
`PlanNode(start, 0, 0, 0, 0)`, and the predecessor of every other node of the two lists is
the closed-list entry of the predecessor's state; a node discarded by an open-list
replacement in an earlier call is in neither list and is not the predecessor of any node
of the two lists. -/
theorem C17_predecessors_alive (D : Domain S A) (start : S) (k : Nat) :
    (∀ n, (n ∈ (calls D k (State.new start)).openList ∨
          ∃ s, (s, n) ∈ (calls D k (State.new start)).closedList) →
        (n.prevNode = none → n = PlanNode.root start none 0 0) ∧
        (∀ p, n.prevNode = some p →
          closedFind (calls D k (State.new start)).closedList p.state = some p)) ∧
      ∀ j e, j < k → Discards D (calls D j (State.new start)) e →
        e ∉ (calls D k (State.new start)).openList ∧
        (∀ s, (s, e) ∉ (calls D k (State.new start)).closedList) ∧
        ∀ n, (n ∈ (calls D k (State.new start)).openList ∨
            ∃ s, (s, n) ∈ (calls D k (State.new start)).closedList) →
          n.prevNode ≠ some e := by
  obtain ⟨lo, lc⟩ := linked_calls D start k
  obtain ⟨co, cc⟩ := created_calls D start k
  have hlink : ∀ n, (n ∈ (calls D k (State.new start)).openList ∨
      ∃ s, (s, n) ∈ (calls D k (State.new start)).closedList) →
      ∀ p, n.prevNode = some p →
        closedFind (calls D k (State.new start)).closedList p.state = some p := by
    intro n hn p hp
    rcases hn with h | ⟨s, h⟩
    · exact lo n h p hp
    · exact lc (s, n) h p hp
  refine ⟨?_, ?_⟩
  · intro n hn
    refine ⟨?_, hlink n hn⟩
    intro hp
    rcases hn with h | ⟨s, h⟩
    · exact created_root (co n h) hp
    · exact created_root (cc (s, n) h) hp
  · intro j e hj hd
    obtain ⟨h1, h2⟩ := superseded_not_mem (superseded_calls D start hj hd)
    refine ⟨h1, fun s hs => h2 (s, e) hs rfl, ?_⟩
    intro n hn hp
    exact h2 _ (closedFind_mem (hlink n hn e hp)) rfl

/-- C18 (closed-set permanence limitation): `detourDomain` has non-negative integer costs
and a heuristic that never overestimates the remaining cost of a legal action sequence to
a goal state, yet is inconsistent at the legal step `1 → 2`; the fourth call on a fresh
`State(0)` is the first to settle a goal node and returns `true` with the path `[2, 3]` of
summed cost 7, although the legal sequence `[1, 2, 3]` reaches the goal at summed cost 6. -/
theorem C18_closed_set_limitation :
    (∀ s a, ∃ m : ℕ, detourDomain.getGCost s a = m) ∧
      (∀ s path, legalPath detourDomain s path = true →
        detourDomain.isEndState (applyPath detourDomain s path) = true →
        detourDomain.getHCost s ≤ pathCost detourDomain s path) ∧
      (2 ∈ detourDomain.actions ∧ detourDomain.isLegalAction 1 2 = true ∧
        detourDomain.getHCost 1 >
          detourDomain.getGCost 1 2 + detourDomain.getHCost (detourDomain.apply 2 1)) ∧
      (∀ j < 3, found detourDomain (calls detourDomain j (State.new 0)) = false) ∧
      found detourDomain (calls detourDomain 3 (State.new 0)) = true ∧
      (aStar detourDomain (calls detourDomain 3 (State.new 0))).2 = true ∧
      (calls detourDomain 4 (State.new 0)).path = [2, 3] ∧
      pathCost detourDomain 0 (calls detourDomain 4 (State.new 0)).path = 7 ∧
      listed detourDomain [1, 2, 3] ∧
      legalPath detourDomain 0 [1, 2, 3] = true ∧
      detourDomain.isEndState (applyPath detourDomain 0 [1, 2, 3]) = true ∧
      pathCost detourDomain 0 [1, 2, 3] = 6 ∧
      pathCost detourDomain 0 [1, 2, 3] <
        pathCost detourDomain 0 (calls detourDomain 4 (State.new 0)).path := by
  refine ⟨?_, detourDomain_admissible, ⟨by decide, by decide, by decide!⟩, by decide!,
    by decide!, by decide!, by decide!, by decide!, ?_, by decide!, by decide!, by decide!,
    by decide!⟩
  · intro s a
    simp only [detourDomain]
    split_ifs
    · exact ⟨1, by norm_num⟩
    · exact ⟨3, by norm_num⟩
    · exact ⟨1, by norm_num⟩
    · exact ⟨4, by norm_num⟩
  · intro a ha
    simp only [List.mem_cons, List.mem_singleton, List.not_mem_nil, or_false] at ha
    simp only [detourDomain, List.mem_cons, List.mem_singleton]
    tauto

omit [DecidableEq S] in
/-- C19 (selection with integer costs): if `getF()` of every node of a non-empty open list
is a non-negative integer, the selection scan ends with `nF` equal to `getF()` of the
selected node `N`, and `N` is the node at `index`, no open-list node has a smaller
`getF()`, and every node at a lower index has a greater `getF()`. -/
theorem C19_integer_selection (ol : List (PlanNode S A)) (hne : ol ≠ [])
    (hint : ∀ n ∈ ol, ∃ m : ℕ, n.getF = m) :
    ∃ sc, selectN ol = some sc ∧ ol[sc.index]? = some sc.N ∧ (sc.nF : Cost) = sc.N.getF ∧
      (∀ n ∈ ol, sc.N.getF ≤ n.getF) ∧
      ∀ j n, j < sc.index → ol[j]? = some n → sc.N.getF < n.getF := by
  cases ol with
  | nil => exact absurd rfl hne
  | cons n0 rest =>
    refine ⟨_, rfl, ?_⟩
    have h := scanLoop_min (n0 :: rest) [] { N := n0, nF := toInt n0.getF, index := 0 }
      (by simpa using hint) (by simp) (toInt_cast_of_nat (hint n0 (by simp)))
      (by simp) (by simp)
    simpa using h

/-- Witness of C19 on the open list that the first call on `stepDomain 2` leaves. -/
theorem C19_integer_selection_witness :
    (calls (stepDomain 2) 1 (State.new 0)).openList ≠ [] ∧
      ∃ sc, selectN (calls (stepDomain 2) 1 (State.new 0)).openList = some sc ∧
        (calls (stepDomain 2) 1 (State.new 0)).openList[sc.index]? = some sc.N ∧
        (sc.nF : Cost) = sc.N.getF ∧
        (∀ n ∈ (calls (stepDomain 2) 1 (State.new 0)).openList, sc.N.getF ≤ n.getF) ∧
        ∀ j n, j < sc.index → (calls (stepDomain 2) 1 (State.new 0)).openList[j]? = some n →
          sc.N.getF < n.getF :=
  ⟨by decide!, C19_integer_selection (calls (stepDomain 2) 1 (State.new 0)).openList
    (by decide!) (by
      have h : (calls (stepDomain 2) 1 (State.new 0)).openList =
          [PlanNode.node 1 (some 1) 1 0 (PlanNode.root 0 none 0 0),
           PlanNode.node 2 (some 2) 5 0 (PlanNode.root 0 none 0 0)] := by decide!
      rw [h]
      intro n hn
      simp only [List.mem_cons, List.mem_singleton, List.not_mem_nil, or_false] at hn
      rcases hn with rfl | rfl
      · exact ⟨1, by decide!⟩
      · exact ⟨5, by decide!⟩)⟩

/-- C20 (optimality with integer costs and a consistent heuristic), with all sums exact:
let every `getGCost` and `getHCost` value be a non-negative integer, let `getHCost` be 0
on the states satisfying `isEndState`, let it be consistent, and let the summed cost of
every legal sequence of listed actions from `start` that passes no state twice, plus the
heuristic of the state it reaches, be at most `2^24` (so that every `float` sum of the
search is exact and within the range of `int`).  If no call before call `k + 1` on a fresh `State(start)`
settles a goal node and call `k + 1` settles the node `N`, then the route of `N` is a
legal sequence of listed actions from `start` to the state of `N` whose summed cost is
`getTotalG()` of `N`, no such sequence to that state costs less, and if `N` satisfies
`isEndState` then `state.path` is that route and no legal sequence of listed actions from
`start` to any state satisfying `isEndState` costs less than it. -/
theorem C20_optimality (D : Domain S A) (start : S)
    (hg : ∀ s a, ∃ m : ℕ, D.getGCost s a = m) (hh : ∀ s, ∃ m : ℕ, D.getHCost s = m)
    (hgoal : ∀ s, D.isEndState s = true → D.getHCost s = 0)
    (hcons : ∀ s a, a ∈ D.actions → D.isLegalAction s a = true →
      D.getHCost s ≤ D.getGCost s a + D.getHCost (D.apply a s))
    (hbound : ∀ path, listed D path → legalPath D start path = true →
      (visits D start path).Nodup →
      pathCost D start path + D.getHCost (applyPath D start path) ≤ 16777216)
    (k : Nat) (hno : ∀ j < k, found D (calls D j (State.new start)) = false)
    (N : PlanNode S A) (hN : settled (calls D k (State.new start)) = some N) :
    (listed D N.route ∧ legalPath D start N.route = true ∧
        applyPath D start N.route = N.state ∧ pathCost D start N.route = N.getTotalG) ∧
      (∀ path, listed D path → legalPath D start path = true →
        applyPath D start path = N.state → N.getTotalG ≤ pathCost D start path) ∧
      (D.isEndState N.state = true →
        (calls D (k + 1) (State.new start)).path = N.route ∧
        ∀ path, listed D path → legalPath D start path = true →
          D.isEndState (applyPath D start path) = true →
          pathCost D start (calls D (k + 1) (State.new start)).path ≤
            pathCost D start path) := by
  unfold settled at hN
  obtain ⟨sc, hsel, rfl⟩ := Option.map_eq_some'.mp hN
  have hI := inv_calls D start k
  have hO := optimal_calls D start hg hh hcons hbound k hno
  have hS := searching_calls D start k hno
  obtain ⟨_, _, _, _, hfresh, _⟩ := select_facts hI hsel
  have hcr := (created_calls D start k).1 sc.N (List.getElem?_mem (selectN_get hsel))
  obtain ⟨r1, r2, r3, r4, _⟩ := created_route sc.N hcr
  rw [← (created_exact D start hg hh hbound sc.N hcr
    ((simple_calls D start k).1 sc.N (List.getElem?_mem (selectN_get hsel))).1).1] at r4
  refine ⟨⟨r1, r2, r3, r4⟩, ?_, ?_⟩
  · intro path hl hlegal hend
    have := selected_le D start hg hh hcons hbound k hO hsel path hl hlegal
      (by rw [hend]; exact hfresh)
    rw [hend] at this
    linarith
  · intro hend
    have hpath : (calls D (k + 1) (State.new start)).path = sc.N.route := by
      simp only [calls]
      rw [aStar_goal D hsel hend, hS.path_nil]
      simpa using buildPath_route sc.N (created_chain sc.N hcr) []
    refine ⟨hpath, ?_⟩
    intro path hl hlegal hpg
    have hnc : applyPath D start path ∉ closedKeys (calls D k (State.new start)).closedList := by
      intro hc
      have := hS.closed_not_goal _ hc
      rw [hpg] at this
      exact absurd this (by simp)
    have := selected_le D start hg hh hcons hbound k hO hsel path hl hlegal hnc
    rw [hgoal _ hend, hgoal _ hpg] at this
    rw [hpath, r4]
    linarith

/-- Witness of C20 on `ringDomain` (a cycle of three states, unit costs, zero heuristic;
a sequence that passes no state twice costs at most 2): the third call settles the goal
node reached by two actions, at total cost 2. -/
theorem C20_optimality_witness :
    (∀ j < 2, found ringDomain (calls ringDomain j (State.new 0)) = false) ∧
      settled (calls ringDomain 2 (State.new 0)) =
        some (PlanNode.node 2 (some ()) 1 0
          (PlanNode.node 1 (some ()) 1 0 (PlanNode.root 0 none 0 0))) ∧
      (calls ringDomain 3 (State.new 0)).path = [(), ()] ∧
      ∀ path, listed ringDomain path → legalPath ringDomain 0 path = true →
        ringDomain.isEndState (applyPath ringDomain 0 path) = true →
        pathCost ringDomain 0 (calls ringDomain 3 (State.new 0)).path ≤
          pathCost ringDomain 0 path :=
  ⟨by decide!, by decide!,
    ((C20_optimality ringDomain 0 (fun _ _ => ⟨1, by simp [ringDomain]⟩)
      (fun _ => ⟨0, by simp [ringDomain]⟩) (fun _ _ => rfl)
      (fun _ _ _ _ => by simp [ringDomain])
      ringDomain_bound 2 (by decide!)
      (PlanNode.node 2 (some ()) 1 0 (PlanNode.node 1 (some ()) 1 0 (PlanNode.root 0 none 0 0)))
      (by decide!)).2.2 (by decide)).1.trans (by decide),
    ((C20_optimality ringDomain 0 (fun _ _ => ⟨1, by simp [ringDomain]⟩)
      (fun _ => ⟨0, by simp [ringDomain]⟩) (fun _ _ => rfl)
      (fun _ _ _ _ => by simp [ringDomain])
      ringDomain_bound 2 (by decide!)
      (PlanNode.node 2 (some ()) 1 0 (PlanNode.node 1 (some ()) 1 0 (PlanNode.root 0 none 0 0)))
      (by decide!)).2.2 (by decide)).2⟩

/-- C20 as stated fails on `roundingDomain`, whose costs are non-negative integers and whose
heuristic is zero: the `float` sum 16777215 + 2 is 16777216, the cheaper node of the state
`10` (total 16777216) does not replace it, and the fourth call on a fresh `State(0)`, the
first to settle a goal node, leaves the path `[1, 10]` of summed cost 16777217, although
the legal sequence `[2, 10]` reaches the goal at summed cost 16777216. -/
theorem C20_rounding_not_optimal :
    (∀ s a, ∃ m : ℕ, roundingDomain.getGCost s a = m) ∧
      (∀ s, ∃ m : ℕ, roundingDomain.getHCost s = m) ∧
      (∀ s, roundingDomain.isEndState s = true → roundingDomain.getHCost s = 0) ∧
      (∀ s a, a ∈ roundingDomain.actions → roundingDomain.isLegalAction s a = true →
        roundingDomain.getHCost s ≤
          roundingDomain.getGCost s a + roundingDomain.getHCost (roundingDomain.apply a s)) ∧
      (∀ j < 3, found roundingDomain (calls roundingDomain j (State.new 0)) = false) ∧
      found roundingDomain (calls roundingDomain 3 (State.new 0)) = true ∧
      settled (calls roundingDomain 3 (State.new 0)) =
        some (PlanNode.node 10 (some 10) 16777215 0
          (PlanNode.node 1 (some 1) 2 0 (PlanNode.root 0 none 0 0))) ∧
      (calls roundingDomain 4 (State.new 0)).path = [1, 10] ∧
      pathCost roundingDomain 0 (calls roundingDomain 4 (State.new 0)).path = 16777217 ∧
      listed roundingDomain [2, 10] ∧
      legalPath roundingDomain 0 [2, 10] = true ∧
      roundingDomain.isEndState (applyPath roundingDomain 0 [2, 10]) = true ∧
      pathCost roundingDomain 0 [2, 10] = 16777216 ∧
      pathCost roundingDomain 0 [2, 10] <
        pathCost roundingDomain 0 (calls roundingDomain 4 (State.new 0)).path := by
  refine ⟨roundingDomain_cost_nat, fun _ => ⟨0, by simp [roundingDomain]⟩, fun _ _ => rfl,
    ?_, by decide!, by decide!, by decide!, by decide!, by decide!, ?_, by decide!,
    by decide!, by decide!, by decide!⟩
  · intro s a _ _
    obtain ⟨m, hm⟩ := roundingDomain_cost_nat s a
    have h0 : ∀ t, roundingDomain.getHCost t = 0 := fun _ => rfl
    rw [h0, h0, hm]
    positivity
  · intro a ha
    simp only [List.mem_cons, List.mem_singleton, List.not_mem_nil, or_false] at ha
    simp only [roundingDomain, List.mem_cons, List.mem_singleton]
    tauto

end Claims

end astar
